import Mathlib

/-!
# Raymond: validate and rename passes over the template tree

A shallow embedding of `validate.go`, `rename.go` and the entry points of
`template.go`.  Go strings are modelled by Lean strings (sequences of
characters, i.e. valid UTF-8 text), Go maps by association lists given in
the order in which `range` happens to iterate them, the in-place mutation of
the tree by `Rename` by returning the rewritten tree, the `error` values
built with `fmt.Errorf` by a data type carrying the format arguments, and a
call that may panic by an `Outcome`.  The visitors are state-passing
functions: every visit returns its result together with the visitor as the
visit left it.  The node declarations and the methods `HelperName`,
`LiteralStr` and `FieldPath` of package `ast` are in `node.go`, which is not
among the files; they follow the data model of the specification.
-/

namespace Raymond

/-! ## The Go `strings` functions used by the passes -/

/-- The pieces of a character sequence between the occurrences of `sep`
(`strings.Split` with a one-character separator): never an empty list. -/
def splitChars (sep : Char) : List Char → List (List Char)
  | [] => [[]]
  | c :: cs =>
    if c = sep then [] :: splitChars sep cs
    else
      match splitChars sep cs with
      | [] => [[c]]
      | p :: ps => (c :: p) :: ps

/-- The pieces joined with `sep` between them (`strings.Join`). -/
def joinChars (sep : List Char) : List (List Char) → List Char
  | [] => []
  | [p] => p
  | p :: q :: ps => p ++ sep ++ joinChars sep (q :: ps)

/-- Whether `sub` occurs somewhere in the sequence. -/
def containsChars (sub : List Char) : List Char → Bool
  | [] => sub.isEmpty
  | c :: cs => sub.isPrefixOf (c :: cs) || containsChars sub cs

/-- The sequence with its first occurrence of `old` replaced by `new`; the
empty `old` occurs at the very start. -/
def replaceFirstChars (old new : List Char) : List Char → List Char
  | [] => if old.isEmpty then new else []
  | c :: cs =>
    if old.isPrefixOf (c :: cs) then new ++ (c :: cs).drop old.length
    else c :: replaceFirstChars old new cs

/-- Go `strings.HasPrefix(s, pre)`. -/
def strings.HasPrefix (s pre : String) : Bool :=
  pre.data.isPrefixOf s.data

/-- Go `strings.Contains(s, substr)`. -/
def strings.Contains (s substr : String) : Bool :=
  containsChars substr.data s.data

/-- Go `strings.Split(s, sep)` for a separator of one character. -/
def strings.Split (s : String) (sep : Char) : List String :=
  (splitChars sep s.data).map String.mk

/-- Go `strings.Join(elems, sep)`. -/
def strings.Join (elems : List String) (sep : String) : String :=
  String.mk (joinChars sep.data (elems.map String.data))

/-- Go `strings.Replace(s, old, new, 1)`: only the first occurrence of `old`
is replaced. -/
def strings.Replace1 (s old new : String) : String :=
  String.mk (replaceFirstChars old.data new.data s.data)

/-! ## The tree (package `ast`) -/

/-- A helper as the registries hold it: a `reflect.Value` of a function,
treated as a handle.  The zero `reflect.Value` is modelled by `none`. -/
structure Helper where
  id : Nat
deriving DecidableEq, Repr

/-- Modelled from the spec: the node declarations of package `ast` (`node.go`)
are not among the files; `PathExpression` has the original raw text and the
ordered dot-split segments. -/
structure PathExpression where
  Original : String
  Parts : List String
deriving DecidableEq, Repr

/-- Modelled from the spec: a string literal, typed value only. -/
structure StringLiteral where
  Value : String
deriving DecidableEq, Repr

/-- Modelled from the spec: a boolean literal, typed value and raw text. -/
structure BooleanLiteral where
  Value : Bool
  Original : String
deriving DecidableEq, Repr

/-- Modelled from the spec: a number literal; the passes read its raw text
only, the numeric value is kept as the integer flag and the raw spelling. -/
structure NumberLiteral where
  IsInt : Bool
  Original : String
deriving DecidableEq, Repr

/-- Modelled from the spec: raw template text. -/
structure ContentStatement where
  Value : String
  Original : String
deriving DecidableEq, Repr

/-- Modelled from the spec: a comment. -/
structure CommentStatement where
  Value : String
deriving DecidableEq, Repr

mutual
/-- Modelled from the spec: the closed set of node variants (the Go interface
`ast.Node`); every slot the Go declarations type as `Node` holds a `Node`
here. -/
inductive Node where
  | program (node : Program)
  | mustache (node : MustacheStatement)
  | block (node : BlockStatement)
  | partialStatement (node : PartialStatement)
  | content (node : ContentStatement)
  | comment (node : CommentStatement)
  | expression (node : Expression)
  | subExpression (node : SubExpression)
  | path (node : PathExpression)
  | string (node : StringLiteral)
  | boolean (node : BooleanLiteral)
  | number (node : NumberLiteral)
  | hash (node : Hash)
  | hashPair (node : HashPair)
/-- Modelled from the spec: block-parameter names and the statements. -/
inductive Program where
  | mk (blockParams : List String) (body : List Node)
/-- Modelled from the spec: a mustache holds one expression. -/
inductive MustacheStatement where
  | mk (expression : Expression)
/-- Modelled from the spec: the block call, the optional primary program and
the optional inverse program (`nil` is `none`). -/
inductive BlockStatement where
  | mk (expression : Expression) (program : Option Program) (inverse : Option Program)
/-- Modelled from the spec: name expression, arguments, optional hash. -/
inductive PartialStatement where
  | mk (name : Node) (params : List Node) (hash : Option Hash)
/-- Modelled from the spec: callee path node, parameters, optional hash. -/
inductive Expression where
  | mk (path : Node) (params : List Node) (hash : Option Hash)
/-- Modelled from the spec: a nested expression usable as a parameter. -/
inductive SubExpression where
  | mk (expression : Expression)
/-- Modelled from the spec: the pairs in insertion order. -/
inductive Hash where
  | mk (pairs : List HashPair)
/-- Modelled from the spec: a key and one value node. -/
inductive HashPair where
  | mk (key : String) (val : Node)
end

/-- Field `Body` of a program. -/
def Program.Body : Program → List Node
  | .mk _ body => body

/-- Field `BlockParams` of a program. -/
def Program.BlockParams : Program → List String
  | .mk bp _ => bp

/-- Field `Path` of an expression. -/
def Expression.Path : Expression → Node
  | .mk p _ _ => p

/-- Field `Params` of an expression. -/
def Expression.Params : Expression → List Node
  | .mk _ ps _ => ps

/-- Field `Hash` of an expression. -/
def Expression.Hash : Expression → Option Hash
  | .mk _ _ h => h

/-- Modelled from the spec: `Expression.HelperName` of `node.go`, which is not
among the files: the name under which the expression can call a helper, the
single segment of its path, or the empty string when the path is not a path
expression or has any other number of segments. -/
def Expression.HelperName (node : Expression) : String :=
  match node.Path with
  | .path p =>
    match p.Parts with
    | [name] => name
    | _ => ""
  | _ => ""

/-- Modelled from the spec: `ast.LiteralStr` of `node.go`: the text of a
literal node, with `false` when the node is no literal. -/
def ast.LiteralStr : Node → String × Bool
  | .string n => (n.Value, true)
  | .boolean n => (n.Original, true)
  | .number n => (n.Original, true)
  | _ => ("", false)

/-- Modelled from the spec: `Expression.LiteralStr` of `node.go`: the
expression is a literal pass-through when its path is a literal node. -/
def Expression.LiteralStr (node : Expression) : String × Bool :=
  ast.LiteralStr node.Path

/-- Modelled from the spec: `Expression.FieldPath` of `node.go`: the path as a
path expression, or `nil` when the path node is of another variant. -/
def Expression.FieldPath (node : Expression) : Option PathExpression :=
  match node.Path with
  | .path p => some p
  | _ => none

/-! ## Templates, registries, errors -/

/-- A Go map with string keys, as the list of its entries in iteration
order; `m[k]` is the value of the entry with key `k`, or the zero value. -/
abbrev GoMap (α : Type) := List (String × α)

/-- The value `m[k]` of a Go map, `none` for the zero value of a missing key. -/
def GoMap.get {α : Type} (m : GoMap α) (k : String) : Option α :=
  List.lookup k m

mutual
/-- The struct `Template` of `template.go`, without its mutex. -/
inductive Template where
  | mk (source : String) (program : Option Program) (helpers : GoMap Helper)
      (partials : List (String × Partial)) (unescaped : Bool)
/-- The struct of `partial.go` (there spelled in lower case, a word Lean
reserves); `tpl` is `none` for the nil pointer. -/
inductive Partial where
  | mk (name : String) (source : String) (tpl : Option Template) (unescaped : Bool)
end

/-- Field `source`. -/
def Template.source : Template → String
  | .mk s _ _ _ _ => s

/-- Field `program`, `none` while the template is not parsed. -/
def Template.program : Template → Option Program
  | .mk _ p _ _ _ => p

/-- Field `helpers`. -/
def Template.helpers : Template → GoMap Helper
  | .mk _ _ h _ _ => h

/-- Field `partials`. -/
def Template.partials : Template → GoMap Partial
  | .mk _ _ _ ps _ => ps

/-- Field `unescaped`. -/
def Template.unescaped : Template → Bool
  | .mk _ _ _ _ u => u

/-- Assignment to field `program`. -/
def Template.setProgram : Template → Option Program → Template
  | .mk s _ h ps u, p => .mk s p h ps u

/-- The `error` values the passes build, by their format arguments:
`fmt.Errorf("Invalid variable reference %s (not in %#v)", original, variables)`,
`fmt.Errorf("Template could not be parsed: %s", err)` and
`fmt.Errorf("Partial already registered: %s", name)`; `parser` is the error
`parser.Parse` returned, passed on as it is, and `raised` any other error
value, such as one an evaluation raises, by its message. -/
inductive Err where
  | invalidVariableReference (original : String) (variables_ : List String)
  | couldNotBeParsed (err : String)
  | parser (err : String)
  | partialAlreadyRegistered (name : String)
  | raised (msg : String)
deriving DecidableEq, Repr

/-- The value a Go panic carries: a runtime fault (`runtime.Error`, such as a
nil dereference), an ordinary `error`, or a value that is no error. -/
inductive Panic where
  | runtimeError (msg : String)
  | error (err : Err)
  | value (msg : String)
deriving DecidableEq, Repr

/-- How a call ends: it returns, or a panic leaves it. -/
inductive Outcome (α : Type) where
  | returned (a : α)
  | panicked (p : Panic)
deriving DecidableEq, Repr

/-- The external parser `parser.Parse(source, unescaped)`: a program or a
parse error. -/
abbrev Parser := String → Bool → Except String Program

/-- Go `Template.parse`: parses the source unless a tree is already there; on a
parse error the error is returned and no tree is set. -/
def Template.parse (parser : Parser) (tpl : Template) : Option String × Template :=
  match tpl.program with
  | none =>
    match parser tpl.source tpl.unescaped with
    | .ok program => (none, tpl.setProgram (some program))
    | .error err => (some err, tpl)
  | some _ => (none, tpl)

/-- Go `Template.findHelper`: `tpl.helpers[name]`. -/
def Template.findHelper (tpl : Template) (name : String) : Option Helper :=
  tpl.helpers.get name

/-- The package-level `findHelper(name)` of `helper.go`, over the
process-global helper registry `helpers`, which is a parameter here. -/
def findHelper (helpers : GoMap Helper) (name : String) : Option Helper :=
  helpers.get name

/-! ## The validate pass (`validate.go`) -/

/-- The struct `validateVisitor`.  The field `variables` (a word Lean
reserves) is the key set of the Go map in iteration order; `curNode` and
`blockStack` hold the nodes the Go pointers point to. -/
structure validateVisitor where
  tpl : Template
  curNode : Option Node
  variables_ : List String
  blockStack : List BlockStatement

/-- Go `newValidateVisitor`. -/
def newValidateVisitor (tpl : Template) (variables_ : List String) : validateVisitor :=
  { tpl := tpl, curNode := none, variables_ := variables_, blockStack := [] }

/-- Go `validateVisitor.at` (a word Lean reserves): sets the current node. -/
def validateVisitor.at_ (v : validateVisitor) (node : Node) : validateVisitor :=
  { v with curNode := some node }

/-- Go `validateVisitor.inBlock`. -/
def validateVisitor.inBlock (v : validateVisitor) : Bool :=
  decide (v.blockStack.length > 0)

/-- Go `validateVisitor.findHelper`: the template's helpers, then the global
ones (`g`). -/
def validateVisitor.findHelper (g : GoMap Helper) (v : validateVisitor) (name : String) :
    Option Helper :=
  match v.tpl.findHelper name with
  | some h => some h
  | none => Raymond.findHelper g name

/-- Go `validateVisitor.VisitPath`: inside a block nothing is checked; elsewhere
a path with at least one segment must have its first segment equal to a
variable or to `"[" + variable + "]"`. -/
def validateVisitor.VisitPath (v : validateVisitor) (node : PathExpression) : Option Err :=
  if v.inBlock then
    none
  else
    match node.Parts with
    | [] => none
    | part0 :: _ =>
      let found := v.variables_.foldl
        (fun found val =>
          let escapedVal := "[" ++ val ++ "]"
          if val == part0 || escapedVal == part0 then true else found)
        false
      if !found then
        some (Err.invalidVariableReference node.Original v.variables_)
      else
        none

mutual
/-- The dispatch `node.Accept(v)` for a validate visitor. -/
def validateVisitor.Accept (g : GoMap Helper) (v : validateVisitor) :
    Node → Option Err × validateVisitor
  | .program n => validateVisitor.VisitProgram g v n
  | .mustache n => validateVisitor.VisitMustache g v n
  | .block n => validateVisitor.VisitBlock g v n
  | .partialStatement n => (none, v.at_ (.partialStatement n))
  | .content n => (none, v.at_ (.content n))
  | .comment n => (none, v.at_ (.comment n))
  | .expression n => validateVisitor.VisitExpression g v n
  | .subExpression n => validateVisitor.VisitSubExpression g v n
  | .path n => (v.VisitPath n, v)
  | .string n => (none, v.at_ (.string n))
  | .boolean n => (none, v.at_ (.boolean n))
  | .number n => (none, v.at_ (.number n))
  | .hash n => validateVisitor.VisitHash g v n
  | .hashPair n => validateVisitor.VisitHashPair g v n
/-- The loop `for _, n := range nodes` that accepts each node and returns
at the first error. -/
def validateVisitor.acceptEach (g : GoMap Helper) (v : validateVisitor) :
    List Node → Option Err × validateVisitor
  | [] => (none, v)
  | n :: ns =>
    match validateVisitor.Accept g v n with
    | (some err, v) => (some err, v)
    | (none, v) => validateVisitor.acceptEach g v ns
/-- Go `validateVisitor.VisitProgram`. -/
def validateVisitor.VisitProgram (g : GoMap Helper) (v : validateVisitor) (node : Program) :
    Option Err × validateVisitor :=
  let v := v.at_ (.program node)
  match node with
  | .mk _ body => validateVisitor.acceptEach g v body
/-- Go `validateVisitor.VisitMustache`. -/
def validateVisitor.VisitMustache (g : GoMap Helper) (v : validateVisitor)
    (node : MustacheStatement) : Option Err × validateVisitor :=
  let v := v.at_ (.mustache node)
  match node with
  | .mk expression => validateVisitor.VisitExpression g v expression
/-- Go `validateVisitor.VisitBlock`: the block is pushed before its own
expression is visited and popped, by `v.blockStack[:len(v.blockStack)-1]`,
only when nothing failed; the stack is not empty there, since every visit
without error leaves it as it found it (`validateVisitor.Accept_inv`). -/
def validateVisitor.VisitBlock (g : GoMap Helper) (v : validateVisitor)
    (node : BlockStatement) : Option Err × validateVisitor :=
  let v := v.at_ (.block node)
  let v := { v with blockStack := v.blockStack ++ [node] }
  match node with
  | .mk expression program inverse =>
    match validateVisitor.VisitExpression g v expression with
    | (some err, v) => (some err, v)
    | (none, v) =>
      match validateVisitor.acceptIfPresent g v program with
      | (some err, v) => (some err, v)
      | (none, v) =>
        match validateVisitor.acceptIfPresent g v inverse with
        | (some err, v) => (some err, v)
        | (none, v) => (none, { v with blockStack := v.blockStack.dropLast })
/-- The guarded visit `if p != nil { err := p.Accept(v) ... }` of a block body
that may be absent. -/
def validateVisitor.acceptIfPresent (g : GoMap Helper) (v : validateVisitor) :
    Option Program → Option Err × validateVisitor
  | some p => validateVisitor.VisitProgram g v p
  | none => (none, v)
/-- Go `validateVisitor.VisitExpression`: the parameters, then the helper
check, the literal check and the field path. -/
def validateVisitor.VisitExpression (g : GoMap Helper) (v : validateVisitor)
    (node : Expression) : Option Err × validateVisitor :=
  match node with
  | .mk _ params _ =>
    match validateVisitor.acceptEach g v params with
    | (some err, v) => (some err, v)
    | (none, v) =>
      let helperName := node.HelperName
      let done := helperName != "" && (v.findHelper g helperName).isSome
      if !done && node.LiteralStr.2 then
        (none, v)
      else if !done then
        match node.FieldPath with
        | some path =>
          match v.VisitPath path with
          | some err => (some err, v)
          | none => (none, v)
        | none => (none, v)
      else
        (none, v)
/-- Go `validateVisitor.VisitSubExpression`. -/
def validateVisitor.VisitSubExpression (g : GoMap Helper) (v : validateVisitor)
    (node : SubExpression) : Option Err × validateVisitor :=
  let v := v.at_ (.subExpression node)
  match node with
  | .mk expression => validateVisitor.VisitExpression g v expression
/-- Go `validateVisitor.VisitHash`. -/
def validateVisitor.VisitHash (g : GoMap Helper) (v : validateVisitor) (node : Hash) :
    Option Err × validateVisitor :=
  let v := v.at_ (.hash node)
  match node with
  | .mk pairs => validateVisitor.acceptPairs g v pairs
/-- The loop over the pairs of a hash. -/
def validateVisitor.acceptPairs (g : GoMap Helper) (v : validateVisitor) :
    List HashPair → Option Err × validateVisitor
  | [] => (none, v)
  | p :: ps =>
    match validateVisitor.VisitHashPair g v p with
    | (some err, v) => (some err, v)
    | (none, v) => validateVisitor.acceptPairs g v ps
/-- Go `validateVisitor.VisitHashPair`. -/
def validateVisitor.VisitHashPair (g : GoMap Helper) (v : validateVisitor) (node : HashPair) :
    Option Err × validateVisitor :=
  let v := v.at_ (.hashPair node)
  match node with
  | .mk _ val => validateVisitor.Accept g v val
end

/-- Go `Template.Validate`: parse if necessary, then walk the tree with a fresh
validate visitor.  Walking a nil program is a nil dereference. -/
def Template.Validate (parser : Parser) (g : GoMap Helper) (tpl : Template)
    (variables_ : List String) : Outcome (Option Err) × Template :=
  match tpl.parse parser with
  | (some err, tpl) => (.returned (some (Err.couldNotBeParsed err)), tpl)
  | (none, tpl) =>
    let v := newValidateVisitor tpl variables_
    match tpl.program with
    | some program => (.returned (validateVisitor.VisitProgram g v program).1, tpl)
    | none => (.panicked (.runtimeError "nil pointer dereference"), tpl)

/-! ## The rename pass (`rename.go`) -/

/-- Go `escapeString`: the text is split on `"."`, every piece that contains a
space and does not start with `"["` is wrapped in brackets, and the pieces
are joined with `"."` again. -/
def escapeString (str : String) : String :=
  let parts := strings.Split str '.'
  let parts := parts.map (fun part =>
    if strings.Contains part " " && !strings.HasPrefix part "[" then
      "[" ++ part ++ "]"
    else
      part)
  strings.Join parts "."

/-- The struct `renameVisitor`.  The field `variables` (a word Lean reserves)
is the Go map as its pairs in iteration order; `curNode` and `blockStack` hold
the nodes as they were when the pointer was stored. -/
structure renameVisitor where
  tpl : Template
  curNode : Option Node
  variables_ : List (String × String)
  blockStack : List BlockStatement

/-- Go `newRenameVisitor`. -/
def newRenameVisitor (tpl : Template) (variables_ : List (String × String)) : renameVisitor :=
  { tpl := tpl, curNode := none, variables_ := variables_, blockStack := [] }

/-- Go `renameVisitor.at` (a word Lean reserves): sets the current node. -/
def renameVisitor.at_ (v : renameVisitor) (node : Node) : renameVisitor :=
  { v with curNode := some node }

/-- Go `renameVisitor.findHelper`: the template's helpers, then the global
ones (`g`). -/
def renameVisitor.findHelper (g : GoMap Helper) (v : renameVisitor) (name : String) :
    Option Helper :=
  match v.tpl.findHelper name with
  | some h => some h
  | none => Raymond.findHelper g name

/-- The body of the loop of `renameVisitor.VisitPath` for one pair
`key, newVal` of the mapping: the new value is escaped in both branches, and
the raw text and the first segment are rewritten by separate calls of
`strings.Replace(_, _, _, 1)`. -/
def renamePair (node : PathExpression) (key newVal : String) : PathExpression :=
  let escapedKey := escapeString key
  let newVal := escapeString newVal
  if strings.HasPrefix node.Original key then
    { Original := strings.Replace1 node.Original key newVal
      Parts := node.Parts.modifyHead (fun part0 => strings.Replace1 part0 key newVal) }
  else if strings.HasPrefix node.Original escapedKey then
    { Original := strings.Replace1 node.Original escapedKey newVal
      Parts := node.Parts.modifyHead (fun part0 => strings.Replace1 part0 escapedKey newVal) }
  else
    node

/-- Go `renameVisitor.VisitPath`: for a path with at least one segment every
pair of the mapping is applied in turn, each to what the pairs before it
left; the returned value is always nil.  The list `variables` gives the order
of this one range; Go chooses the order anew at every range, and a traversal
whose ranges take different orders is `renameVisitor.VisitPathAt` and what is
built on it. -/
def renameVisitor.VisitPath (v : renameVisitor) (node : PathExpression) :
    Option Err × PathExpression :=
  match node.Parts with
  | [] => (none, node)
  | _ :: _ =>
    (none, v.variables_.foldl (fun node kv => renamePair node kv.1 kv.2) node)

mutual
/-- The dispatch `node.Accept(v)` for a rename visitor; the node is returned
as the visit left it. -/
def renameVisitor.Accept (g : GoMap Helper) (v : renameVisitor) :
    Node → Option Err × renameVisitor × Node
  | .program n =>
    match renameVisitor.VisitProgram g v n with
    | (err, v, n) => (err, v, .program n)
  | .mustache n =>
    match renameVisitor.VisitMustache g v n with
    | (err, v, n) => (err, v, .mustache n)
  | .block n =>
    match renameVisitor.VisitBlock g v n with
    | (err, v, n) => (err, v, .block n)
  | .partialStatement n => (none, v.at_ (.partialStatement n), .partialStatement n)
  | .content n => (none, v.at_ (.content n), .content n)
  | .comment n => (none, v.at_ (.comment n), .comment n)
  | .expression n =>
    match renameVisitor.VisitExpression g v n with
    | (err, v, n) => (err, v, .expression n)
  | .subExpression n =>
    match renameVisitor.VisitSubExpression g v n with
    | (err, v, n) => (err, v, .subExpression n)
  | .path n =>
    match v.VisitPath n with
    | (err, n) => (err, v, .path n)
  | .string n => (none, v.at_ (.string n), .string n)
  | .boolean n => (none, v.at_ (.boolean n), .boolean n)
  | .number n => (none, v.at_ (.number n), .number n)
  | .hash n =>
    match renameVisitor.VisitHash g v n with
    | (err, v, n) => (err, v, .hash n)
  | .hashPair n =>
    match renameVisitor.VisitHashPair g v n with
    | (err, v, n) => (err, v, .hashPair n)
/-- The loop `for _, n := range nodes` that accepts each node and returns
at the first error, leaving the nodes after it as they were. -/
def renameVisitor.acceptEach (g : GoMap Helper) (v : renameVisitor) :
    List Node → Option Err × renameVisitor × List Node
  | [] => (none, v, [])
  | n :: ns =>
    match renameVisitor.Accept g v n with
    | (some err, v, n) => (some err, v, n :: ns)
    | (none, v, n) =>
      match renameVisitor.acceptEach g v ns with
      | (err, v, ns) => (err, v, n :: ns)
/-- Go `renameVisitor.VisitProgram`. -/
def renameVisitor.VisitProgram (g : GoMap Helper) (v : renameVisitor) (node : Program) :
    Option Err × renameVisitor × Program :=
  let v := v.at_ (.program node)
  match node with
  | .mk blockParams body =>
    match renameVisitor.acceptEach g v body with
    | (err, v, body) => (err, v, .mk blockParams body)
/-- Go `renameVisitor.VisitMustache`. -/
def renameVisitor.VisitMustache (g : GoMap Helper) (v : renameVisitor)
    (node : MustacheStatement) : Option Err × renameVisitor × MustacheStatement :=
  let v := v.at_ (.mustache node)
  match node with
  | .mk expression =>
    match renameVisitor.VisitExpression g v expression with
    | (err, v, expression) => (err, v, .mk expression)
/-- Go `renameVisitor.VisitBlock`. -/
def renameVisitor.VisitBlock (g : GoMap Helper) (v : renameVisitor)
    (node : BlockStatement) : Option Err × renameVisitor × BlockStatement :=
  let v := v.at_ (.block node)
  let v := { v with blockStack := v.blockStack ++ [node] }
  match node with
  | .mk expression program inverse =>
    match renameVisitor.VisitExpression g v expression with
    | (some err, v, expression) => (some err, v, .mk expression program inverse)
    | (none, v, expression) =>
      match renameVisitor.acceptIfPresent g v program with
      | (some err, v, program) => (some err, v, .mk expression program inverse)
      | (none, v, program) =>
        match renameVisitor.acceptIfPresent g v inverse with
        | (some err, v, inverse) => (some err, v, .mk expression program inverse)
        | (none, v, inverse) =>
          (none, { v with blockStack := v.blockStack.dropLast },
            .mk expression program inverse)
/-- The guarded visit `if p != nil { err := p.Accept(v) ... }` of a block body
that may be absent. -/
def renameVisitor.acceptIfPresent (g : GoMap Helper) (v : renameVisitor) :
    Option Program → Option Err × renameVisitor × Option Program
  | some p =>
    match renameVisitor.VisitProgram g v p with
    | (err, v, p) => (err, v, some p)
  | none => (none, v, none)
/-- Go `renameVisitor.VisitExpression`: the parameters, then the helper check,
the literal check and the field path, which is rewritten. -/
def renameVisitor.VisitExpression (g : GoMap Helper) (v : renameVisitor)
    (node : Expression) : Option Err × renameVisitor × Expression :=
  match node with
  | .mk path params hash =>
    match renameVisitor.acceptEach g v params with
    | (some err, v, params) => (some err, v, .mk path params hash)
    | (none, v, params) =>
      let helperName := node.HelperName
      let done := helperName != "" && (v.findHelper g helperName).isSome
      if !done && node.LiteralStr.2 then
        (none, v, .mk path params hash)
      else if !done then
        match node.FieldPath with
        | some p =>
          match v.VisitPath p with
          | (some err, p) => (some err, v, .mk (.path p) params hash)
          | (none, p) => (none, v, .mk (.path p) params hash)
        | none => (none, v, .mk path params hash)
      else
        (none, v, .mk path params hash)
/-- Go `renameVisitor.VisitSubExpression`. -/
def renameVisitor.VisitSubExpression (g : GoMap Helper) (v : renameVisitor)
    (node : SubExpression) : Option Err × renameVisitor × SubExpression :=
  let v := v.at_ (.subExpression node)
  match node with
  | .mk expression =>
    match renameVisitor.VisitExpression g v expression with
    | (err, v, expression) => (err, v, .mk expression)
/-- Go `renameVisitor.VisitHash`. -/
def renameVisitor.VisitHash (g : GoMap Helper) (v : renameVisitor) (node : Hash) :
    Option Err × renameVisitor × Hash :=
  let v := v.at_ (.hash node)
  match node with
  | .mk pairs =>
    match renameVisitor.acceptPairs g v pairs with
    | (err, v, pairs) => (err, v, .mk pairs)
/-- The loop over the pairs of a hash. -/
def renameVisitor.acceptPairs (g : GoMap Helper) (v : renameVisitor) :
    List HashPair → Option Err × renameVisitor × List HashPair
  | [] => (none, v, [])
  | p :: ps =>
    match renameVisitor.VisitHashPair g v p with
    | (some err, v, p) => (some err, v, p :: ps)
    | (none, v, p) =>
      match renameVisitor.acceptPairs g v ps with
      | (err, v, ps) => (err, v, p :: ps)
/-- Go `renameVisitor.VisitHashPair`. -/
def renameVisitor.VisitHashPair (g : GoMap Helper) (v : renameVisitor) (node : HashPair) :
    Option Err × renameVisitor × HashPair :=
  let v := v.at_ (.hashPair node)
  match node with
  | .mk key val =>
    match renameVisitor.Accept g v val with
    | (err, v, val) => (err, v, .mk key val)
end

/-- Go `errRecover`, with `e` the value `recover()` gives (`none` when nothing
was raised) and `err` the error the call was about to return: a runtime
fault and a value that is no error are raised again, an ordinary error
becomes the returned error. -/
def errRecover (e : Option Panic) (err : Option Err) : Outcome (Option Err) :=
  match e with
  | none => .returned err
  | some (.runtimeError msg) => .panicked (.runtimeError msg)
  | some (.error err) => .returned (some err)
  | some (.value msg) => .panicked (.value msg)

/-- Go `Template.Rename`: parse if necessary, then walk the tree with a fresh
rename visitor under `errRecover`; the tree of the template is the rewritten
one afterwards.  Walking a nil program is a nil dereference.  This is the run
in which every range of the mapping takes the order of the list;
`Template.RenameAt` has the order of every range. -/
def Template.Rename (parser : Parser) (g : GoMap Helper) (tpl : Template)
    (variables_ : List (String × String)) : Outcome (Option Err) × Template :=
  match tpl.parse parser with
  | (some err, tpl) => (.returned (some (Err.couldNotBeParsed err)), tpl)
  | (none, tpl) =>
    let v := newRenameVisitor tpl variables_
    match tpl.program with
    | some program =>
      match renameVisitor.VisitProgram g v program with
      | (err, _, program) => (errRecover none err, tpl.setProgram (some program))
    | none => (errRecover (some (.runtimeError "nil pointer dereference")) none, tpl)

/-! ## Notions the specification speaks of -/

/-- A registered-helper call: the expression has a helper name (a path of one
segment, not the empty text) and that name is registered in the template's registry
`helpers` or, when absent there, in the global registry `g`. -/
def Expression.isHelperCall (helpers g : GoMap Helper) (e : Expression) : Bool :=
  e.HelperName != "" &&
    ((helpers.get e.HelperName).isSome || (g.get e.HelperName).isSome)

mutual
/-- The field references of an expression in traversal order: those of its
parameters from left to right, then its own path unless the expression is a
registered-helper call or its path is not a path expression (a literal,
for which `FieldPath` is nil). -/
def Expression.fieldReferences (helpers g : GoMap Helper) :
    Expression → List PathExpression
  | .mk path params hash =>
    paramsFieldReferences helpers g params ++
      (if (Expression.mk path params hash).isHelperCall helpers g then []
       else (Expression.mk path params hash).FieldPath.toList)
/-- The field references of a parameter: a path parameter is one, a
sub-expression has those of its expression, a literal has none. -/
def paramFieldReferences (helpers g : GoMap Helper) : Node → List PathExpression
  | .path p => [p]
  | .subExpression (.mk e) => Expression.fieldReferences helpers g e
  | _ => []
/-- The field references of a parameter list, left to right. -/
def paramsFieldReferences (helpers g : GoMap Helper) :
    List Node → List PathExpression
  | [] => []
  | n :: ns => paramFieldReferences helpers g n ++ paramsFieldReferences helpers g ns
end

/-- The top-level field references of a statement: those of the expression of
a mustache; a block statement and everything in it, a partial, content and a
comment have none. -/
def statementFieldReferences (helpers g : GoMap Helper) : Node → List PathExpression
  | .mustache (.mk e) => e.fieldReferences helpers g
  | _ => []

/-- The top-level field references of a program (those not nested in any
block statement), in traversal order. -/
def Program.topLevelFieldReferences (helpers g : GoMap Helper) (prog : Program) :
    List PathExpression :=
  prog.Body.flatMap (statementFieldReferences helpers g)

mutual
/-- The parameters of the expression, and of the sub-expressions among them,
are path expressions, literals or sub-expressions. -/
def Expression.paramsShaped : Expression → Bool
  | .mk _ params _ => paramListShaped params
/-- A node a parser puts in parameter position. -/
def paramShaped : Node → Bool
  | .path _ => true
  | .string _ => true
  | .boolean _ => true
  | .number _ => true
  | .subExpression (.mk e) => e.paramsShaped
  | _ => false
/-- Every node of the list is one a parser puts in parameter position. -/
def paramListShaped : List Node → Bool
  | [] => true
  | n :: ns => paramShaped n && paramListShaped ns
end

/-- A node a parser puts in a program body: a mustache (with parameters of
the parser's shape), a block, a partial, content or a comment. -/
def statementShaped : Node → Bool
  | .mustache (.mk e) => e.paramsShaped
  | .block _ => true
  | .partialStatement _ => true
  | .content _ => true
  | .comment _ => true
  | _ => false

/-- The part of the shape of a parsed tree that the validate pass depends on:
the body holds statements, and top-level expressions have parameters that are
path expressions, literals or sub-expressions.  Nothing is asked of what lies
inside blocks, partials and hashes, so every tree a parser yields has it. -/
def Program.ParsedShape (prog : Program) : Bool :=
  prog.Body.all statementShaped

/-- The first segment of the path, when there is one, equals a name of `V`
verbatim or wrapped as `"[" ++ name ++ "]"`. -/
def PathExpression.firstSegmentKnown (V : List String) (p : PathExpression) : Prop :=
  ∀ s ∈ p.Parts.head?, ∃ n ∈ V, s = n ∨ s = "[" ++ n ++ "]"

instance PathExpression.decidableFirstSegmentKnown (V : List String) (p : PathExpression) :
    Decidable (p.firstSegmentKnown V) :=
  inferInstanceAs (Decidable (∀ s ∈ p.Parts.head?, ∃ n ∈ V, s = n ∨ s = "[" ++ n ++ "]"))

/-- The error for the first reference of the list whose first segment is not
known, carrying that reference's raw text and `V`; `none` when every
reference of the list is known. -/
def firstInvalid (V : List String) : List PathExpression → Option Err
  | [] => none
  | p :: ps =>
    if p.firstSegmentKnown V then firstInvalid V ps
    else some (Err.invalidVariableReference p.Original V)

/-- What every visit of the validate visitor preserves, between the visitor
`v` before and the result `r`: template and variables stay, a visit without
error leaves the block stack as it was, and a visit inside a block returns no
error. -/
def validateVisitor.Inv (v : validateVisitor) (r : Option Err × validateVisitor) : Prop :=
  r.2.tpl = v.tpl ∧ r.2.variables_ = v.variables_ ∧
    (r.1 = none → r.2.blockStack = v.blockStack) ∧ (v.blockStack ≠ [] → r.1 = none)

/-- The rewriting `escapeString` applies to one piece, on characters: a piece
with a space that does not start with `[` is put in brackets. -/
def bracketChars (part : List Char) : List Char :=
  if containsChars [' '] part && !(['['].isPrefixOf part) then '[' :: part ++ [']'] else part

/-- Whether the text has the form `[...]`: it starts with `[` and ends with
`]`, two distinct characters. -/
def isBracketWrapped (seg : String) : Bool :=
  seg.data.head? == some '[' && seg.data.getLast? == some ']' && decide (2 ≤ seg.data.length)

/-- The escaping in the words of the specification, to be compared with
`escapeString`: split on `"."`, every segment that contains whitespace and is
not already bracket-wrapped (does not have the form `"[...]"`) becomes
`"[segment]"`, every other segment is unchanged, rejoin with `"."`. -/
def escapeStringSpec (s : String) : String :=
  strings.Join
    ((strings.Split s '.').map (fun seg =>
      if seg.data.any Char.isWhitespace && !isBracketWrapped seg then "[" ++ seg ++ "]"
      else seg))
    "."

/-- What every visit of the rename visitor guarantees, between the visitor
`v` and the node before and the result `r`: no error, the same template and
mapping, and with the empty mapping the node as it was. -/
def renameVisitor.Inv {α : Type} (v : renameVisitor) (node : α)
    (r : Option Err × renameVisitor × α) : Prop :=
  r.1 = none ∧ r.2.1.tpl = v.tpl ∧ r.2.1.variables_ = v.variables_ ∧
    (v.variables_ = [] → r.2.2 = node)

/-! ## Example trees -/

/-- A parser for templates that are already parsed: it is never asked. -/
def noParser : Parser := fun _ _ => .error "no parser"

/-- The tree of `"Hello {{name}}"`. -/
def helloProgram : Program :=
  .mk [] [.content ⟨"Hello ", "Hello "⟩,
    .mustache (.mk (.mk (.path ⟨"name", ["name"]⟩) [] none))]

/-- The parsed template `"Hello {{name}}"`, without helpers or partials. -/
def helloTemplate : Template :=
  .mk "Hello {{name}}" (some helloProgram) [] [] false

/-- The block `{{#each items}}{{title}}{{else}}{{missing}}{{/each}}`. -/
def eachBlock : BlockStatement :=
  .mk (.mk (.path ⟨"each", ["each"]⟩) [.path ⟨"items", ["items"]⟩] none)
    (some (.mk [] [.mustache (.mk (.mk (.path ⟨"title", ["title"]⟩) [] none))]))
    (some (.mk [] [.mustache (.mk (.mk (.path ⟨"missing", ["missing"]⟩) [] none))]))

/-- The tree of
`{{#each items}}{{title}}{{else}}{{missing}}{{/each}}{{upper (trim user.name) 1}}{{> footer ctx}}`. -/
def reportProgram : Program :=
  .mk [] [.block eachBlock,
    .mustache (.mk (.mk (.path ⟨"upper", ["upper"]⟩)
      [.subExpression (.mk (.mk (.path ⟨"trim", ["trim"]⟩)
          [.path ⟨"user.name", ["user", "name"]⟩] none)),
        .number ⟨true, "1"⟩] none)),
    .partialStatement (.mk (.path ⟨"footer", ["footer"]⟩) [.path ⟨"ctx", ["ctx"]⟩] none)]

/-- The parsed report template, with the helper `upper` registered on it. -/
def reportTemplate : Template :=
  .mk "\x7b\x7b#each items\x7d\x7d\x7b\x7btitle\x7d\x7d\x7b\x7belse\x7d\x7d\x7b\x7bmissing\x7d\x7d\x7b\x7b/each\x7d\x7d\x7b\x7bupper (trim user.name) 1\x7d\x7d\x7b\x7b> footer ctx\x7d\x7d"
    (some reportProgram) [("upper", ⟨1⟩)] [] false

/-- A global helper registry with `trim` and `each`. -/
def reportGlobals : GoMap Helper := [("trim", ⟨2⟩), ("each", ⟨3⟩)]

/-- The tree of `{{#each items}}{{title}}{{else}}{{missing}}{{/each}}`: all its
field references lie inside the block. -/
def blockOnlyProgram : Program := .mk [] [.block eachBlock]

/-- The parsed template of `blockOnlyProgram`, without helpers. -/
def blockOnlyTemplate : Template :=
  .mk "\x7b\x7b#each items\x7d\x7d\x7b\x7btitle\x7d\x7d\x7b\x7belse\x7d\x7d\x7b\x7bmissing\x7d\x7d\x7b\x7b/each\x7d\x7d" (some blockOnlyProgram) [] [] false

/-- The parsed template `"{{now}}"` with the helper `now` registered on it. -/
def nowTemplate : Template :=
  .mk "{{now}}" (some (.mk [] [.mustache (.mk (.mk (.path ⟨"now", ["now"]⟩) [] none))]))
    [("now", ⟨7⟩)] [] false

/-- The parsed template whose tree is the single mustache `{{p}}`, without
helpers or partials. -/
def referenceTemplate (p : PathExpression) : Template :=
  .mk "" (some (.mk [] [.mustache (.mk (.mk (.path p) [] none))])) [] [] false

/-! ## Registries and cloning (`template.go`, `partial.go`) -/

/-- The assignment `m[k] = v` of a Go map: the entry with key `k` is
replaced, or a new entry is added (at the end of the iteration order, which
Go leaves open). -/
def GoMap.set {α : Type} : GoMap α → String → α → GoMap α
  | [], k, v => [(k, v)]
  | (k', v') :: rest, k, v =>
    if k' == k then (k, v) :: rest else (k', v') :: GoMap.set rest k v

/-- Field `name` of a partial. -/
def Partial.name : Partial → String
  | .mk n _ _ _ => n

/-- Field `source` of a partial. -/
def Partial.source : Partial → String
  | .mk _ s _ _ => s

/-- Field `tpl` of a partial, `none` for the nil pointer. -/
def Partial.tpl : Partial → Option Template
  | .mk _ _ t _ => t

/-- Field `unescaped` of a partial. -/
def Partial.unescaped : Partial → Bool
  | .mk _ _ _ u => u

/-- Assignment to field `unescaped` of a partial. -/
def Partial.setUnescaped : Partial → Bool → Partial
  | .mk n s t _, u => .mk n s t u

/-- Assignment to field `helpers`. -/
def Template.setHelpers : Template → GoMap Helper → Template
  | .mk s p _ ps u, h => .mk s p h ps u

/-- Assignment to field `partials`. -/
def Template.setPartials : Template → GoMap Partial → Template
  | .mk s p h _ u, ps => .mk s p h ps u

/-- Go `newTemplate`: a template that is not parsed, with empty registries. -/
def newTemplate (source : String) (unescaped : Bool) : Template :=
  .mk source none [] [] unescaped

/-- Go `newPartial`: the struct literal reads `tpl.unescaped`, which is a nil
dereference when `tpl` is nil. -/
def newPartial (name source : String) (tpl : Option Template) : Outcome Partial :=
  match tpl with
  | some t => .returned (.mk name source (some t) t.unescaped)
  | none => .panicked (.runtimeError "nil pointer dereference")

/-- The check `ensureValidHelper(name, val)` of `helper.go`, which is not
among the files: `none` when it returns, the panic it raises otherwise. -/
abbrev EnsureValidHelper := String → Helper → Option Panic

/-- Go `Template.RegisterHelper`; `helper` is the handle `reflect.ValueOf`
gives for the argument.  A name already registered is a panic with the text
`fmt.Sprintf("Helper %s already registered", name)`. -/
def Template.RegisterHelper (ensureValidHelper : EnsureValidHelper) (tpl : Template)
    (name : String) (helper : Helper) : Outcome Unit × Template :=
  if (tpl.helpers.get name).isSome then
    (.panicked (.value ("Helper " ++ name ++ " already registered")), tpl)
  else
    match ensureValidHelper name helper with
    | some p => (.panicked p, tpl)
    | none => (.returned (), tpl.setHelpers (tpl.helpers.set name helper))

/-- Go `Template.addPartial`.  A name already registered is a panic with the
text `fmt.Sprintf("Partial %s already registered", name)`; otherwise the new
partial is built first and stored when `newPartial` returns. -/
def Template.addPartial (tpl : Template) (name source : String) (template : Option Template) :
    Outcome Unit × Template :=
  if (tpl.partials.get name).isSome then
    (.panicked (.value ("Partial " ++ name ++ " already registered")), tpl)
  else
    match newPartial name source template with
    | .panicked p => (.panicked p, tpl)
    | .returned part => (.returned (), tpl.setPartials (tpl.partials.set name part))

/-- Go `Template.findPartial`: `tpl.partials[name]`. -/
def Template.findPartial (tpl : Template) (name : String) : Option Partial :=
  tpl.partials.get name

/-- Go `Template.RegisterPartial`: `tpl.addPartial(name, source, nil)`. -/
def Template.RegisterPartial (tpl : Template) (name source : String) :
    Outcome Unit × Template :=
  tpl.addPartial name source none

/-- Go `Template.RegisterPartialTemplate`: `tpl.addPartial(name, "", template)`. -/
def Template.RegisterPartialTemplate (tpl : Template) (name : String)
    (template : Option Template) : Outcome Unit × Template :=
  tpl.addPartial name "" template

/-- The package-level `RegisterPartial` of `partial.go`, over the global
registry `partials`, which is passed in and returned.  A name already
registered is a panic with the error
`fmt.Errorf("Partial already registered: %s", name)`. -/
def RegisterPartial (partials : GoMap Partial) (name source : String) (unescaped : Bool) :
    Outcome Unit × GoMap Partial :=
  if (partials.get name).isSome then
    (.panicked (.error (Err.partialAlreadyRegistered name)), partials)
  else
    match newPartial name source none with
    | .panicked p => (.panicked p, partials)
    | .returned part => (.returned (), partials.set name (part.setUnescaped unescaped))

/-- The package-level `RegisterPartialTemplate` of `partial.go`. -/
def RegisterPartialTemplate (partials : GoMap Partial) (name : String)
    (tpl : Option Template) : Outcome Unit × GoMap Partial :=
  if (partials.get name).isSome then
    (.panicked (.error (Err.partialAlreadyRegistered name)), partials)
  else
    match newPartial name "" tpl with
    | .panicked p => (.panicked p, partials)
    | .returned part => (.returned (), partials.set name part)

/-- The package-level `findPartial` of `partial.go`: `partials[name]`. -/
def findPartial (partials : GoMap Partial) (name : String) : Option Partial :=
  partials.get name

/-- The loop `for name, helper := range tpl.helpers` of `Clone`, over the
entries still to copy: each is registered on `result`. -/
def cloneHelpers (ensureValidHelper : EnsureValidHelper) (result : Template) :
    GoMap Helper → Outcome Template
  | [] => .returned result
  | (name, helper) :: rest =>
    match result.RegisterHelper ensureValidHelper name helper with
    | (.panicked p, _) => .panicked p
    | (.returned _, result) => cloneHelpers ensureValidHelper result rest

/-- The loop `for name, partial := range tpl.partials` of `Clone`: each
partial is added to `result` with its source and its owned template. -/
def clonePartials (result : Template) : GoMap Partial → Outcome Template
  | [] => .returned result
  | (name, part) :: rest =>
    match result.addPartial name part.source part.tpl with
    | (.panicked p, _) => .panicked p
    | (.returned _, result) => clonePartials result rest

/-- Go `Template.Clone`: a new template with the same source and flag gets
the program of `tpl`, then every helper and every partial of `tpl`. -/
def Template.Clone (ensureValidHelper : EnsureValidHelper) (tpl : Template) :
    Outcome Template :=
  let result := newTemplate tpl.source tpl.unescaped
  let result := result.setProgram tpl.program
  match cloneHelpers ensureValidHelper result tpl.helpers with
  | .panicked p => .panicked p
  | .returned result => clonePartials result tpl.partials

/-! ## Evaluation entry point (`template.go`) -/

/-- The external evaluation pass `tpl.program.Accept(newEvalVisitor(tpl, ctx,
privData))` of `eval.go`, which is not among the files: it returns a value
(`none` when that is no string) or panics, and leaves the template as the
second component. -/
abbrev Evaluator (Ctx Data : Type) :=
  Template → Program → Ctx → Option Data → Outcome (Option String) × Template

/-- Go `Template.ExecWith` with its deferred `errRecover(&err)`: parse if
necessary and return the parse error as it is; otherwise evaluate.  The named
result `result` is still empty when a panic is recovered.  Walking a nil
program is a nil dereference. -/
def Template.ExecWith {Ctx Data : Type} (parser : Parser) (eval : Evaluator Ctx Data)
    (tpl : Template) (ctx : Ctx) (privData : Option Data) :
    Outcome (String × Option Err) × Template :=
  let finish (e : Option Panic) (result : String) (err : Option Err) :
      Outcome (String × Option Err) :=
    match errRecover e err with
    | .returned err => .returned (result, err)
    | .panicked p => .panicked p
  match tpl.parse parser with
  | (some err, tpl) => (finish none "" (some (Err.parser err)), tpl)
  | (none, tpl) =>
    match tpl.program with
    | some program =>
      match eval tpl program ctx privData with
      | (.returned r, tpl) => (finish none (r.getD "") none, tpl)
      | (.panicked p, tpl) => (finish (some p) "" none, tpl)
    | none => (finish (some (.runtimeError "nil pointer dereference")) "" none, tpl)

/-! ## The print pass (`ast/print_original.go`) -/

/-- The struct `printOriginalVistor`. -/
structure printOriginalVistor where
  buf : String
  depth : Int
  original : Bool
  inBlock : Bool

/-- Go `newPrintOriginalVisitor`: the zero value of the struct. -/
def newPrintOriginalVisitor : printOriginalVistor :=
  { buf := "", depth := 0, original := false, inBlock := false }

/-- Go `printOriginalVistor.output`. -/
def printOriginalVistor.output (v : printOriginalVistor) : String :=
  v.buf

/-- Go `printOriginalVistor.indent`: two spaces are appended `depth` times
(not at all when `depth` is not positive). -/
def printOriginalVistor.indent (v : printOriginalVistor) : printOriginalVistor :=
  { v with buf := v.buf ++ String.join (List.replicate v.depth.toNat "  ") }

/-- Go `printOriginalVistor.str`. -/
def printOriginalVistor.str (v : printOriginalVistor) (val : String) : printOriginalVistor :=
  { v with buf := v.buf ++ val }

/-- Go `printOriginalVistor.nl`. -/
def printOriginalVistor.nl (v : printOriginalVistor) : printOriginalVistor :=
  v.str "\n"

/-- Go `printOriginalVistor.line`. -/
def printOriginalVistor.line (v : printOriginalVistor) (val : String) : printOriginalVistor :=
  ((v.indent).str val).nl

/-- The end of `printOriginalVistor.VisitBlock`: when the path of the opening
expression is a path expression, `fmt.Sprintf("{{/%s}}", p.Original)` is
appended. -/
def printOriginalVistor.closeBlock (v : printOriginalVistor) (path : Node) :
    printOriginalVistor :=
  match path with
  | .path p => v.str ("\x7b\x7b/" ++ p.Original ++ "\x7d\x7d")
  | _ => v

mutual
/-- The dispatch `node.Accept(v)` for a print visitor; the returned value of
every visit of this pass is nil, so only the visitor is returned. -/
def printOriginalVistor.Accept (v : printOriginalVistor) : Node → printOriginalVistor
  | .program n => printOriginalVistor.VisitProgram v n
  | .mustache n => printOriginalVistor.VisitMustache v n
  | .block n => printOriginalVistor.VisitBlock v n
  | .partialStatement n => printOriginalVistor.VisitPartial v n
  | .content n => v.str n.Original
  | .comment n => v.line ("\x7b\x7b! \x27" ++ n.Value ++ "\x27 \x7d\x7d")
  | .expression n => printOriginalVistor.VisitExpression v n
  | .subExpression n => printOriginalVistor.VisitSubExpression v n
  | .path n => v.str n.Original
  | .string n => v.str n.Value
  | .boolean n => v.str n.Original
  | .number n => v.str n.Original
  | .hash n => printOriginalVistor.VisitHash v n
  | .hashPair n => printOriginalVistor.VisitHashPair v n
/-- The loop `for _, n := range node.Body { n.Accept(v) }`. -/
def printOriginalVistor.acceptEach (v : printOriginalVistor) :
    List Node → printOriginalVistor
  | [] => v
  | n :: ns => printOriginalVistor.acceptEach (printOriginalVistor.Accept v n) ns
/-- Go `printOriginalVistor.VisitProgram`. -/
def printOriginalVistor.VisitProgram (v : printOriginalVistor) (node : Program) :
    printOriginalVistor :=
  match node with
  | .mk blockParams body =>
    let v :=
      if blockParams.length > 0 then
        v.line ("BLOCK PARAMS: [ " ++ strings.Join blockParams " " ++ " ]")
      else v
    printOriginalVistor.acceptEach v body
/-- Go `printOriginalVistor.VisitMustache`. -/
def printOriginalVistor.VisitMustache (v : printOriginalVistor) (node : MustacheStatement) :
    printOriginalVistor :=
  match node with
  | .mk expression =>
    (printOriginalVistor.VisitExpression (v.str "\x7b\x7b") expression).str "\x7d\x7d"
/-- Go `printOriginalVistor.VisitBlock`; the first `v.depth++` has no
`v.depth--` to match it. -/
def printOriginalVistor.VisitBlock (v : printOriginalVistor) (node : BlockStatement) :
    printOriginalVistor :=
  match node with
  | .mk expression program inverse =>
    let v := { v with inBlock := true }
    let v := { v with depth := v.depth + 1 }
    let v := v.str "\x7b\x7b#"
    let v := printOriginalVistor.VisitExpression v expression
    let v := v.str "\x7d\x7d"
    let v := printOriginalVistor.acceptProgramIfPresent v program
    let v := printOriginalVistor.acceptInverseIfPresent v inverse
    let v := v.closeBlock expression.Path
    { v with inBlock := false }
/-- The part `if node.Program != nil` of `VisitBlock`: the primary body is
visited one level deeper. -/
def printOriginalVistor.acceptProgramIfPresent (v : printOriginalVistor) :
    Option Program → printOriginalVistor
  | some p =>
    let v := { v with depth := v.depth + 1 }
    let v := printOriginalVistor.VisitProgram v p
    { v with depth := v.depth - 1 }
  | none => v
/-- The part `if node.Inverse != nil` of `VisitBlock`: `"{{else}}"`, then the
inverse body one level deeper. -/
def printOriginalVistor.acceptInverseIfPresent (v : printOriginalVistor) :
    Option Program → printOriginalVistor
  | some p =>
    let v := v.str "\x7b\x7belse\x7d\x7d"
    let v := { v with depth := v.depth + 1 }
    let v := printOriginalVistor.VisitProgram v p
    { v with depth := v.depth - 1 }
  | none => v
/-- Go `printOriginalVistor.VisitPartial`. -/
def printOriginalVistor.VisitPartial (v : printOriginalVistor) (node : PartialStatement) :
    printOriginalVistor :=
  match node with
  | .mk name params hash =>
    let v := v.str "\x7b\x7b> PARTIAL:"
    let v := { v with original := true }
    let v := printOriginalVistor.Accept v name
    let v := { v with original := false }
    let v := printOriginalVistor.acceptFirst v params
    let v := printOriginalVistor.acceptHashIfPresent v hash
    v.str " \x7d\x7d"
/-- The part `if len(node.Params) > 0` of `VisitPartial`: a space and the
first argument only. -/
def printOriginalVistor.acceptFirst (v : printOriginalVistor) :
    List Node → printOriginalVistor
  | n :: _ => printOriginalVistor.Accept (v.str " ") n
  | [] => v
/-- The part `if node.Hash != nil`: a space and the hash. -/
def printOriginalVistor.acceptHashIfPresent (v : printOriginalVistor) :
    Option Hash → printOriginalVistor
  | some h => printOriginalVistor.VisitHash (v.str " ") h
  | none => v
/-- Go `printOriginalVistor.VisitExpression`: the path, every parameter after
a space, the hash after a space. -/
def printOriginalVistor.VisitExpression (v : printOriginalVistor) (node : Expression) :
    printOriginalVistor :=
  match node with
  | .mk path params hash =>
    let v := printOriginalVistor.Accept v path
    let v := printOriginalVistor.acceptParams v params
    printOriginalVistor.acceptHashIfPresent v hash
/-- The loop over the parameters of an expression: a space, then the
parameter. -/
def printOriginalVistor.acceptParams (v : printOriginalVistor) :
    List Node → printOriginalVistor
  | [] => v
  | n :: ns =>
    printOriginalVistor.acceptParams (printOriginalVistor.Accept (v.str " ") n) ns
/-- Go `printOriginalVistor.VisitSubExpression`. -/
def printOriginalVistor.VisitSubExpression (v : printOriginalVistor) (node : SubExpression) :
    printOriginalVistor :=
  match node with
  | .mk expression => printOriginalVistor.VisitExpression v expression
/-- Go `printOriginalVistor.VisitHash`. -/
def printOriginalVistor.VisitHash (v : printOriginalVistor) (node : Hash) :
    printOriginalVistor :=
  match node with
  | .mk pairs => (printOriginalVistor.acceptPairs (v.str "HASH\x7b") 0 pairs).str "\x7d"
/-- The loop `for i, p := range node.Pairs` from index `i` on: `", "` before
every pair but the first. -/
def printOriginalVistor.acceptPairs (v : printOriginalVistor) (i : Nat) :
    List HashPair → printOriginalVistor
  | [] => v
  | p :: ps =>
    let v := if i > 0 then v.str ", " else v
    printOriginalVistor.acceptPairs (printOriginalVistor.VisitHashPair v p) (i + 1) ps
/-- Go `printOriginalVistor.VisitHashPair`. -/
def printOriginalVistor.VisitHashPair (v : printOriginalVistor) (node : HashPair) :
    printOriginalVistor :=
  match node with
  | .mk key val => printOriginalVistor.Accept (v.str (key ++ "=")) val
end

/-- Go `ast.PrintOriginal`. -/
def PrintOriginal (node : Node) : String :=
  (printOriginalVistor.Accept newPrintOriginalVisitor node).output

/-- Go `Template.Print`: `ast.PrintOriginal(tpl.program)`, without a call of
`tpl.parse()`; a nil program is dereferenced when it is visited. -/
def Template.Print (tpl : Template) : Outcome String :=
  match tpl.program with
  | some program => .returned (PrintOriginal (.program program))
  | none => .panicked (.runtimeError "nil pointer dereference")

/-! ## The rewriting of the rename pass as a function of the tree -/

/-- The rule for one path expression: with at least one segment, every pair
of the mapping `M` is applied in turn; without segments nothing changes. -/
def PathExpression.renamed (M : List (String × String)) (p : PathExpression) :
    PathExpression :=
  match p.Parts with
  | [] => p
  | _ :: _ => M.foldl (fun node kv => renamePair node kv.1 kv.2) p

/-- The path node of an expression that is treated as a field reference: a
path expression is rewritten by the rule, any other node is left. -/
def renamedFieldPath (M : List (String × String)) : Node → Node
  | .path p => .path (p.renamed M)
  | n => n

mutual
/-- The node with every field reference rewritten by the rule, wherever it
is: there is no parameter for the block nesting. -/
def Node.renamed (helpers g : GoMap Helper) (M : List (String × String)) : Node → Node
  | .program n => .program (Program.renamed helpers g M n)
  | .mustache n => .mustache (MustacheStatement.renamed helpers g M n)
  | .block n => .block (BlockStatement.renamed helpers g M n)
  | .partialStatement n => .partialStatement n
  | .content n => .content n
  | .comment n => .comment n
  | .expression n => .expression (Expression.renamed helpers g M n)
  | .subExpression n => .subExpression (SubExpression.renamed helpers g M n)
  | .path n => .path (n.renamed M)
  | .string n => .string n
  | .boolean n => .boolean n
  | .number n => .number n
  | .hash n => .hash (Hash.renamed helpers g M n)
  | .hashPair n => .hashPair (HashPair.renamed helpers g M n)
/-- Every node of the list rewritten. -/
def nodesRenamed (helpers g : GoMap Helper) (M : List (String × String)) :
    List Node → List Node
  | [] => []
  | n :: ns => Node.renamed helpers g M n :: nodesRenamed helpers g M ns
/-- The program with every statement rewritten. -/
def Program.renamed (helpers g : GoMap Helper) (M : List (String × String)) :
    Program → Program
  | .mk blockParams body => .mk blockParams (nodesRenamed helpers g M body)
/-- A body that may be absent, rewritten. -/
def programRenamedIfPresent (helpers g : GoMap Helper) (M : List (String × String)) :
    Option Program → Option Program
  | some p => some (Program.renamed helpers g M p)
  | none => none
/-- The mustache of the rewritten expression. -/
def MustacheStatement.renamed (helpers g : GoMap Helper) (M : List (String × String)) :
    MustacheStatement → MustacheStatement
  | .mk e => .mk (Expression.renamed helpers g M e)
/-- The block of its rewritten call expression, its rewritten primary body
and its rewritten inverse body. -/
def BlockStatement.renamed (helpers g : GoMap Helper) (M : List (String × String)) :
    BlockStatement → BlockStatement
  | .mk e p i =>
    .mk (Expression.renamed helpers g M e) (programRenamedIfPresent helpers g M p)
      (programRenamedIfPresent helpers g M i)
/-- The expression with its parameters rewritten and, unless it is a
registered-helper call, its path rewritten as a field reference; the hash is
left. -/
def Expression.renamed (helpers g : GoMap Helper) (M : List (String × String)) :
    Expression → Expression
  | .mk path params hash =>
    .mk (if (Expression.mk path params hash).isHelperCall helpers g then path
         else renamedFieldPath M path)
      (nodesRenamed helpers g M params) hash
/-- The sub-expression of the rewritten expression. -/
def SubExpression.renamed (helpers g : GoMap Helper) (M : List (String × String)) :
    SubExpression → SubExpression
  | .mk e => .mk (Expression.renamed helpers g M e)
/-- A hash node that is visited itself: its values rewritten. -/
def Hash.renamed (helpers g : GoMap Helper) (M : List (String × String)) : Hash → Hash
  | .mk pairs => .mk (pairsRenamed helpers g M pairs)
/-- Every pair of the list rewritten. -/
def pairsRenamed (helpers g : GoMap Helper) (M : List (String × String)) :
    List HashPair → List HashPair
  | [] => []
  | p :: ps => HashPair.renamed helpers g M p :: pairsRenamed helpers g M ps
/-- The pair with its value rewritten. -/
def HashPair.renamed (helpers g : GoMap Helper) (M : List (String × String)) :
    HashPair → HashPair
  | .mk key val => .mk key (Node.renamed helpers g M val)
end

/-- What a visit of the rename visitor yields, for the rewriting `f` of the
node: no error, the same template and mapping, and the node rewritten. -/
def renameVisitor.Yields {α : Type} (f : α → α) (v : renameVisitor) (node : α)
    (r : Option Err × renameVisitor × α) : Prop :=
  r.1 = none ∧ r.2.1.tpl = v.tpl ∧ r.2.1.variables_ = v.variables_ ∧ r.2.2 = f node

/-! ## Example registries -/

/-- A check of helpers that accepts every helper. -/
def anyHelperValid : EnsureValidHelper := fun _ _ => none

/-- A partial named `footer` that owns the parsed hello template. -/
def footerPartial : Partial := .mk "footer" "" (some helloTemplate) false

/-- The parsed hello template with the helper `now` and the partial `footer`
registered on it. -/
def pageTemplate : Template :=
  .mk "Hello {{name}}" (some helloProgram) [("now", ⟨7⟩)] [("footer", footerPartial)] false

/-- A parser that knows the source `"Hello {{name}}"` only. -/
def helloParser : Parser := fun source _ =>
  if source == "Hello {{name}}" then .ok helloProgram else .error "parse error"

/-- An evaluation that raises the ordinary error `boom`. -/
def raisingEvaluator : Evaluator Unit Unit :=
  fun tpl _ _ _ => (.panicked (.error (Err.raised "boom")), tpl)

/-- An evaluation that runs into a runtime fault. -/
def faultingEvaluator : Evaluator Unit Unit :=
  fun tpl _ _ _ => (.panicked (.runtimeError "index out of range"), tpl)

/-- An evaluation that returns the text `Hello world`. -/
def helloEvaluator : Evaluator Unit Unit :=
  fun tpl _ _ _ => (.returned (some "Hello world"), tpl)

/-- The entry `Clone` stores for an entry of the partial registry:
the partial `newPartial(name, partial.source, partial.tpl)` under the same
name, with the flag of the owned template. -/
def clonedPartial (np : String × Partial) : String × Partial :=
  (np.1, .mk np.1 np.2.source np.2.tpl ((np.2.tpl.map Template.unescaped).getD false))

/-- The print visitor with an empty buffer: what a visit leaves in the
buffer from this state is the text the visit appends. -/
def printOriginalVistor.fresh (v : printOriginalVistor) : printOriginalVistor :=
  { v with buf := "" }

/-- The block `{{#if ok flag=1}}yes{{else}}no{{/if}}`. -/
def ifBlock : BlockStatement :=
  .mk (.mk (.path ⟨"if", ["if"]⟩) [.path ⟨"ok", ["ok"]⟩]
      (some (.mk [.mk "flag" (.number ⟨true, "1"⟩)])))
    (some (.mk [] [.content ⟨"yes", "yes"⟩]))
    (some (.mk [] [.content ⟨"no", "no"⟩]))

/-! ## The tree without what the validate pass never visits -/

/-- The partial statement that stands for every partial statement. -/
def blankPartial : PartialStatement := .mk (.string ⟨""⟩) [] none

mutual
/-- The node with the hash of every expression removed and every partial
statement replaced by `blankPartial`: two trees have the same skeleton exactly
when one comes from the other by replacing hashes of expressions and partial
statements. -/
def Node.skeleton : Node → Node
  | .program n => .program (Program.skeleton n)
  | .mustache n => .mustache (MustacheStatement.skeleton n)
  | .block n => .block (BlockStatement.skeleton n)
  | .partialStatement _ => .partialStatement blankPartial
  | .content n => .content n
  | .comment n => .comment n
  | .expression n => .expression (Expression.skeleton n)
  | .subExpression n => .subExpression (SubExpression.skeleton n)
  | .path n => .path n
  | .string n => .string n
  | .boolean n => .boolean n
  | .number n => .number n
  | .hash n => .hash (Hash.skeleton n)
  | .hashPair n => .hashPair (HashPair.skeleton n)
/-- The skeleton of every node of the list. -/
def nodesSkeleton : List Node → List Node
  | [] => []
  | n :: ns => Node.skeleton n :: nodesSkeleton ns
/-- The program of the skeletons of its statements. -/
def Program.skeleton : Program → Program
  | .mk blockParams body => .mk blockParams (nodesSkeleton body)
/-- The skeleton of a body that may be absent. -/
def programSkeletonIfPresent : Option Program → Option Program
  | some p => some (Program.skeleton p)
  | none => none
/-- The mustache of the skeleton of its expression. -/
def MustacheStatement.skeleton : MustacheStatement → MustacheStatement
  | .mk e => .mk (Expression.skeleton e)
/-- The block of the skeletons of its call expression and bodies. -/
def BlockStatement.skeleton : BlockStatement → BlockStatement
  | .mk e p i =>
    .mk (Expression.skeleton e) (programSkeletonIfPresent p) (programSkeletonIfPresent i)
/-- The expression without its hash, with the skeletons of its path and
parameters. -/
def Expression.skeleton : Expression → Expression
  | .mk path params _ => .mk (Node.skeleton path) (nodesSkeleton params) none
/-- The sub-expression of the skeleton of its expression. -/
def SubExpression.skeleton : SubExpression → SubExpression
  | .mk e => .mk (Expression.skeleton e)
/-- A hash node that stands in the tree by itself, with the skeletons of its
values. -/
def Hash.skeleton : Hash → Hash
  | .mk pairs => .mk (pairsSkeleton pairs)
/-- The skeleton of every pair of the list. -/
def pairsSkeleton : List HashPair → List HashPair
  | [] => []
  | p :: ps => HashPair.skeleton p :: pairsSkeleton ps
/-- The pair with the skeleton of its value. -/
def HashPair.skeleton : HashPair → HashPair
  | .mk key val => .mk key (Node.skeleton val)
end

/-- Two validate visitors that no visit can tell apart: the same helpers on
the template, the same variables, and both inside a block or both outside. -/
def validateVisitor.Alike (v w : validateVisitor) : Prop :=
  v.tpl.helpers = w.tpl.helpers ∧ v.variables_ = w.variables_ ∧
    (v.blockStack = [] ↔ w.blockStack = [])

/-- The tree of `{{name key=secret}}{{> footer ctx}}`. -/
def hashAndPartialProgram : Program :=
  .mk [] [.mustache (.mk (.mk (.path ⟨"name", ["name"]⟩) []
      (some (.mk [.mk "key" (.path ⟨"secret", ["secret"]⟩)])))),
    .partialStatement (.mk (.path ⟨"footer", ["footer"]⟩) [.path ⟨"ctx", ["ctx"]⟩] none)]

/-- The parsed template of `hashAndPartialProgram`, without helpers. -/
def hashAndPartialTemplate : Template :=
  .mk "" (some hashAndPartialProgram) [] [] false

/-- The tree of `{{#each items}}...{{/each}}{{name}}`: a block, then a
top-level mustache. -/
def blockThenNameProgram : Program :=
  .mk [] [.block eachBlock, .mustache (.mk (.mk (.path ⟨"name", ["name"]⟩) [] none))]

/-- The parsed template of `blockThenNameProgram`, without helpers. -/
def blockThenNameTemplate : Template :=
  .mk "" (some blockThenNameProgram) [] [] false

/-! ## Validate visitors over a larger set of names -/

/-- The visitor `w` knows every name `v` knows: the same helpers on the
template, every variable of `v` among those of `w`, and both inside a block
or both outside. -/
def validateVisitor.Below (v w : validateVisitor) : Prop :=
  v.tpl.helpers = w.tpl.helpers ∧ (∀ x ∈ v.variables_, x ∈ w.variables_) ∧
    (v.blockStack = [] ↔ w.blockStack = [])

/-! ## The tree without what the rename pass may rewrite -/

/-- The path expression without its raw text and its first segment: the
number of segments and every segment after the first are kept. -/
def PathExpression.frame (p : PathExpression) : PathExpression :=
  { Original := "", Parts := p.Parts.modifyHead (fun _ => "") }

mutual
/-- The node with the raw text and the first segment of every path
expression blanked, except inside the hash of an expression and inside a
partial statement, which are kept as they are: two trees have the same frame
exactly when they have the same shape, the same contents, comments, partial
statements, literals and hashes of expressions, and path expressions that
differ at most in raw text and first segment. -/
def Node.frame : Node → Node
  | .program n => .program (Program.frame n)
  | .mustache n => .mustache (MustacheStatement.frame n)
  | .block n => .block (BlockStatement.frame n)
  | .partialStatement n => .partialStatement n
  | .content n => .content n
  | .comment n => .comment n
  | .expression n => .expression (Expression.frame n)
  | .subExpression n => .subExpression (SubExpression.frame n)
  | .path n => .path n.frame
  | .string n => .string n
  | .boolean n => .boolean n
  | .number n => .number n
  | .hash n => .hash (Hash.frame n)
  | .hashPair n => .hashPair (HashPair.frame n)
/-- The frame of every node of the list. -/
def nodesFrame : List Node → List Node
  | [] => []
  | n :: ns => Node.frame n :: nodesFrame ns
/-- The program of the frames of its statements. -/
def Program.frame : Program → Program
  | .mk blockParams body => .mk blockParams (nodesFrame body)
/-- The frame of a body that may be absent. -/
def programFrameIfPresent : Option Program → Option Program
  | some p => some (Program.frame p)
  | none => none
/-- The mustache of the frame of its expression. -/
def MustacheStatement.frame : MustacheStatement → MustacheStatement
  | .mk e => .mk (Expression.frame e)
/-- The block of the frames of its call expression and bodies. -/
def BlockStatement.frame : BlockStatement → BlockStatement
  | .mk e p i => .mk (Expression.frame e) (programFrameIfPresent p) (programFrameIfPresent i)
/-- The expression with the frames of its path and parameters, and its hash
as it is. -/
def Expression.frame : Expression → Expression
  | .mk path params hash => .mk (Node.frame path) (nodesFrame params) hash
/-- The sub-expression of the frame of its expression. -/
def SubExpression.frame : SubExpression → SubExpression
  | .mk e => .mk (Expression.frame e)
/-- A hash node that stands in the tree by itself, where a parser puts none,
with the frames of its values. -/
def Hash.frame : Hash → Hash
  | .mk pairs => .mk (pairsFrame pairs)
/-- The frame of every pair of the list. -/
def pairsFrame : List HashPair → List HashPair
  | [] => []
  | p :: ps => HashPair.frame p :: pairsFrame ps
/-- The pair with the frame of its value. -/
def HashPair.frame : HashPair → HashPair
  | .mk key val => .mk key (Node.frame val)
end

/-- No pair of the mapping applies to the raw text: it starts with no key and
with no escaped key. -/
def PathExpression.untouchedBy (M : List (String × String)) (p : PathExpression) : Prop :=
  ∀ kv ∈ M, strings.HasPrefix p.Original kv.1 = false ∧
    strings.HasPrefix p.Original (escapeString kv.1) = false

/-- The tree of `{{user.name key=user.id}}{{> user user.id}}{{other}}`: a
mustache with a hash, a partial statement and a mustache no key applies to. -/
def userProgram : Program :=
  .mk [] [.mustache (.mk (.mk (.path ⟨"user.name", ["user", "name"]⟩) []
      (some (.mk [.mk "key" (.path ⟨"user.id", ["user", "id"]⟩)])))),
    .partialStatement (.mk (.path ⟨"user", ["user"]⟩)
      [.path ⟨"user.id", ["user", "id"]⟩] none),
    .mustache (.mk (.mk (.path ⟨"other", ["other"]⟩) [] none))]

/-- The parsed template of `userProgram`, without helpers. -/
def userTemplate : Template :=
  .mk "" (some userProgram) [] [] false

/-! ## The constructors of templates (`template.go`, `partial.go`) -/

/-- Go `ParseTemplate`: the new template is parsed before it is returned; on
a parse error the error is returned and no template. -/
def ParseTemplate (parser : Parser) (source : String) (unescaped : Bool) :
    Except String Template :=
  let tpl := newTemplate source unescaped
  match tpl.parse parser with
  | (some err, _) => .error err
  | (none, tpl) => .ok tpl

/-- Go `Parse`: as `ParseTemplate`, with the flag `false`. -/
def Parse (parser : Parser) (source : String) : Except String Template :=
  let tpl := newTemplate source false
  match tpl.parse parser with
  | (some err, _) => .error err
  | (none, tpl) => .ok tpl

/-- Go `ParseUnescaped`: as `ParseTemplate`, with the flag `true`. -/
def ParseUnescaped (parser : Parser) (source : String) : Except String Template :=
  let tpl := newTemplate source true
  match tpl.parse parser with
  | (some err, _) => .error err
  | (none, tpl) => .ok tpl

/-- Assignment to field `tpl` of a partial. -/
def Partial.setTpl : Partial → Option Template → Partial
  | .mk n s _ u, t => .mk n s t u

/-- Go `partial.template`: the owned template, produced by `ParseTemplate`
from the source when the partial has none yet, and kept. -/
def Partial.template (parser : Parser) (p : Partial) : Except String Template × Partial :=
  match p.tpl with
  | some t => (.ok t, p)
  | none =>
    match ParseTemplate parser p.source p.unescaped with
    | .error err => (.error err, p)
    | .ok t => (.ok t, p.setTpl (some t))

/-! ## The registries as Go maps, held by reference -/

/-- The struct `Template` of `template.go` as Go holds it: the fields
`helpers` and `partials` are references to maps, here the addresses of the
maps in a `Heap`. -/
structure TemplateRef where
  source : String
  program : Option Program
  helpers : Nat
  partials : Nat
  unescaped : Bool

/-- The struct of `partial.go` whose owned template holds its registries by
reference; `tpl` is `none` for the nil pointer. -/
structure PartialRef where
  name : String
  source : String
  tpl : Option TemplateRef
  unescaped : Bool

/-- The maps that `make` has allocated: the address of a map is its index in
the list of the maps of its type.  Two templates share a registry exactly
when they hold the same address. -/
structure Heap where
  helperMaps : List (GoMap Helper)
  partialMaps : List (GoMap PartialRef)

/-- The helper map at an address. -/
def Heap.helpersAt (H : Heap) (a : Nat) : GoMap Helper :=
  H.helperMaps.getD a []

/-- The partial map at an address. -/
def Heap.partialsAt (H : Heap) (a : Nat) : GoMap PartialRef :=
  H.partialMaps.getD a []

/-- Go `make(map[string]reflect.Value)`: a new empty map, at an address that
no map has so far. -/
def Heap.makeHelpers (H : Heap) : Nat × Heap :=
  (H.helperMaps.length, { H with helperMaps := H.helperMaps ++ [[]] })

/-- Go `make(map[string]*partial)`: a new empty map, at an address that no
map has so far. -/
def Heap.makePartials (H : Heap) : Nat × Heap :=
  (H.partialMaps.length, { H with partialMaps := H.partialMaps ++ [[]] })

/-- The assignment `m[name] = val` to the helper map at address `a`: every
holder of the address sees it. -/
def Heap.putHelper (H : Heap) (a : Nat) (name : String) (val : Helper) : Heap :=
  { H with helperMaps := H.helperMaps.set a ((H.helpersAt a).set name val) }

/-- The assignment `m[name] = p` to the partial map at address `a`. -/
def Heap.putPartial (H : Heap) (a : Nat) (name : String) (p : PartialRef) : Heap :=
  { H with partialMaps := H.partialMaps.set a ((H.partialsAt a).set name p) }

/-- Go `newTemplate`, with the two calls of `make`: a template that is not
parsed, with two new empty maps. -/
def newTemplateRef (H : Heap) (source : String) (unescaped : Bool) : TemplateRef × Heap :=
  match H.makeHelpers with
  | (helpers, H) =>
    match H.makePartials with
    | (partials, H) =>
      (⟨source, none, helpers, partials, unescaped⟩, H)

/-- Go `newPartial`, for a template held by reference: the struct literal
reads `tpl.unescaped`, a nil dereference when `tpl` is nil. -/
def newPartialRef (name source : String) (tpl : Option TemplateRef) : Outcome PartialRef :=
  match tpl with
  | some t => .returned ⟨name, source, some t, t.unescaped⟩
  | none => .panicked (.runtimeError "nil pointer dereference")

/-- Go `Template.findHelper`: `tpl.helpers[name]`, read in the heap. -/
def TemplateRef.findHelper (H : Heap) (tpl : TemplateRef) (name : String) : Option Helper :=
  (H.helpersAt tpl.helpers).get name

/-- Go `Template.findPartial`: `tpl.partials[name]`, read in the heap. -/
def TemplateRef.findPartial (H : Heap) (tpl : TemplateRef) (name : String) :
    Option PartialRef :=
  (H.partialsAt tpl.partials).get name

/-- Go `Template.RegisterHelper` on the heap: the duplicate check, the check
of the helper, then the assignment `tpl.helpers[name] = val`. -/
def TemplateRef.RegisterHelper (ensureValidHelper : EnsureValidHelper) (H : Heap)
    (tpl : TemplateRef) (name : String) (helper : Helper) : Outcome Unit × Heap :=
  if (tpl.findHelper H name).isSome then
    (.panicked (.value ("Helper " ++ name ++ " already registered")), H)
  else
    match ensureValidHelper name helper with
    | some p => (.panicked p, H)
    | none => (.returned (), H.putHelper tpl.helpers name helper)

/-- Go `Template.addPartial` on the heap: the duplicate check, then
`tpl.partials[name] = newPartial(name, source, template)`. -/
def TemplateRef.addPartial (H : Heap) (tpl : TemplateRef) (name source : String)
    (template : Option TemplateRef) : Outcome Unit × Heap :=
  if (tpl.findPartial H name).isSome then
    (.panicked (.value ("Partial " ++ name ++ " already registered")), H)
  else
    match newPartialRef name source template with
    | .panicked p => (.panicked p, H)
    | .returned part => (.returned (), H.putPartial tpl.partials name part)

/-- Go `Template.RegisterPartial` on the heap. -/
def TemplateRef.RegisterPartial (H : Heap) (tpl : TemplateRef) (name source : String) :
    Outcome Unit × Heap :=
  tpl.addPartial H name source none

/-- Go `Template.RegisterPartialTemplate` on the heap. -/
def TemplateRef.RegisterPartialTemplate (H : Heap) (tpl : TemplateRef) (name : String)
    (template : Option TemplateRef) : Outcome Unit × Heap :=
  tpl.addPartial H name "" template

/-- The loop `for name, helper := range tpl.helpers` of `Clone` on the heap,
over the entries still to copy: each is registered on `result`. -/
def cloneHelpersRef (ensureValidHelper : EnsureValidHelper) (result : TemplateRef) :
    Heap → GoMap Helper → Outcome Unit × Heap
  | H, [] => (.returned (), H)
  | H, (name, helper) :: rest =>
    match result.RegisterHelper ensureValidHelper H name helper with
    | (.panicked p, H) => (.panicked p, H)
    | (.returned _, H) => cloneHelpersRef ensureValidHelper result H rest

/-- The loop `for name, partial := range tpl.partials` of `Clone` on the
heap: each partial is added to `result` with its source and its owned
template. -/
def clonePartialsRef (result : TemplateRef) :
    Heap → GoMap PartialRef → Outcome Unit × Heap
  | H, [] => (.returned (), H)
  | H, (name, part) :: rest =>
    match result.addPartial H name part.source part.tpl with
    | (.panicked p, H) => (.panicked p, H)
    | (.returned _, H) => clonePartialsRef result H rest

/-- Go `Template.Clone` on the heap: `newTemplate` allocates the two maps of
the result, the result gets the program of `tpl`, then every entry of the
maps of `tpl` is registered on the result. -/
def TemplateRef.Clone (ensureValidHelper : EnsureValidHelper) (H : Heap)
    (tpl : TemplateRef) : Outcome TemplateRef × Heap :=
  match newTemplateRef H tpl.source tpl.unescaped with
  | (result, H) =>
    let result := { result with program := tpl.program }
    match cloneHelpersRef ensureValidHelper result H (H.helpersAt tpl.helpers) with
    | (.panicked p, H) => (.panicked p, H)
    | (.returned _, H) =>
      match clonePartialsRef result H (H.partialsAt tpl.partials) with
      | (.panicked p, H) => (.panicked p, H)
      | (.returned _, H) => (.returned result, H)

/-- A call that registers something on a template. -/
inductive Registration where
  | helper (name : String) (helper : Helper)
  | partialSource (name source : String)
  | partialTemplate (name : String) (template : Option TemplateRef)

/-- The call of `RegisterHelper`, `RegisterPartial` or
`RegisterPartialTemplate` on `tpl` that the registration stands for. -/
def TemplateRef.register (ensureValidHelper : EnsureValidHelper) (H : Heap)
    (tpl : TemplateRef) : Registration → Outcome Unit × Heap
  | .helper name helper => tpl.RegisterHelper ensureValidHelper H name helper
  | .partialSource name source => tpl.RegisterPartial H name source
  | .partialTemplate name template => tpl.RegisterPartialTemplate H name template

/-- The heap after the registrations are made on `tpl` one after the other;
a registration that panics leaves the heap as it found it. -/
def TemplateRef.registerAll (ensureValidHelper : EnsureValidHelper) (tpl : TemplateRef) :
    Heap → List Registration → Heap
  | H, [] => H
  | H, op :: ops =>
    TemplateRef.registerAll ensureValidHelper tpl (tpl.register ensureValidHelper H op).2 ops

/-- The entry `Clone` stores for an entry of the partial map: the partial
`newPartial(name, partial.source, partial.tpl)` under the same name, with the
flag of the owned template. -/
def clonedPartialRef (np : String × PartialRef) : String × PartialRef :=
  (np.1, ⟨np.1, np.2.source, np.2.tpl, (np.2.tpl.map TemplateRef.unescaped).getD false⟩)

/-- The parsed hello template with its two (empty) maps at address 1. -/
def helloRef : TemplateRef :=
  ⟨"Hello {{name}}", some helloProgram, 1, 1, false⟩

/-- The parsed hello template with its maps at address 0. -/
def pageRef : TemplateRef :=
  ⟨"Hello {{name}}", some helloProgram, 0, 0, false⟩

/-- A heap in which `pageRef` has the helper `now` and the partial `footer`,
which owns `helloRef`, and `helloRef` has nothing registered. -/
def pageHeap : Heap :=
  { helperMaps := [[("now", ⟨7⟩)], []],
    partialMaps := [[("footer", ⟨"footer", "", some helloRef, false⟩)], []] }

/-! ## The rename pass with the iteration order of every range -/

/-- The order in which Go iterates over a map is not specified and is chosen
anew whenever a `range` statement is executed: `order k m` is the order in
which the `k`-th range of a traversal goes through the pairs `m` of the
mapping. -/
abbrev RangeOrder := Nat → List (String × String) → List (String × String)

/-- Every range goes through each pair of the map once. -/
def RangeOrder.Fair (order : RangeOrder) : Prop :=
  ∀ (k : Nat) (m : List (String × String)), (order k m).Perm m

/-- The order of the list itself, at every range. -/
def RangeOrder.asListed : RangeOrder := fun _ m => m

/-- Go `renameVisitor.VisitPath`, with `k` the number of ranges made so far:
for a path with at least one segment the `k`-th range goes through the pairs
in the order `order k v.variables`, each pair applied to what the pairs
before it left; the returned value is always nil. -/
def renameVisitor.VisitPathAt (order : RangeOrder) (v : renameVisitor) (k : Nat)
    (node : PathExpression) : Option Err × Nat × PathExpression :=
  match node.Parts with
  | [] => (none, k, node)
  | _ :: _ =>
    (none, k + 1,
      (order k v.variables_).foldl (fun node kv => renamePair node kv.1 kv.2) node)

mutual
/-- The dispatch `node.Accept(v)` for a rename visitor, with the count of
ranges; the node is returned as the visit left it. -/
def renameVisitor.AcceptAt (g : GoMap Helper) (order : RangeOrder) (v : renameVisitor)
    (k : Nat) : Node → Option Err × renameVisitor × Nat × Node
  | .program n =>
    match renameVisitor.VisitProgramAt g order v k n with
    | (err, v, k, n) => (err, v, k, .program n)
  | .mustache n =>
    match renameVisitor.VisitMustacheAt g order v k n with
    | (err, v, k, n) => (err, v, k, .mustache n)
  | .block n =>
    match renameVisitor.VisitBlockAt g order v k n with
    | (err, v, k, n) => (err, v, k, .block n)
  | .partialStatement n => (none, v.at_ (.partialStatement n), k, .partialStatement n)
  | .content n => (none, v.at_ (.content n), k, .content n)
  | .comment n => (none, v.at_ (.comment n), k, .comment n)
  | .expression n =>
    match renameVisitor.VisitExpressionAt g order v k n with
    | (err, v, k, n) => (err, v, k, .expression n)
  | .subExpression n =>
    match renameVisitor.VisitSubExpressionAt g order v k n with
    | (err, v, k, n) => (err, v, k, .subExpression n)
  | .path n =>
    match renameVisitor.VisitPathAt order v k n with
    | (err, k, n) => (err, v, k, .path n)
  | .string n => (none, v.at_ (.string n), k, .string n)
  | .boolean n => (none, v.at_ (.boolean n), k, .boolean n)
  | .number n => (none, v.at_ (.number n), k, .number n)
  | .hash n =>
    match renameVisitor.VisitHashAt g order v k n with
    | (err, v, k, n) => (err, v, k, .hash n)
  | .hashPair n =>
    match renameVisitor.VisitHashPairAt g order v k n with
    | (err, v, k, n) => (err, v, k, .hashPair n)
/-- The loop `for _, n := range nodes` that accepts each node and returns
at the first error, leaving the nodes after it as they were. -/
def renameVisitor.acceptEachAt (g : GoMap Helper) (order : RangeOrder) (v : renameVisitor)
    (k : Nat) : List Node → Option Err × renameVisitor × Nat × List Node
  | [] => (none, v, k, [])
  | n :: ns =>
    match renameVisitor.AcceptAt g order v k n with
    | (some err, v, k, n) => (some err, v, k, n :: ns)
    | (none, v, k, n) =>
      match renameVisitor.acceptEachAt g order v k ns with
      | (err, v, k, ns) => (err, v, k, n :: ns)
/-- Go `renameVisitor.VisitProgram`, with the count of ranges. -/
def renameVisitor.VisitProgramAt (g : GoMap Helper) (order : RangeOrder)
    (v : renameVisitor) (k : Nat) (node : Program) :
    Option Err × renameVisitor × Nat × Program :=
  let v := v.at_ (.program node)
  match node with
  | .mk blockParams body =>
    match renameVisitor.acceptEachAt g order v k body with
    | (err, v, k, body) => (err, v, k, .mk blockParams body)
/-- Go `renameVisitor.VisitMustache`, with the count of ranges. -/
def renameVisitor.VisitMustacheAt (g : GoMap Helper) (order : RangeOrder)
    (v : renameVisitor) (k : Nat) (node : MustacheStatement) :
    Option Err × renameVisitor × Nat × MustacheStatement :=
  let v := v.at_ (.mustache node)
  match node with
  | .mk expression =>
    match renameVisitor.VisitExpressionAt g order v k expression with
    | (err, v, k, expression) => (err, v, k, .mk expression)
/-- Go `renameVisitor.VisitBlock`, with the count of ranges. -/
def renameVisitor.VisitBlockAt (g : GoMap Helper) (order : RangeOrder)
    (v : renameVisitor) (k : Nat) (node : BlockStatement) :
    Option Err × renameVisitor × Nat × BlockStatement :=
  let v := v.at_ (.block node)
  let v := { v with blockStack := v.blockStack ++ [node] }
  match node with
  | .mk expression program inverse =>
    match renameVisitor.VisitExpressionAt g order v k expression with
    | (some err, v, k, expression) => (some err, v, k, .mk expression program inverse)
    | (none, v, k, expression) =>
      match renameVisitor.acceptIfPresentAt g order v k program with
      | (some err, v, k, program) => (some err, v, k, .mk expression program inverse)
      | (none, v, k, program) =>
        match renameVisitor.acceptIfPresentAt g order v k inverse with
        | (some err, v, k, inverse) => (some err, v, k, .mk expression program inverse)
        | (none, v, k, inverse) =>
          (none, { v with blockStack := v.blockStack.dropLast }, k,
            .mk expression program inverse)
/-- The guarded visit `if p != nil { err := p.Accept(v) ... }` of a block body
that may be absent, with the count of ranges. -/
def renameVisitor.acceptIfPresentAt (g : GoMap Helper) (order : RangeOrder)
    (v : renameVisitor) (k : Nat) :
    Option Program → Option Err × renameVisitor × Nat × Option Program
  | some p =>
    match renameVisitor.VisitProgramAt g order v k p with
    | (err, v, k, p) => (err, v, k, some p)
  | none => (none, v, k, none)
/-- Go `renameVisitor.VisitExpression`, with the count of ranges: the
parameters, then the helper check, the literal check and the field path,
which is rewritten. -/
def renameVisitor.VisitExpressionAt (g : GoMap Helper) (order : RangeOrder)
    (v : renameVisitor) (k : Nat) (node : Expression) :
    Option Err × renameVisitor × Nat × Expression :=
  match node with
  | .mk path params hash =>
    match renameVisitor.acceptEachAt g order v k params with
    | (some err, v, k, params) => (some err, v, k, .mk path params hash)
    | (none, v, k, params) =>
      let helperName := node.HelperName
      let done := helperName != "" && (v.findHelper g helperName).isSome
      if !done && node.LiteralStr.2 then
        (none, v, k, .mk path params hash)
      else if !done then
        match node.FieldPath with
        | some p =>
          match renameVisitor.VisitPathAt order v k p with
          | (some err, k, p) => (some err, v, k, .mk (.path p) params hash)
          | (none, k, p) => (none, v, k, .mk (.path p) params hash)
        | none => (none, v, k, .mk path params hash)
      else
        (none, v, k, .mk path params hash)
/-- Go `renameVisitor.VisitSubExpression`, with the count of ranges. -/
def renameVisitor.VisitSubExpressionAt (g : GoMap Helper) (order : RangeOrder)
    (v : renameVisitor) (k : Nat) (node : SubExpression) :
    Option Err × renameVisitor × Nat × SubExpression :=
  let v := v.at_ (.subExpression node)
  match node with
  | .mk expression =>
    match renameVisitor.VisitExpressionAt g order v k expression with
    | (err, v, k, expression) => (err, v, k, .mk expression)
/-- Go `renameVisitor.VisitHash`, with the count of ranges. -/
def renameVisitor.VisitHashAt (g : GoMap Helper) (order : RangeOrder) (v : renameVisitor)
    (k : Nat) (node : Hash) : Option Err × renameVisitor × Nat × Hash :=
  let v := v.at_ (.hash node)
  match node with
  | .mk pairs =>
    match renameVisitor.acceptPairsAt g order v k pairs with
    | (err, v, k, pairs) => (err, v, k, .mk pairs)
/-- The loop over the pairs of a hash, with the count of ranges. -/
def renameVisitor.acceptPairsAt (g : GoMap Helper) (order : RangeOrder)
    (v : renameVisitor) (k : Nat) :
    List HashPair → Option Err × renameVisitor × Nat × List HashPair
  | [] => (none, v, k, [])
  | p :: ps =>
    match renameVisitor.VisitHashPairAt g order v k p with
    | (some err, v, k, p) => (some err, v, k, p :: ps)
    | (none, v, k, p) =>
      match renameVisitor.acceptPairsAt g order v k ps with
      | (err, v, k, ps) => (err, v, k, p :: ps)
/-- Go `renameVisitor.VisitHashPair`, with the count of ranges. -/
def renameVisitor.VisitHashPairAt (g : GoMap Helper) (order : RangeOrder)
    (v : renameVisitor) (k : Nat) (node : HashPair) :
    Option Err × renameVisitor × Nat × HashPair :=
  let v := v.at_ (.hashPair node)
  match node with
  | .mk key val =>
    match renameVisitor.AcceptAt g order v k val with
    | (err, v, k, val) => (err, v, k, .mk key val)
end

/-- Go `Template.Rename`, with the iteration order of every range of the
mapping: parse if necessary, then walk the tree with a fresh rename visitor
under `errRecover`; the tree of the template is the rewritten one
afterwards.  Walking a nil program is a nil dereference. -/
def Template.RenameAt (parser : Parser) (g : GoMap Helper) (order : RangeOrder)
    (tpl : Template) (variables_ : List (String × String)) :
    Outcome (Option Err) × Template :=
  match tpl.parse parser with
  | (some err, tpl) => (.returned (some (Err.couldNotBeParsed err)), tpl)
  | (none, tpl) =>
    let v := newRenameVisitor tpl variables_
    match tpl.program with
    | some program =>
      match renameVisitor.VisitProgramAt g order v 0 program with
      | (err, _, _, program) => (errRecover none err, tpl.setProgram (some program))
    | none => (errRecover (some (.runtimeError "nil pointer dereference")) none, tpl)

/-- Two results of rename visits started from visitors with the template and
mapping of `v` agree: no error in either, the template and mapping of `v` in
the visitors left, the same count of ranges and the same node. -/
def renameVisitor.Agree {α : Type} (v : renameVisitor)
    (r r' : Option Err × renameVisitor × Nat × α) : Prop :=
  r.1 = none ∧ r'.1 = none ∧ r.2.1.tpl = v.tpl ∧ r.2.1.variables_ = v.variables_ ∧
    r'.2.1.tpl = v.tpl ∧ r'.2.1.variables_ = v.variables_ ∧ r.2.2 = r'.2.2

/-- A result with the count of ranges and a result without it that are the
same apart from the count. -/
def renameVisitor.Matches {α : Type} (r : Option Err × renameVisitor × Nat × α)
    (s : Option Err × renameVisitor × α) : Prop :=
  r.1 = s.1 ∧ r.2.1 = s.2.1 ∧ r.2.2.2 = s.2.2

/-- An order that goes through the pairs as listed at the first range and
backwards at every later one. -/
def RangeOrder.turning : RangeOrder := fun k m => if k = 0 then m else m.reverse

/-- The tree of `{{ab}}{{#if c}}{{ab}}{{/if}}`: the same reference at top
level and inside a block. -/
def twiceProgram : Program :=
  .mk [] [.mustache (.mk (.mk (.path ⟨"ab", ["ab"]⟩) [] none)),
    .block (.mk (.mk (.path ⟨"if", ["if"]⟩) [.path ⟨"c", ["c"]⟩] none)
      (some (.mk [] [.mustache (.mk (.mk (.path ⟨"ab", ["ab"]⟩) [] none))])) none)]

/-- The parsed template of `twiceProgram`, without helpers. -/
def twiceTemplate : Template :=
  .mk "" (some twiceProgram) [] [] false

/-! ## The validate visitor: what every visit preserves -/

theorem validateVisitor.Inv.refl (v : validateVisitor) : v.Inv (none, v) := by
  simp [validateVisitor.Inv]

theorem validateVisitor.Inv.of_at {v : validateVisitor} {n : Node}
    {r : Option Err × validateVisitor} (h : (v.at_ n).Inv r) : v.Inv r := by
  simpa [validateVisitor.Inv, validateVisitor.at_] using h

theorem validateVisitor.Inv.trans {v w : validateVisitor} {r : Option Err × validateVisitor}
    (h : v.Inv (none, w)) (hk : w.Inv r) : v.Inv r := by
  obtain ⟨h1, h2, h3, -⟩ := h
  obtain ⟨k1, k2, k3, k4⟩ := hk
  have h3 := h3 rfl
  refine ⟨k1.trans h1, k2.trans h2, fun hn => (k3 hn).trans h3, fun hv => k4 ?_⟩
  rw [h3]; exact hv

theorem validateVisitor.inBlock_of_ne_nil {v : validateVisitor} (h : v.blockStack ≠ []) :
    v.inBlock = true := by
  simp [validateVisitor.inBlock, List.length_pos, h]

theorem validateVisitor.VisitPath_inBlock {v : validateVisitor} (h : v.blockStack ≠ [])
    (p : PathExpression) : v.VisitPath p = none := by
  simp [validateVisitor.VisitPath, validateVisitor.inBlock_of_ne_nil h]

theorem validateVisitor.VisitPath_inv (v : validateVisitor) (p : PathExpression) :
    v.Inv (v.VisitPath p, v) :=
  ⟨rfl, rfl, fun _ => rfl, fun h => validateVisitor.VisitPath_inBlock h p⟩

mutual
theorem validateVisitor.Accept_inv (g : GoMap Helper) : ∀ (n : Node) (v : validateVisitor),
    v.Inv (validateVisitor.Accept g v n)
  | .program n, v => by
    rw [validateVisitor.Accept]; exact validateVisitor.VisitProgram_inv g n v
  | .mustache n, v => by
    rw [validateVisitor.Accept]; exact validateVisitor.VisitMustache_inv g n v
  | .block n, v => by
    rw [validateVisitor.Accept]; exact validateVisitor.VisitBlock_inv g n v
  | .partialStatement n, v => by
    rw [validateVisitor.Accept]; exact (validateVisitor.Inv.refl _).of_at
  | .content n, v => by
    rw [validateVisitor.Accept]; exact (validateVisitor.Inv.refl _).of_at
  | .comment n, v => by
    rw [validateVisitor.Accept]; exact (validateVisitor.Inv.refl _).of_at
  | .expression n, v => by
    rw [validateVisitor.Accept]; exact validateVisitor.VisitExpression_inv g n v
  | .subExpression n, v => by
    rw [validateVisitor.Accept]; exact validateVisitor.VisitSubExpression_inv g n v
  | .path n, v => by
    rw [validateVisitor.Accept]; exact validateVisitor.VisitPath_inv v n
  | .string n, v => by
    rw [validateVisitor.Accept]; exact (validateVisitor.Inv.refl _).of_at
  | .boolean n, v => by
    rw [validateVisitor.Accept]; exact (validateVisitor.Inv.refl _).of_at
  | .number n, v => by
    rw [validateVisitor.Accept]; exact (validateVisitor.Inv.refl _).of_at
  | .hash n, v => by
    rw [validateVisitor.Accept]; exact validateVisitor.VisitHash_inv g n v
  | .hashPair n, v => by
    rw [validateVisitor.Accept]; exact validateVisitor.VisitHashPair_inv g n v
theorem validateVisitor.acceptEach_inv (g : GoMap Helper) :
    ∀ (ns : List Node) (v : validateVisitor), v.Inv (validateVisitor.acceptEach g v ns)
  | [], v => by rw [validateVisitor.acceptEach]; exact validateVisitor.Inv.refl v
  | n :: ns, v => by
    rw [validateVisitor.acceptEach]
    have h1 := validateVisitor.Accept_inv g n v
    split
    · next err w heq => rw [heq] at h1; exact h1
    · next w heq => rw [heq] at h1; exact h1.trans (validateVisitor.acceptEach_inv g ns w)
theorem validateVisitor.VisitProgram_inv (g : GoMap Helper) :
    ∀ (n : Program) (v : validateVisitor), v.Inv (validateVisitor.VisitProgram g v n)
  | .mk _ body, v => by
    rw [validateVisitor.VisitProgram]
    exact (validateVisitor.acceptEach_inv g body _).of_at
theorem validateVisitor.VisitMustache_inv (g : GoMap Helper) :
    ∀ (n : MustacheStatement) (v : validateVisitor),
      v.Inv (validateVisitor.VisitMustache g v n)
  | .mk e, v => by
    rw [validateVisitor.VisitMustache]
    exact (validateVisitor.VisitExpression_inv g e _).of_at
theorem validateVisitor.VisitBlock_inv (g : GoMap Helper) :
    ∀ (n : BlockStatement) (v : validateVisitor), v.Inv (validateVisitor.VisitBlock g v n)
  | .mk e p i, v => by
    rw [validateVisitor.VisitBlock]
    refine validateVisitor.Inv.of_at (n := .block (.mk e p i)) ?_
    generalize v.at_ (.block (.mk e p i)) = u
    have hpush : ({ u with blockStack := u.blockStack ++ [BlockStatement.mk e p i] } :
        validateVisitor).blockStack ≠ [] := by simp
    have h1 := validateVisitor.VisitExpression_inv g e
      { u with blockStack := u.blockStack ++ [BlockStatement.mk e p i] }
    split
    · next err w heq =>
      rw [heq] at h1
      exact absurd (h1.2.2.2 hpush) (by simp)
    · next w1 heq1 =>
      rw [heq1] at h1
      have hw1 : w1.blockStack = u.blockStack ++ [BlockStatement.mk e p i] := h1.2.2.1 rfl
      have h2 := validateVisitor.acceptIfPresent_inv g p w1
      split
      · next err w heq =>
        rw [heq] at h2
        exact absurd (h2.2.2.2 (by rw [hw1]; simp)) (by simp)
      · next w2 heq2 =>
        rw [heq2] at h2
        have hw2 : w2.blockStack = u.blockStack ++ [BlockStatement.mk e p i] :=
          (h2.2.2.1 rfl).trans hw1
        have h3 := validateVisitor.acceptIfPresent_inv g i w2
        split
        · next err w heq =>
          rw [heq] at h3
          exact absurd (h3.2.2.2 (by rw [hw2]; simp)) (by simp)
        · next w3 heq3 =>
          rw [heq3] at h3
          have hw3 : w3.blockStack = u.blockStack ++ [BlockStatement.mk e p i] :=
            (h3.2.2.1 rfl).trans hw2
          refine ⟨?_, ?_, fun _ => ?_, fun _ => rfl⟩
          · exact (h3.1.trans h2.1).trans h1.1
          · exact (h3.2.1.trans h2.2.1).trans h1.2.1
          · simp [hw3]
theorem validateVisitor.acceptIfPresent_inv (g : GoMap Helper) :
    ∀ (n : Option Program) (v : validateVisitor),
      v.Inv (validateVisitor.acceptIfPresent g v n)
  | some p, v => by
    rw [validateVisitor.acceptIfPresent]; exact validateVisitor.VisitProgram_inv g p v
  | none, v => by
    rw [validateVisitor.acceptIfPresent]; exact validateVisitor.Inv.refl v
theorem validateVisitor.VisitExpression_inv (g : GoMap Helper) :
    ∀ (n : Expression) (v : validateVisitor), v.Inv (validateVisitor.VisitExpression g v n)
  | .mk p ps h, v => by
    rw [validateVisitor.VisitExpression]
    have h1 := validateVisitor.acceptEach_inv g ps v
    split
    · next err w heq => rw [heq] at h1; exact h1
    · next w heq =>
      rw [heq] at h1
      refine h1.trans ?_
      dsimp only
      split
      · exact validateVisitor.Inv.refl w
      · split
        · split
          · next path _ =>
            have h2 := validateVisitor.VisitPath_inv w path
            split
            · next err hp => rw [hp] at h2; exact h2
            · exact validateVisitor.Inv.refl w
          · exact validateVisitor.Inv.refl w
        · exact validateVisitor.Inv.refl w
theorem validateVisitor.VisitSubExpression_inv (g : GoMap Helper) :
    ∀ (n : SubExpression) (v : validateVisitor),
      v.Inv (validateVisitor.VisitSubExpression g v n)
  | .mk e, v => by
    rw [validateVisitor.VisitSubExpression]
    exact (validateVisitor.VisitExpression_inv g e _).of_at
theorem validateVisitor.VisitHash_inv (g : GoMap Helper) :
    ∀ (n : Hash) (v : validateVisitor), v.Inv (validateVisitor.VisitHash g v n)
  | .mk ps, v => by
    rw [validateVisitor.VisitHash]
    exact (validateVisitor.acceptPairs_inv g ps _).of_at
theorem validateVisitor.acceptPairs_inv (g : GoMap Helper) :
    ∀ (ns : List HashPair) (v : validateVisitor), v.Inv (validateVisitor.acceptPairs g v ns)
  | [], v => by rw [validateVisitor.acceptPairs]; exact validateVisitor.Inv.refl v
  | n :: ns, v => by
    rw [validateVisitor.acceptPairs]
    have h1 := validateVisitor.VisitHashPair_inv g n v
    split
    · next err w heq => rw [heq] at h1; exact h1
    · next w heq => rw [heq] at h1; exact h1.trans (validateVisitor.acceptPairs_inv g ns w)
theorem validateVisitor.VisitHashPair_inv (g : GoMap Helper) :
    ∀ (n : HashPair) (v : validateVisitor), v.Inv (validateVisitor.VisitHashPair g v n)
  | .mk _ val, v => by
    rw [validateVisitor.VisitHashPair]
    exact (validateVisitor.Accept_inv g val _).of_at
end

/-! ## The validate visitor at top level: the first unknown reference -/

theorem firstInvalid_append (V : List String) (l₁ l₂ : List PathExpression) :
    firstInvalid V (l₁ ++ l₂) = (firstInvalid V l₁).or (firstInvalid V l₂) := by
  induction l₁ with
  | nil => simp [firstInvalid]
  | cons p ps ih =>
    simp only [List.cons_append, firstInvalid]
    split
    · exact ih
    · simp

theorem firstInvalid_eq_none_iff (V : List String) (l : List PathExpression) :
    firstInvalid V l = none ↔ ∀ p ∈ l, p.firstSegmentKnown V := by
  induction l with
  | nil => simp [firstInvalid]
  | cons p ps ih =>
    simp only [firstInvalid, List.mem_cons, forall_eq_or_imp]
    split
    · next h => simp [ih, h]
    · next h => simp [h]

theorem firstInvalid_eq_some_iff (V : List String) (l : List PathExpression) (err : Err) :
    firstInvalid V l = some err ↔
      ∃ pre p post, l = pre ++ p :: post ∧ (∀ q ∈ pre, q.firstSegmentKnown V) ∧
        ¬ p.firstSegmentKnown V ∧ err = Err.invalidVariableReference p.Original V := by
  induction l with
  | nil => simp [firstInvalid]
  | cons a as ih =>
    simp only [firstInvalid]
    split
    · next h =>
      rw [ih]
      constructor
      · rintro ⟨pre, p, post, rfl, hpre, hp, rfl⟩
        exact ⟨a :: pre, p, post, rfl, by simpa [h] using hpre, hp, rfl⟩
      · rintro ⟨pre, p, post, hl, hpre, hp, rfl⟩
        cases pre with
        | nil =>
          simp only [List.nil_append, List.cons.injEq] at hl
          exact absurd (hl.1 ▸ h) hp
        | cons b bs =>
          simp only [List.cons_append, List.cons.injEq] at hl
          exact ⟨bs, p, post, hl.2, fun q hq => hpre q (List.mem_cons_of_mem _ hq), hp, rfl⟩
    · next h =>
      constructor
      · intro he
        exact ⟨[], a, as, rfl, by simp, h, (Option.some.inj he).symm⟩
      · rintro ⟨pre, p, post, hl, hpre, hp, rfl⟩
        cases pre with
        | nil =>
          simp only [List.nil_append, List.cons.injEq] at hl
          rw [hl.1]
        | cons b bs =>
          simp only [List.cons_append, List.cons.injEq] at hl
          exact absurd (hpre b (by simp)) (by rw [← hl.1]; exact h)

theorem foundLoop_eq_true_iff (part0 : String) (V : List String) (b : Bool) :
    V.foldl (fun found val =>
        let escapedVal := "[" ++ val ++ "]"
        if val == part0 || escapedVal == part0 then true else found) b = true ↔
      b = true ∨ ∃ n ∈ V, part0 = n ∨ part0 = "[" ++ n ++ "]" := by
  induction V generalizing b with
  | nil => simp
  | cons a as ih =>
    rw [List.foldl_cons, ih]
    by_cases h : (a == part0 || "[" ++ a ++ "]" == part0) = true
    · have h' : part0 = a ∨ part0 = "[" ++ a ++ "]" := by
        simp only [Bool.or_eq_true, beq_iff_eq] at h
        exact h.imp Eq.symm Eq.symm
      simp [h, h']
    · have h' : ¬ (part0 = a ∨ part0 = "[" ++ a ++ "]") := by
        simp only [Bool.or_eq_true, beq_iff_eq] at h
        exact fun hc => h (hc.imp Eq.symm Eq.symm)
      simp [h, h']

theorem validateVisitor.VisitPath_top {v : validateVisitor} (hv : v.blockStack = [])
    (p : PathExpression) : v.VisitPath p = firstInvalid v.variables_ [p] := by
  have hb : v.inBlock = false := by simp [validateVisitor.inBlock, hv]
  obtain ⟨orig, parts⟩ := p
  cases parts with
  | nil => simp [validateVisitor.VisitPath, hb, firstInvalid, PathExpression.firstSegmentKnown]
  | cons part0 rest =>
    have hk : PathExpression.firstSegmentKnown v.variables_ ⟨orig, part0 :: rest⟩ ↔
        ∃ n ∈ v.variables_, part0 = n ∨ part0 = "[" ++ n ++ "]" := by
      simp [PathExpression.firstSegmentKnown]
    simp only [validateVisitor.VisitPath, hb, firstInvalid]
    by_cases hf : ∃ n ∈ v.variables_, part0 = n ∨ part0 = "[" ++ n ++ "]"
    · have := (foundLoop_eq_true_iff part0 v.variables_ false).2 (Or.inr hf)
      simp only [this, hk.2 hf]
      simp
    · have : ¬ _ := fun h => hf (((foundLoop_eq_true_iff part0 v.variables_ false).1 h).resolve_left
        (by simp))
      simp only [Bool.not_eq_true] at this
      simp only [this, mt hk.1 hf]
      simp

theorem validateVisitor.findHelper_isSome (g : GoMap Helper) (v : validateVisitor)
    (name : String) :
    (v.findHelper g name).isSome =
      ((v.tpl.helpers.get name).isSome || (g.get name).isSome) := by
  unfold validateVisitor.findHelper Template.findHelper Raymond.findHelper
  cases v.tpl.helpers.get name <;> simp

mutual
theorem validateVisitor.VisitExpression_top (g : GoMap Helper) :
    ∀ (e : Expression) (v : validateVisitor), e.paramsShaped = true → v.blockStack = [] →
      (validateVisitor.VisitExpression g v e).1 =
        firstInvalid v.variables_ (e.fieldReferences v.tpl.helpers g)
  | .mk path ps h, v, hs, hv => by
    rw [Expression.paramsShaped] at hs
    have hps := validateVisitor.acceptEach_top g ps v hs hv
    have hinv := validateVisitor.acceptEach_inv g ps v
    rw [validateVisitor.VisitExpression, Expression.fieldReferences, firstInvalid_append]
    split
    · next err w heq =>
      rw [heq] at hps
      simp [← hps]
    · next w heq =>
      rw [heq] at hps hinv
      obtain ⟨ht, hV, hb, -⟩ := hinv
      simp only at ht hV hb hps
      have hw : w.blockStack = [] := (hb trivial).trans hv
      rw [← hps, Option.none_or]
      have hdone : ((Expression.mk path ps h).HelperName != "" &&
          (validateVisitor.findHelper g w (Expression.mk path ps h).HelperName).isSome) =
          (Expression.mk path ps h).isHelperCall v.tpl.helpers g := by
        rw [validateVisitor.findHelper_isSome, ht, Expression.isHelperCall]
      dsimp only
      rw [hdone]
      cases hc : (Expression.mk path ps h).isHelperCall v.tpl.helpers g
      · cases hl : (Expression.mk path ps h).LiteralStr.2
        · cases hf : (Expression.mk path ps h).FieldPath with
          | none => simp [firstInvalid]
          | some p =>
            simp only [Bool.not_false, Bool.and_false, Bool.false_eq_true, if_false, if_true,
              Option.toList_some]
            rw [← hV, ← validateVisitor.VisitPath_top hw]
            cases w.VisitPath p <;> rfl
        · have hf : (Expression.mk path ps h).FieldPath = none := by
            cases path <;>
              simp_all [Expression.LiteralStr, Expression.Path, ast.LiteralStr,
                Expression.FieldPath]
          simp [hf, firstInvalid]
      · simp [firstInvalid]
theorem validateVisitor.Accept_param_top (g : GoMap Helper) :
    ∀ (n : Node) (v : validateVisitor), paramShaped n = true → v.blockStack = [] →
      (validateVisitor.Accept g v n).1 =
        firstInvalid v.variables_ (paramFieldReferences v.tpl.helpers g n)
  | .path p, v, _, hv => by
    rw [validateVisitor.Accept, paramFieldReferences]
    exact validateVisitor.VisitPath_top hv p
  | .subExpression (.mk e), v, hs, hv => by
    rw [paramShaped] at hs
    rw [validateVisitor.Accept, validateVisitor.VisitSubExpression, paramFieldReferences]
    exact validateVisitor.VisitExpression_top g e _ hs hv
  | .string _, v, _, _ => by
    simp [validateVisitor.Accept, paramFieldReferences, firstInvalid]
  | .boolean _, v, _, _ => by
    simp [validateVisitor.Accept, paramFieldReferences, firstInvalid]
  | .number _, v, _, _ => by
    simp [validateVisitor.Accept, paramFieldReferences, firstInvalid]
  | .program _, _, hs, _ => by simp [paramShaped] at hs
  | .mustache _, _, hs, _ => by simp [paramShaped] at hs
  | .block _, _, hs, _ => by simp [paramShaped] at hs
  | .partialStatement _, _, hs, _ => by simp [paramShaped] at hs
  | .content _, _, hs, _ => by simp [paramShaped] at hs
  | .comment _, _, hs, _ => by simp [paramShaped] at hs
  | .expression _, _, hs, _ => by simp [paramShaped] at hs
  | .hash _, _, hs, _ => by simp [paramShaped] at hs
  | .hashPair _, _, hs, _ => by simp [paramShaped] at hs
theorem validateVisitor.acceptEach_top (g : GoMap Helper) :
    ∀ (ns : List Node) (v : validateVisitor), paramListShaped ns = true →
      v.blockStack = [] →
      (validateVisitor.acceptEach g v ns).1 =
        firstInvalid v.variables_ (paramsFieldReferences v.tpl.helpers g ns)
  | [], v, _, _ => by
    rw [validateVisitor.acceptEach, paramsFieldReferences]; rfl
  | n :: ns, v, hs, hv => by
    rw [paramListShaped, Bool.and_eq_true] at hs
    have h1 := validateVisitor.Accept_param_top g n v hs.1 hv
    have hinv := validateVisitor.Accept_inv g n v
    rw [validateVisitor.acceptEach, paramsFieldReferences, firstInvalid_append]
    split
    · next err w heq =>
      rw [heq] at h1
      simp [← h1]
    · next w heq =>
      rw [heq] at h1 hinv
      obtain ⟨ht, hV, hb, -⟩ := hinv
      simp only at ht hV hb h1
      rw [← h1, Option.none_or, ← ht, ← hV]
      exact validateVisitor.acceptEach_top g ns w hs.2 ((hb trivial).trans hv)
end

theorem validateVisitor.VisitBlock_noError (g : GoMap Helper) (v : validateVisitor)
    (node : BlockStatement) : (validateVisitor.VisitBlock g v node).1 = none := by
  obtain ⟨e, p, i⟩ := node
  rw [validateVisitor.VisitBlock]
  generalize v.at_ (.block (.mk e p i)) = u
  have hpush : ({ u with blockStack := u.blockStack ++ [BlockStatement.mk e p i] } :
      validateVisitor).blockStack ≠ [] := by simp
  have h1 := validateVisitor.VisitExpression_inv g e
    { u with blockStack := u.blockStack ++ [BlockStatement.mk e p i] }
  split
  · next err w heq =>
    rw [heq] at h1
    exact absurd (h1.2.2.2 hpush) (by simp)
  · next w1 heq1 =>
    rw [heq1] at h1
    have hw1 : w1.blockStack = u.blockStack ++ [BlockStatement.mk e p i] := h1.2.2.1 rfl
    have h2 := validateVisitor.acceptIfPresent_inv g p w1
    split
    · next err w heq =>
      rw [heq] at h2
      exact absurd (h2.2.2.2 (by rw [hw1]; simp)) (by simp)
    · next w2 heq2 =>
      rw [heq2] at h2
      have hw2 : w2.blockStack = u.blockStack ++ [BlockStatement.mk e p i] :=
        (h2.2.2.1 rfl).trans hw1
      have h3 := validateVisitor.acceptIfPresent_inv g i w2
      split
      · next err w heq =>
        rw [heq] at h3
        exact absurd (h3.2.2.2 (by rw [hw2]; simp)) (by simp)
      · rfl

theorem validateVisitor.Accept_statement_top (g : GoMap Helper) (n : Node)
    (v : validateVisitor) (hs : statementShaped n = true) (hv : v.blockStack = []) :
    (validateVisitor.Accept g v n).1 =
      firstInvalid v.variables_ (statementFieldReferences v.tpl.helpers g n) := by
  cases n with
  | mustache m =>
    obtain ⟨e⟩ := m
    rw [statementShaped] at hs
    rw [validateVisitor.Accept, validateVisitor.VisitMustache, statementFieldReferences]
    exact validateVisitor.VisitExpression_top g e _ hs hv
  | block b =>
    rw [validateVisitor.Accept, validateVisitor.VisitBlock_noError]
    simp [statementFieldReferences, firstInvalid]
  | partialStatement _ => simp [validateVisitor.Accept, statementFieldReferences, firstInvalid]
  | content _ => simp [validateVisitor.Accept, statementFieldReferences, firstInvalid]
  | comment _ => simp [validateVisitor.Accept, statementFieldReferences, firstInvalid]
  | program _ => simp [statementShaped] at hs
  | expression _ => simp [statementShaped] at hs
  | subExpression _ => simp [statementShaped] at hs
  | path _ => simp [statementShaped] at hs
  | string _ => simp [statementShaped] at hs
  | boolean _ => simp [statementShaped] at hs
  | number _ => simp [statementShaped] at hs
  | hash _ => simp [statementShaped] at hs
  | hashPair _ => simp [statementShaped] at hs

theorem validateVisitor.acceptEach_body_top (g : GoMap Helper) (body : List Node) :
    ∀ (v : validateVisitor), body.all statementShaped = true → v.blockStack = [] →
      (validateVisitor.acceptEach g v body).1 =
        firstInvalid v.variables_ (body.flatMap (statementFieldReferences v.tpl.helpers g)) := by
  induction body with
  | nil => intro v _ _; rw [validateVisitor.acceptEach]; rfl
  | cons n ns ih =>
    intro v hs hv
    rw [List.all_cons, Bool.and_eq_true] at hs
    have h1 := validateVisitor.Accept_statement_top g n v hs.1 hv
    have hinv := validateVisitor.Accept_inv g n v
    rw [validateVisitor.acceptEach, List.flatMap_cons, firstInvalid_append]
    split
    · next err w heq =>
      rw [heq] at h1
      simp [← h1]
    · next w heq =>
      rw [heq] at h1 hinv
      obtain ⟨ht, hV, hb, -⟩ := hinv
      simp only at ht hV hb h1
      rw [← h1, Option.none_or, ← ht, ← hV]
      exact ih w hs.2 ((hb trivial).trans hv)

theorem Template.parse_of_program {tpl : Template} {prog : Program}
    (h : tpl.program = some prog) (parser : Parser) : tpl.parse parser = (none, tpl) := by
  simp [Template.parse, h]

/-- On a parsed template whose tree has the parser's shape, `Validate`
returns the error for the first top-level field reference, in traversal
order, whose first segment is not known, and nothing when there is none; the
template is left as it was. -/
theorem Template.Validate_eq_firstInvalid (parser : Parser) (g : GoMap Helper)
    (tpl : Template) (prog : Program) (V : List String)
    (hp : tpl.program = some prog) (hs : prog.ParsedShape = true) :
    tpl.Validate parser g V =
      (.returned (firstInvalid V (prog.topLevelFieldReferences tpl.helpers g)), tpl) := by
  obtain ⟨bp, body⟩ := prog
  simp only [Template.Validate, Template.parse_of_program hp, hp]
  rw [validateVisitor.VisitProgram]
  have := validateVisitor.acceptEach_body_top g body
    ((newValidateVisitor tpl V).at_ (.program (.mk bp body))) hs rfl
  rw [this]
  rfl

/-! ## Claims on the validate pass -/

/-- C1: on a parsed template, `Validate(V)` returns no error if and only if
every top-level field reference (a path parameter, or the path of a mustache
or sub-expression that is neither a registered-helper call nor a literal,
outside every block statement) has a first path segment that equals some name
of `V` verbatim or wrapped as `"[name]"`.  A reference without any segment has
no first segment to compare; the arguments of partial statements and the
values of hashes are not visited and are not field references here. -/
theorem Template.Validate_ok_iff_topLevel_known (parser : Parser) (g : GoMap Helper)
    (tpl : Template) (prog : Program) (V : List String)
    (hp : tpl.program = some prog) (hs : prog.ParsedShape = true) :
    (tpl.Validate parser g V).1 = .returned none ↔
      ∀ p ∈ prog.topLevelFieldReferences tpl.helpers g,
        ∀ s ∈ p.Parts.head?, ∃ n ∈ V, s = n ∨ s = "[" ++ n ++ "]" := by
  rw [Template.Validate_eq_firstInvalid parser g tpl prog V hp hs]
  simp only [Outcome.returned.injEq]
  exact firstInvalid_eq_none_iff V _

theorem Template.Validate_ok_iff_topLevel_known_witness :
    reportTemplate.program = some reportProgram ∧ reportProgram.ParsedShape = true ∧
      reportProgram.topLevelFieldReferences reportTemplate.helpers reportGlobals =
        [⟨"user.name", ["user", "name"]⟩] ∧
      (reportTemplate.Validate noParser reportGlobals ["user"]).1 = .returned none ∧
      ((reportTemplate.Validate noParser reportGlobals ["user"]).1 = .returned none ↔
        ∀ p ∈ reportProgram.topLevelFieldReferences reportTemplate.helpers reportGlobals,
          ∀ s ∈ p.Parts.head?, ∃ n ∈ ["user"], s = n ∨ s = "[" ++ n ++ "]") :=
  ⟨rfl, by decide, by decide, by decide,
    Template.Validate_ok_iff_topLevel_known noParser reportGlobals reportTemplate
      reportProgram ["user"] rfl (by decide)⟩

/-- C2: no field reference in a block statement's own call expression, primary
body or inverse body makes `Validate` fail, whatever `V` is: visiting a block
never returns an error; the result of `Validate` is the same when a top-level
block is replaced by any other block; and a parsed tree without top-level
field references (all its references lie inside blocks) validates against
every `V`. -/
theorem Template.Validate_ignores_blocks (parser : Parser) (g : GoMap Helper)
    (tpl : Template) (V : List String) :
    (∀ (v : validateVisitor) (B : BlockStatement),
        (validateVisitor.VisitBlock g v B).1 = none) ∧
      (∀ (bp : List String) (pre post : List Node) (B B' : BlockStatement),
        tpl.program = some (.mk bp (pre ++ .block B :: post)) →
        (Program.mk bp (pre ++ .block B :: post)).ParsedShape = true →
        ((tpl.setProgram (some (.mk bp (pre ++ .block B' :: post)))).Validate parser g V).1 =
          (tpl.Validate parser g V).1) ∧
      (∀ prog : Program, tpl.program = some prog → prog.ParsedShape = true →
        prog.topLevelFieldReferences tpl.helpers g = [] →
        (tpl.Validate parser g V).1 = .returned none) := by
  refine ⟨fun v B => validateVisitor.VisitBlock_noError g v B, ?_, ?_⟩
  · intro bp pre post B B' hp hs
    have hs' : (Program.mk bp (pre ++ .block B' :: post)).ParsedShape = true := by
      simp only [Program.ParsedShape, Program.Body, List.all_append, List.all_cons,
        Bool.and_eq_true, statementShaped] at hs ⊢
      exact ⟨hs.1, trivial, hs.2.2⟩
    have hp' : (tpl.setProgram (some (.mk bp (pre ++ .block B' :: post)))).program =
        some (.mk bp (pre ++ .block B' :: post)) := by
      cases tpl; rfl
    have hh : (tpl.setProgram (some (.mk bp (pre ++ .block B' :: post)))).helpers =
        tpl.helpers := by
      cases tpl; rfl
    rw [Template.Validate_eq_firstInvalid parser g tpl _ V hp hs,
      Template.Validate_eq_firstInvalid parser g _ _ V hp' hs', hh]
    simp [Program.topLevelFieldReferences, Program.Body, List.flatMap_append,
      statementFieldReferences]
  · intro prog hp hs hrefs
    rw [Template.Validate_eq_firstInvalid parser g tpl prog V hp hs, hrefs]
    rfl

theorem Template.Validate_ignores_blocks_witness :
    (validateVisitor.VisitBlock [] (newValidateVisitor blockOnlyTemplate []) eachBlock).1 =
        none ∧
      ((reportTemplate.setProgram (some (.mk [] ([] ++ .block
          (.mk (.mk (.path ⟨"x", ["x"]⟩) [] none) none none) ::
          reportProgram.Body.tail)))).Validate noParser reportGlobals []).1 =
        (reportTemplate.Validate noParser reportGlobals []).1 ∧
      (blockOnlyTemplate.Validate noParser [] []).1 = .returned none :=
  ⟨(Template.Validate_ignores_blocks noParser [] blockOnlyTemplate []).1 _ _,
    (Template.Validate_ignores_blocks noParser reportGlobals reportTemplate []).2.1
      [] [] reportProgram.Body.tail eachBlock _ rfl (by decide),
    (Template.Validate_ignores_blocks noParser [] blockOnlyTemplate []).2.2
      blockOnlyProgram rfl (by decide) (by decide)⟩

/-- C3: `Validate` fails fast.  When it returns an error on a parsed tree,
the top-level field references in traversal order (statements in body order;
in an expression the parameters left to right, then its own path) split as
`pre ++ p :: post` where every reference of `pre` is known, `p` is not, and
the error is the one for `p`: it carries the raw text `p.Original` and `V`. -/
theorem Template.Validate_error_is_first_invalid (parser : Parser) (g : GoMap Helper)
    (tpl : Template) (prog : Program) (V : List String) (err : Err)
    (hp : tpl.program = some prog) (hs : prog.ParsedShape = true)
    (he : (tpl.Validate parser g V).1 = .returned (some err)) :
    ∃ pre p post, prog.topLevelFieldReferences tpl.helpers g = pre ++ p :: post ∧
      (∀ q ∈ pre, ∀ s ∈ q.Parts.head?, ∃ n ∈ V, s = n ∨ s = "[" ++ n ++ "]") ∧
      ¬ (∀ s ∈ p.Parts.head?, ∃ n ∈ V, s = n ∨ s = "[" ++ n ++ "]") ∧
      err = Err.invalidVariableReference p.Original V := by
  rw [Template.Validate_eq_firstInvalid parser g tpl prog V hp hs] at he
  simp only [Outcome.returned.injEq] at he
  exact (firstInvalid_eq_some_iff V _ err).1 he

theorem Template.Validate_error_is_first_invalid_witness :
    (helloTemplate.Validate noParser [] ["name"]).1 = .returned none ∧
      (helloTemplate.Validate noParser [] ["other"]).1 =
        .returned (some (Err.invalidVariableReference "name" ["other"])) ∧
      ∃ pre p post, helloProgram.topLevelFieldReferences helloTemplate.helpers [] =
          pre ++ p :: post ∧
        (∀ q ∈ pre, ∀ s ∈ q.Parts.head?, ∃ n ∈ ["other"], s = n ∨ s = "[" ++ n ++ "]") ∧
        ¬ (∀ s ∈ p.Parts.head?, ∃ n ∈ ["other"], s = n ∨ s = "[" ++ n ++ "]") ∧
        Err.invalidVariableReference "name" ["other"] =
          Err.invalidVariableReference p.Original ["other"] :=
  ⟨by decide, by decide,
    Template.Validate_error_is_first_invalid noParser [] helloTemplate helloProgram
      ["other"] _ rfl (by decide) (by decide)⟩

/-- C4: a top-level expression whose path is a single-segment name registered
as a helper, on the template or in the global registry, has that path skipped
by the validate pass: visiting the expression does exactly what visiting its
parameters does, and a template whose tree is one mustache with such a path
and no parameters validates against every `V`, the empty one included.  The
name is not the empty text, which `HelperName` returns for "no helper". -/
theorem Template.Validate_skips_helper_path (parser : Parser) (g : GoMap Helper)
    (tpl : Template) (V : List String) (bp : List String) (orig name : String)
    (hash : Option Hash) (hname : name ≠ "")
    (hreg : (tpl.findHelper name).isSome = true ∨ (Raymond.findHelper g name).isSome = true)
    (hp : tpl.program =
      some (.mk bp [.mustache (.mk (.mk (.path ⟨orig, [name]⟩) [] hash))])) :
    (∀ (v : validateVisitor) (params : List Node), v.tpl = tpl →
        validateVisitor.VisitExpression g v (.mk (.path ⟨orig, [name]⟩) params hash) =
          validateVisitor.acceptEach g v params) ∧
      (tpl.Validate parser g V).1 = .returned none := by
  have hskip : ∀ (v : validateVisitor) (params : List Node), v.tpl = tpl →
      validateVisitor.VisitExpression g v (.mk (.path ⟨orig, [name]⟩) params hash) =
        validateVisitor.acceptEach g v params := by
    intro v params hv
    have hinv := validateVisitor.acceptEach_inv g params v
    rw [validateVisitor.VisitExpression]
    split
    · next err w heq => rw [heq]
    · next w heq =>
      rw [heq] at hinv
      have hn : (Expression.mk (.path ⟨orig, [name]⟩) params hash).HelperName = name := rfl
      have hd : (name != "" && (validateVisitor.findHelper g w name).isSome) = true := by
        rw [validateVisitor.findHelper_isSome, hinv.1, hv]
        simpa [hname, Template.findHelper, Raymond.findHelper] using hreg
      rw [heq]
      simp [hn, hd]
  refine ⟨hskip, ?_⟩
  simp only [Template.Validate, Template.parse_of_program hp, hp]
  rw [validateVisitor.VisitProgram, validateVisitor.acceptEach, validateVisitor.Accept,
    validateVisitor.VisitMustache, hskip _ _ rfl]
  rfl

theorem Template.Validate_skips_helper_path_witness :
    (nowTemplate.findHelper "now").isSome = true ∧
      (nowTemplate.Validate noParser [] []).1 = .returned none :=
  ⟨rfl, (Template.Validate_skips_helper_path noParser [] nowTemplate [] [] "now" "now" none
    (by decide) (Or.inl rfl) rfl).2⟩

/-! ## Splitting, joining and replacing -/

theorem splitChars_ne_nil (sep : Char) (s : List Char) : splitChars sep s ≠ [] := by
  cases s with
  | nil => simp [splitChars]
  | cons c cs =>
    rw [splitChars]
    split
    · simp
    · split <;> simp

theorem splitChars_cons_sep (sep : Char) (cs : List Char) :
    splitChars sep (sep :: cs) = [] :: splitChars sep cs := by
  simp [splitChars]

theorem splitChars_cons_ne {sep c : Char} (h : c ≠ sep) (cs : List Char) :
    ∃ p ps, splitChars sep cs = p :: ps ∧ splitChars sep (c :: cs) = (c :: p) :: ps := by
  cases hs : splitChars sep cs with
  | nil => exact absurd hs (splitChars_ne_nil sep cs)
  | cons p ps => exact ⟨p, ps, rfl, by simp [splitChars, h, hs]⟩

theorem joinChars_cons_cons (sep : List Char) (c : Char) (p : List Char)
    (ps : List (List Char)) :
    joinChars sep ((c :: p) :: ps) = c :: joinChars sep (p :: ps) := by
  cases ps <;> simp [joinChars]

theorem joinChars_splitChars (sep : Char) (s : List Char) :
    joinChars [sep] (splitChars sep s) = s := by
  induction s with
  | nil => simp [splitChars, joinChars]
  | cons c cs ih =>
    by_cases h : c = sep
    · subst h
      rw [splitChars_cons_sep]
      cases hs : splitChars c cs with
      | nil => exact absurd hs (splitChars_ne_nil c cs)
      | cons p ps => rw [hs] at ih; simp [joinChars, ih]
    · obtain ⟨p, ps, h1, h2⟩ := splitChars_cons_ne h cs
      rw [h2, joinChars_cons_cons, ← h1, ih]

theorem splitChars_of_not_mem {sep : Char} {p : List Char} (h : sep ∉ p) :
    splitChars sep p = [p] := by
  induction p with
  | nil => simp [splitChars]
  | cons c cs ih =>
    have hc : c ≠ sep := fun e => h (by simp [e])
    have hcs : sep ∉ cs := fun e => h (List.mem_cons_of_mem _ e)
    simp [splitChars, hc, ih hcs]

theorem splitChars_append_sep {sep : Char} {p : List Char} (h : sep ∉ p)
    (rest : List Char) : splitChars sep (p ++ sep :: rest) = p :: splitChars sep rest := by
  induction p with
  | nil => simp [splitChars]
  | cons c cs ih =>
    have hc : c ≠ sep := fun e => h (by simp [e])
    have hcs : sep ∉ cs := fun e => h (List.mem_cons_of_mem _ e)
    simp [splitChars, hc, ih hcs]

theorem not_mem_of_mem_splitChars (sep : Char) (s : List Char) :
    ∀ p ∈ splitChars sep s, sep ∉ p := by
  induction s with
  | nil => simp [splitChars]
  | cons c cs ih =>
    by_cases h : c = sep
    · subst h
      rw [splitChars_cons_sep]
      intro p hp
      rcases List.mem_cons.1 hp with rfl | hp
      · simp
      · exact ih p hp
    · obtain ⟨q, qs, h1, h2⟩ := splitChars_cons_ne h cs
      rw [h2]
      rw [h1] at ih
      intro p hp
      rcases List.mem_cons.1 hp with rfl | hp
      · intro hm
        rcases List.mem_cons.1 hm with e | hm
        · exact h e.symm
        · exact ih q (by simp) hm
      · exact ih p (List.mem_cons_of_mem _ hp)

theorem splitChars_joinChars (sep : Char) (ps : List (List Char)) (hne : ps ≠ [])
    (h : ∀ p ∈ ps, sep ∉ p) : splitChars sep (joinChars [sep] ps) = ps := by
  induction ps with
  | nil => exact absurd rfl hne
  | cons p qs ih =>
    cases qs with
    | nil => simpa [joinChars] using splitChars_of_not_mem (h p (by simp))
    | cons q qs =>
      have hq := ih (by simp) (fun r hr => h r (List.mem_cons_of_mem _ hr))
      simp only [joinChars, List.append_assoc, List.singleton_append]
      rw [splitChars_append_sep (h p (by simp)), hq]

theorem splitChars_of_mem {sep : Char} {s : List Char} (h : sep ∈ s) :
    ∃ p q rest, splitChars sep s = p :: q :: rest := by
  induction s with
  | nil => simp at h
  | cons c cs ih =>
    by_cases hc : c = sep
    · subst hc
      rw [splitChars_cons_sep]
      cases hs : splitChars c cs with
      | nil => exact absurd hs (splitChars_ne_nil c cs)
      | cons q rest => exact ⟨[], q, rest, rfl⟩
    · have hcs : sep ∈ cs := by
        rcases List.mem_cons.1 h with e | e
        · exact absurd e.symm hc
        · exact e
      obtain ⟨p, q, rest, hs⟩ := ih hcs
      obtain ⟨p', ps', h1, h2⟩ := splitChars_cons_ne hc cs
      rw [hs] at h1
      obtain ⟨rfl, rfl⟩ := List.cons.inj h1
      exact ⟨c :: p, q, rest, h2⟩

theorem containsChars_singleton (c : Char) (s : List Char) :
    containsChars [c] s = true ↔ c ∈ s := by
  induction s with
  | nil => simp [containsChars]
  | cons d ds ih =>
    simp only [containsChars, Bool.or_eq_true, ih, List.mem_cons]
    have : [c].isPrefixOf (d :: ds) = true ↔ c = d := by
      simp [List.isPrefixOf]
    rw [this]

theorem isPrefixOf_append (old rest : List Char) : old.isPrefixOf (old ++ rest) = true := by
  rw [List.isPrefixOf_iff_prefix]
  exact List.prefix_append old rest

theorem replaceFirstChars_append (old new rest : List Char) :
    replaceFirstChars old new (old ++ rest) = new ++ rest := by
  cases h : old ++ rest with
  | nil =>
    have : old = [] ∧ rest = [] := by simpa using h
    simp [replaceFirstChars, this.1, this.2]
  | cons c cs =>
    have hp : old.isPrefixOf (c :: cs) = true := by rw [← h]; exact isPrefixOf_append old rest
    rw [replaceFirstChars, if_pos hp, ← h]
    simp

theorem mem_of_mem_splitChars (sep : Char) (s : List Char) :
    ∀ p ∈ splitChars sep s, ∀ c ∈ p, c ∈ s := by
  induction s with
  | nil => simp [splitChars]
  | cons d ds ih =>
    by_cases h : d = sep
    · subst h
      rw [splitChars_cons_sep]
      intro p hp c hc
      rcases List.mem_cons.1 hp with rfl | hp
      · simp at hc
      · exact List.mem_cons_of_mem _ (ih p hp c hc)
    · obtain ⟨q, qs, h1, h2⟩ := splitChars_cons_ne h ds
      rw [h2]
      rw [h1] at ih
      intro p hp c hc
      rcases List.mem_cons.1 hp with rfl | hp
      · rcases List.mem_cons.1 hc with rfl | hc
        · simp
        · exact List.mem_cons_of_mem _ (ih q (by simp) c hc)
      · exact List.mem_cons_of_mem _ (ih p (List.mem_cons_of_mem _ hp) c hc)

/-! ## `escapeString` -/

theorem bracketChars_eq (part : List Char) :
    bracketChars part =
      if ' ' ∈ part ∧ part.head? ≠ some '[' then '[' :: part ++ [']'] else part := by
  have h1 : (['['].isPrefixOf part = true) ↔ part.head? = some '[' := by
    cases part with
    | nil => simp [List.isPrefixOf]
    | cons c cs =>
      simp only [List.isPrefixOf, List.head?_cons, Option.some.injEq, Bool.and_true,
        beq_iff_eq]
      exact eq_comm
  unfold bracketChars
  by_cases hs : ' ' ∈ part <;> by_cases hb : part.head? = some '[' <;>
    simp [containsChars_singleton, hs, hb, h1]

theorem bracketChars_of_no_space {part : List Char} (h : ' ' ∉ part) :
    bracketChars part = part := by
  simp [bracketChars_eq, h]

theorem not_mem_bracketChars {part : List Char} (h : '.' ∉ part) :
    '.' ∉ bracketChars part := by
  rw [bracketChars_eq]
  split
  · simp [h]
  · exact h

theorem escapeString_data (s : String) :
    (escapeString s).data = joinChars ['.'] ((splitChars '.' s.data).map bracketChars) := by
  simp only [escapeString, strings.Join, strings.Split, List.map_map]
  congr 1
  apply List.map_congr_left
  intro p _
  simp only [Function.comp_apply, strings.Contains, strings.HasPrefix, bracketChars]
  split <;> rfl

theorem escapeString_split (s : String) :
    splitChars '.' (escapeString s).data = (splitChars '.' s.data).map bracketChars := by
  rw [escapeString_data]
  apply splitChars_joinChars
  · simpa using splitChars_ne_nil '.' s.data
  · intro p hp
    obtain ⟨q, hq, rfl⟩ := List.mem_map.1 hp
    exact not_mem_bracketChars (not_mem_of_mem_splitChars '.' s.data q hq)

theorem escapeString_of_no_space (s : String) (h : ' ' ∉ s.data) : escapeString s = s := by
  apply String.ext
  rw [escapeString_data]
  have : (splitChars '.' s.data).map bracketChars = splitChars '.' s.data := by
    conv_rhs => rw [← List.map_id (splitChars '.' s.data)]
    apply List.map_congr_left
    intro p hp
    exact bracketChars_of_no_space (fun hc => h (mem_of_mem_splitChars '.' s.data p hp _ hc))
  rw [this, joinChars_splitChars]

theorem escapeString_of_no_dot (s : String) (h : '.' ∉ s.data) :
    (escapeString s).data = bracketChars s.data := by
  rw [escapeString_data, splitChars_of_not_mem h]
  rfl

/-- C6, as the code has it: the dot-split of `escapeString s` is the
dot-split of `s` with every segment that contains a space character and does
not start with `"["` rewritten as `"[segment]"` and every other segment
unchanged, and `escapeString s` is these segments joined with `"."`; so
`escapeString "user.first name" = "user.[first name]"`, and in the output
every segment that contains a space starts with `"["`. -/
theorem escapeString_segments (s : String) :
    strings.Split (escapeString s) '.' =
        (strings.Split s '.').map (fun seg =>
          if ' ' ∈ seg.data ∧ seg.data.head? ≠ some '[' then "[" ++ seg ++ "]" else seg) ∧
      escapeString s =
        strings.Join ((strings.Split s '.').map (fun seg =>
          if ' ' ∈ seg.data ∧ seg.data.head? ≠ some '[' then "[" ++ seg ++ "]" else seg)) "." ∧
      escapeString "user.first name" = "user.[first name]" ∧
      ∀ seg ∈ strings.Split (escapeString s) '.', ' ' ∈ seg.data →
        seg.data.head? = some '[' := by
  have hmap : ∀ l : List (List Char),
      (l.map bracketChars).map String.mk =
        (l.map String.mk).map (fun seg =>
          if ' ' ∈ seg.data ∧ seg.data.head? ≠ some '[' then "[" ++ seg ++ "]" else seg) := by
    intro l
    simp only [List.map_map]
    apply List.map_congr_left
    intro p _
    simp only [Function.comp_apply, bracketChars_eq]
    split <;> rfl
  have hsplit : strings.Split (escapeString s) '.' =
      (strings.Split s '.').map (fun seg =>
        if ' ' ∈ seg.data ∧ seg.data.head? ≠ some '[' then "[" ++ seg ++ "]" else seg) := by
    simp only [strings.Split]
    rw [escapeString_split, hmap]
  refine ⟨hsplit, ?_, by decide, ?_⟩
  · apply String.ext
    rw [escapeString_data]
    simp only [strings.Join, strings.Split, ← hmap, List.map_map]
    congr 1
  · intro seg hseg hsp
    rw [hsplit] at hseg
    obtain ⟨q, _, rfl⟩ := List.mem_map.1 hseg
    by_cases hq : ' ' ∈ q.data ∧ q.data.head? ≠ some '['
    · simp [hq]
    · simp only [hq, if_false] at hsp ⊢
      by_contra hc
      exact hq ⟨hsp, hc⟩

/-- C6 as stated fails at `"[a b"`: the segment contains a space and is not
of the form `"[...]"`, so the specification's escaping yields `"[[a b]"`, but
`escapeString` leaves it as it is because it starts with `"["`; the output
then has a segment with whitespace that is not bracket-wrapped. -/
theorem escapeString_spec_counterexample :
    escapeString "[a b" = "[a b" ∧ escapeStringSpec "[a b" = "[[a b]" ∧
      escapeString "[a b" ≠ escapeStringSpec "[a b" ∧
      ∃ seg ∈ strings.Split (escapeString "[a b") '.',
        seg.data.any Char.isWhitespace = true ∧ isBracketWrapped seg = false := by
  refine ⟨by decide, by decide, by decide, "[a b", by decide, by decide, by decide⟩

/-- C5 as stated fails on its own scenario: the escaping of
`"user.first name"` is `"user.[first name]"`, whose dot-split is `"user"`,
`"[first name]"`, and `Validate` against the known name `"user.first name"`
rejects the reference with that raw text and those segments, because only the
first segment `"user"` is compared with the whole name. -/
theorem Template.Validate_dotted_name_counterexample :
    escapeString "user.first name" = "user.[first name]" ∧
      strings.Split "user.[first name]" '.' = ["user", "[first name]"] ∧
      ((referenceTemplate ⟨"user.[first name]", ["user", "[first name]"]⟩).Validate
          noParser [] ["user.first name"]).1 =
        .returned (some (Err.invalidVariableReference "user.[first name]"
          ["user.first name"])) := by
  refine ⟨by decide, by decide, by decide⟩

/-- C5, as the code has it: for a known name `n`, `Validate` with `V = {n}`
accepts the top-level field reference whose raw text is `escapeString n` and
whose segments are the dot-split of that text if and only if `n` contains no
`"."`; so a name with spaces and without dots matches its bracket-quoted
spelling, and a dotted name never does. -/
theorem Template.Validate_escaped_name_iff (parser : Parser) (g : GoMap Helper)
    (tpl : Template) (bp : List String) (hash : Option Hash) (n : String)
    (hp : tpl.program = some (.mk bp [.mustache (.mk (.mk
      (.path ⟨escapeString n, strings.Split (escapeString n) '.'⟩) [] hash))])) :
    (tpl.Validate parser g [n]).1 = .returned none ↔ '.' ∉ n.data := by
  rw [Template.Validate_eq_firstInvalid parser g tpl _ [n] hp (by rfl)]
  simp only [Outcome.returned.injEq, firstInvalid_eq_none_iff]
  simp only [Program.topLevelFieldReferences, Program.Body, List.flatMap_cons,
    List.flatMap_nil, List.append_nil, statementFieldReferences, Expression.fieldReferences,
    paramsFieldReferences, List.nil_append]
  have hsplit : strings.Split (escapeString n) '.' =
      ((splitChars '.' n.data).map bracketChars).map String.mk := by
    simp only [strings.Split, escapeString_split]
  constructor
  · intro hall hdot
    obtain ⟨p, q, rest, hpq⟩ := splitChars_of_mem hdot
    have hparts : strings.Split (escapeString n) '.' =
        String.mk (bracketChars p) :: String.mk (bracketChars q) ::
          (rest.map bracketChars).map String.mk := by
      rw [hsplit, hpq]; rfl
    have hnot : Expression.isHelperCall tpl.helpers g (Expression.mk
        (.path ⟨escapeString n, strings.Split (escapeString n) '.'⟩) [] hash) = false := by
      simp [Expression.isHelperCall, Expression.HelperName, Expression.Path, hparts]
    rw [hnot] at hall
    have hk := hall ⟨escapeString n, strings.Split (escapeString n) '.'⟩
      (by simp [Expression.FieldPath, Expression.Path])
    have hpdot : '.' ∉ bracketChars p :=
      not_mem_bracketChars (not_mem_of_mem_splitChars '.' n.data p (by rw [hpq]; simp))
    obtain ⟨m, hm, hs⟩ := hk (String.mk (bracketChars p)) (by rw [hparts]; rfl)
    rw [List.mem_singleton] at hm
    subst hm
    rcases hs with hs | hs
    · exact hpdot (by rw [← hs] at hdot; exact hdot)
    · apply hpdot
      have : (String.mk (bracketChars p)).data = ("[" ++ m ++ "]").data := by rw [hs]
      simp only [String.data_append] at this
      rw [this]
      simp [hdot]
  · intro hdot p hpmem s hs
    have hp' : p = ⟨escapeString n, strings.Split (escapeString n) '.'⟩ := by
      split at hpmem
      · simp at hpmem
      · simpa [Expression.FieldPath, Expression.Path] using hpmem
    subst hp'
    have hd := escapeString_of_no_dot n hdot
    have hparts : strings.Split (escapeString n) '.' = [escapeString n] := by
      rw [strings.Split, hd, splitChars_of_not_mem (not_mem_bracketChars hdot), ← hd]
      rfl
    rw [hparts] at hs
    simp only [List.head?_cons, Option.mem_def, Option.some.injEq] at hs
    subst hs
    refine ⟨n, by simp, ?_⟩
    rw [bracketChars_eq] at hd
    split at hd
    · right
      apply String.ext
      rw [hd]
      simp [String.data_append]
    · left
      exact String.ext hd

theorem Template.Validate_escaped_name_iff_witness :
    escapeString "first name" = "[first name]" ∧
      strings.Split (escapeString "first name") '.' = ["[first name]"] ∧
      ((referenceTemplate ⟨escapeString "first name",
          strings.Split (escapeString "first name") '.'⟩).Validate
        noParser [] ["first name"]).1 = .returned none :=
  ⟨by decide, by decide,
    (Template.Validate_escaped_name_iff noParser []
      (referenceTemplate ⟨escapeString "first name",
        strings.Split (escapeString "first name") '.'⟩) [] none "first name" rfl).2
      (by decide)⟩

/-! ## The rename visitor: no error, and no change under the empty mapping -/

theorem renameVisitor.Inv.of_setCurNode {α : Type} {v : renameVisitor} {n : Node} {node : α}
    {r : Option Err × renameVisitor × α} (h : (v.at_ n).Inv node r) : v.Inv node r := by
  simpa [renameVisitor.Inv, renameVisitor.at_] using h

theorem renameVisitor.Inv.at_same {α : Type} (v : renameVisitor) (n : Node) (node : α) :
    v.Inv node (none, v.at_ n, node) := by
  simp [renameVisitor.Inv, renameVisitor.at_]

theorem renameVisitor.Inv.same {α : Type} (v : renameVisitor) (node : α) :
    v.Inv node (none, v, node) := by
  simp [renameVisitor.Inv]

theorem renameVisitor.Inv.map {α β : Type} {v : renameVisitor} {node : α}
    {r : Option Err × renameVisitor × α} (h : v.Inv node r) (f : α → β) :
    v.Inv (f node) (r.1, r.2.1, f r.2.2) := by
  obtain ⟨h1, h2, h3, h4⟩ := h
  exact ⟨h1, h2, h3, fun hv => by rw [h4 hv]⟩

theorem renameVisitor.VisitPath_keeps (v : renameVisitor) (node : PathExpression) :
    (v.VisitPath node).1 = none ∧ (v.variables_ = [] → (v.VisitPath node).2 = node) := by
  unfold renameVisitor.VisitPath
  split
  · exact ⟨rfl, fun _ => rfl⟩
  · exact ⟨rfl, fun hv => by rw [hv]; rfl⟩

mutual
theorem renameVisitor.Accept_keeps (g : GoMap Helper) : ∀ (n : Node) (v : renameVisitor),
    v.Inv n (renameVisitor.Accept g v n)
  | .program n, v => by
    rw [renameVisitor.Accept]
    exact (renameVisitor.VisitProgram_keeps g n v).map Node.program
  | .mustache n, v => by
    rw [renameVisitor.Accept]
    exact (renameVisitor.VisitMustache_keeps g n v).map Node.mustache
  | .block n, v => by
    rw [renameVisitor.Accept]
    exact (renameVisitor.VisitBlock_keeps g n v).map Node.block
  | .partialStatement n, v => by
    rw [renameVisitor.Accept]; exact renameVisitor.Inv.at_same _ _ _
  | .content n, v => by
    rw [renameVisitor.Accept]; exact renameVisitor.Inv.at_same _ _ _
  | .comment n, v => by
    rw [renameVisitor.Accept]; exact renameVisitor.Inv.at_same _ _ _
  | .expression n, v => by
    rw [renameVisitor.Accept]
    exact (renameVisitor.VisitExpression_keeps g n v).map Node.expression
  | .subExpression n, v => by
    rw [renameVisitor.Accept]
    exact (renameVisitor.VisitSubExpression_keeps g n v).map Node.subExpression
  | .path n, v => by
    rw [renameVisitor.Accept]
    have h := renameVisitor.VisitPath_keeps v n
    exact ⟨h.1, rfl, rfl, fun hv => by simp [h.2 hv]⟩
  | .string n, v => by
    rw [renameVisitor.Accept]; exact renameVisitor.Inv.at_same _ _ _
  | .boolean n, v => by
    rw [renameVisitor.Accept]; exact renameVisitor.Inv.at_same _ _ _
  | .number n, v => by
    rw [renameVisitor.Accept]; exact renameVisitor.Inv.at_same _ _ _
  | .hash n, v => by
    rw [renameVisitor.Accept]
    exact (renameVisitor.VisitHash_keeps g n v).map Node.hash
  | .hashPair n, v => by
    rw [renameVisitor.Accept]
    exact (renameVisitor.VisitHashPair_keeps g n v).map Node.hashPair
theorem renameVisitor.acceptEach_keeps (g : GoMap Helper) :
    ∀ (ns : List Node) (v : renameVisitor), v.Inv ns (renameVisitor.acceptEach g v ns)
  | [], v => by rw [renameVisitor.acceptEach]; exact renameVisitor.Inv.same v _
  | n :: ns, v => by
    rw [renameVisitor.acceptEach]
    have h1 := renameVisitor.Accept_keeps g n v
    split
    · next err w n' heq =>
      rw [heq] at h1
      exact absurd h1.1 (by simp)
    · next w n' heq =>
      rw [heq] at h1
      obtain ⟨-, a2, a3, a4⟩ := h1
      obtain ⟨b1, b2, b3, b4⟩ := renameVisitor.acceptEach_keeps g ns w
      simp only at a2 a3 a4
      refine ⟨b1, b2.trans a2, b3.trans a3, fun hv => ?_⟩
      show n' :: _ = n :: ns
      rw [a4 hv, b4 (a3.trans hv)]
theorem renameVisitor.VisitProgram_keeps (g : GoMap Helper) :
    ∀ (n : Program) (v : renameVisitor), v.Inv n (renameVisitor.VisitProgram g v n)
  | .mk bp body, v => by
    rw [renameVisitor.VisitProgram]
    exact ((renameVisitor.acceptEach_keeps g body _).map (Program.mk bp)).of_setCurNode
theorem renameVisitor.VisitMustache_keeps (g : GoMap Helper) :
    ∀ (n : MustacheStatement) (v : renameVisitor),
      v.Inv n (renameVisitor.VisitMustache g v n)
  | .mk e, v => by
    rw [renameVisitor.VisitMustache]
    exact ((renameVisitor.VisitExpression_keeps g e _).map MustacheStatement.mk).of_setCurNode
theorem renameVisitor.VisitBlock_keeps (g : GoMap Helper) :
    ∀ (n : BlockStatement) (v : renameVisitor), v.Inv n (renameVisitor.VisitBlock g v n)
  | .mk e p i, v => by
    rw [renameVisitor.VisitBlock]
    refine renameVisitor.Inv.of_setCurNode (n := .block (.mk e p i)) ?_
    generalize v.at_ (.block (.mk e p i)) = u
    have h1 := renameVisitor.VisitExpression_keeps g e
      { u with blockStack := u.blockStack ++ [BlockStatement.mk e p i] }
    split
    · next err w e' heq =>
      rw [heq] at h1
      exact absurd h1.1 (by simp)
    · next w1 e' heq1 =>
      rw [heq1] at h1
      obtain ⟨-, a2, a3, a4⟩ := h1
      simp only at a2 a3 a4
      have h2 := renameVisitor.acceptIfPresent_keeps g p w1
      split
      · next err w p' heq =>
        rw [heq] at h2
        exact absurd h2.1 (by simp)
      · next w2 p' heq2 =>
        rw [heq2] at h2
        obtain ⟨-, b2, b3, b4⟩ := h2
        simp only at b2 b3 b4
        have h3 := renameVisitor.acceptIfPresent_keeps g i w2
        split
        · next err w i' heq =>
          rw [heq] at h3
          exact absurd h3.1 (by simp)
        · next w3 i' heq3 =>
          rw [heq3] at h3
          obtain ⟨-, c2, c3, c4⟩ := h3
          simp only at c2 c3 c4
          refine ⟨rfl, (c2.trans b2).trans a2, (c3.trans b3).trans a3, fun hv => ?_⟩
          show BlockStatement.mk e' p' i' = BlockStatement.mk e p i
          rw [a4 hv, b4 (a3.trans hv), c4 (b3.trans (a3.trans hv))]
theorem renameVisitor.acceptIfPresent_keeps (g : GoMap Helper) :
    ∀ (n : Option Program) (v : renameVisitor),
      v.Inv n (renameVisitor.acceptIfPresent g v n)
  | some p, v => by
    rw [renameVisitor.acceptIfPresent]
    exact (renameVisitor.VisitProgram_keeps g p v).map some
  | none, v => by
    rw [renameVisitor.acceptIfPresent]; exact renameVisitor.Inv.same v _
theorem renameVisitor.VisitExpression_keeps (g : GoMap Helper) :
    ∀ (n : Expression) (v : renameVisitor), v.Inv n (renameVisitor.VisitExpression g v n)
  | .mk path ps h, v => by
    rw [renameVisitor.VisitExpression]
    have h1 := renameVisitor.acceptEach_keeps g ps v
    split
    · next err w ps' heq =>
      rw [heq] at h1
      exact absurd h1.1 (by simp)
    · next w ps' heq =>
      rw [heq] at h1
      obtain ⟨-, a2, a3, a4⟩ := h1
      simp only at a2 a3 a4
      have hsame : v.Inv (Expression.mk path ps h) (none, w, Expression.mk path ps' h) :=
        ⟨rfl, a2, a3, fun hv => by rw [a4 hv]⟩
      dsimp only
      split
      · exact hsame
      · split
        · split
          · next q hq =>
            have hpath : path = .path q := by
              cases path <;> simp_all [Expression.FieldPath, Expression.Path]
            have hq' := renameVisitor.VisitPath_keeps w q
            split
            · next err q' heq' =>
              rw [heq'] at hq'
              exact absurd hq'.1 (by simp)
            · next q' heq' =>
              rw [heq'] at hq'
              refine ⟨rfl, a2, a3, fun hv => ?_⟩
              show Expression.mk (.path q') ps' h = Expression.mk path ps h
              rw [a4 hv, hpath, ← hq'.2 (a3.trans hv)]
          · exact hsame
        · exact hsame
theorem renameVisitor.VisitSubExpression_keeps (g : GoMap Helper) :
    ∀ (n : SubExpression) (v : renameVisitor),
      v.Inv n (renameVisitor.VisitSubExpression g v n)
  | .mk e, v => by
    rw [renameVisitor.VisitSubExpression]
    exact ((renameVisitor.VisitExpression_keeps g e _).map SubExpression.mk).of_setCurNode
theorem renameVisitor.VisitHash_keeps (g : GoMap Helper) :
    ∀ (n : Hash) (v : renameVisitor), v.Inv n (renameVisitor.VisitHash g v n)
  | .mk ps, v => by
    rw [renameVisitor.VisitHash]
    exact ((renameVisitor.acceptPairs_keeps g ps _).map Hash.mk).of_setCurNode
theorem renameVisitor.acceptPairs_keeps (g : GoMap Helper) :
    ∀ (ns : List HashPair) (v : renameVisitor), v.Inv ns (renameVisitor.acceptPairs g v ns)
  | [], v => by rw [renameVisitor.acceptPairs]; exact renameVisitor.Inv.same v _
  | n :: ns, v => by
    rw [renameVisitor.acceptPairs]
    have h1 := renameVisitor.VisitHashPair_keeps g n v
    split
    · next err w n' heq =>
      rw [heq] at h1
      exact absurd h1.1 (by simp)
    · next w n' heq =>
      rw [heq] at h1
      obtain ⟨-, a2, a3, a4⟩ := h1
      obtain ⟨b1, b2, b3, b4⟩ := renameVisitor.acceptPairs_keeps g ns w
      simp only at a2 a3 a4
      refine ⟨b1, b2.trans a2, b3.trans a3, fun hv => ?_⟩
      show n' :: _ = n :: ns
      rw [a4 hv, b4 (a3.trans hv)]
theorem renameVisitor.VisitHashPair_keeps (g : GoMap Helper) :
    ∀ (n : HashPair) (v : renameVisitor), v.Inv n (renameVisitor.VisitHashPair g v n)
  | .mk k val, v => by
    rw [renameVisitor.VisitHashPair]
    exact ((renameVisitor.Accept_keeps g val _).map (HashPair.mk k)).of_setCurNode
end

/-! ## Claims on the rename pass -/

theorem strings.HasPrefix_append (old rest : String) :
    strings.HasPrefix (old ++ rest) old = true := by
  simp [strings.HasPrefix, String.data_append, isPrefixOf_append]

theorem strings.Replace1_append (old new rest : String) :
    strings.Replace1 (old ++ rest) old new = new ++ rest := by
  apply String.ext
  simp [strings.Replace1, String.data_append, replaceFirstChars_append]

theorem renamePair_of_literal {node : PathExpression} {key : String}
    (h : strings.HasPrefix node.Original key = true) (newVal : String) :
    renamePair node key newVal =
      { Original := strings.Replace1 node.Original key (escapeString newVal)
        Parts := node.Parts.modifyHead
          (fun part0 => strings.Replace1 part0 key (escapeString newVal)) } := by
  simp [renamePair, h]

theorem renamePair_of_escaped {node : PathExpression} {key : String}
    (h : strings.HasPrefix node.Original key = false)
    (he : strings.HasPrefix node.Original (escapeString key) = true) (newVal : String) :
    renamePair node key newVal =
      { Original := strings.Replace1 node.Original (escapeString key) (escapeString newVal)
        Parts := node.Parts.modifyHead
          (fun part0 => strings.Replace1 part0 (escapeString key) (escapeString newVal)) } := by
  simp [renamePair, h, he]

theorem renamePair_of_no_match {node : PathExpression} {key : String}
    (h : strings.HasPrefix node.Original key = false)
    (he : strings.HasPrefix node.Original (escapeString key) = false) (newVal : String) :
    renamePair node key newVal = node := by
  simp [renamePair, h, he]

theorem renamePairs_of_no_match (pairs : List (String × String)) (node : PathExpression)
    (h : ∀ kv ∈ pairs, strings.HasPrefix node.Original kv.1 = false ∧
      strings.HasPrefix node.Original (escapeString kv.1) = false) :
    pairs.foldl (fun node kv => renamePair node kv.1 kv.2) node = node := by
  induction pairs with
  | nil => rfl
  | cons kv rest ih =>
    rw [List.foldl_cons, renamePair_of_no_match (h kv (by simp)).1 (h kv (by simp)).2]
    exact ih (fun kv' hkv => h kv' (List.mem_cons_of_mem _ hkv))

theorem renameVisitor.VisitPath_of_parts (v : renameVisitor) {node : PathExpression}
    (h : node.Parts ≠ []) :
    v.VisitPath node =
      (none, v.variables_.foldl (fun node kv => renamePair node kv.1 kv.2) node) := by
  unfold renameVisitor.VisitPath
  split
  · next hn => exact absurd hn h
  · rfl

/-- C7 as stated fails when the new name needs escaping: with the mapping
`"user" -> "new user"` the raw text `"user.id"` becomes `"[new user].id"`, not
`"new user" ++ ".id"`, since the new value is escaped before it is put in. -/
theorem Template.Rename_literal_key_counterexample :
    ((referenceTemplate ⟨"user.id", ["user", "id"]⟩).Rename noParser []
        [("user", "new user")]).2.program =
      some (.mk [] [.mustache (.mk (.mk (.path ⟨"[new user].id", ["[new user]", "id"]⟩)
        [] none))]) ∧
      ((newRenameVisitor (referenceTemplate ⟨"user.id", ["user", "id"]⟩)
          [("user", "new user")]).VisitPath ⟨"user.id", ["user", "id"]⟩).2.Original ≠
        "new user" ++ ".id" := by
  refine ⟨rfl, by decide⟩

/-- C7, as the code has it: for a single-pair mapping `old -> new` and a field
reference with at least one segment whose raw text is `old ++ rest`, the raw
text after the visit of the rename pass is `escapeString new ++ rest`: the
leading occurrence of `old`, and only it, is replaced by the escaped new
name, which is `new` itself when `new` contains no space. -/
theorem renameVisitor.VisitPath_literal_key (v : renameVisitor) (node : PathExpression)
    (old new rest : String) (hv : v.variables_ = [(old, new)]) (hparts : node.Parts ≠ [])
    (hraw : node.Original = old ++ rest) :
    (v.VisitPath node).1 = none ∧
      (v.VisitPath node).2.Original = escapeString new ++ rest ∧
      (' ' ∉ new.data → (v.VisitPath node).2.Original = new ++ rest) := by
  have hpre : strings.HasPrefix node.Original old = true := by
    rw [hraw]; exact strings.HasPrefix_append old rest
  have ho : (v.VisitPath node).2.Original = escapeString new ++ rest := by
    rw [renameVisitor.VisitPath_of_parts v hparts, hv]
    simp only [List.foldl_cons, List.foldl_nil]
    rw [renamePair_of_literal hpre, hraw, strings.Replace1_append]
  refine ⟨(renameVisitor.VisitPath_keeps v node).1, ho, fun hsp => ?_⟩
  rw [ho, escapeString_of_no_space new hsp]

theorem renameVisitor.VisitPath_literal_key_witness :
    ((newRenameVisitor helloTemplate [("user", "customer")]).VisitPath
        ⟨"user.id", ["user", "id"]⟩).2.Original = "customer" ++ ".id" ∧
      "customer" ++ ".id" = "customer.id" ∧
      ((referenceTemplate ⟨"user.id", ["user", "id"]⟩).Rename noParser []
          [("user", "customer")]).2.program =
        some (.mk [] [.mustache (.mk (.mk (.path ⟨"customer.id", ["customer", "id"]⟩)
          [] none))]) :=
  ⟨(renameVisitor.VisitPath_literal_key (newRenameVisitor helloTemplate [("user", "customer")])
      ⟨"user.id", ["user", "id"]⟩ "user" "customer" ".id" rfl (by decide)
      (by decide)).2.2 (by decide),
    by decide, rfl⟩

/-- C8: for a single-pair mapping `old -> new` and a field reference with at
least one segment whose raw text does not start with `old` but is
`escapeString old ++ rest`, the raw text after the visit of the rename pass is
`escapeString new ++ rest`. -/
theorem renameVisitor.VisitPath_escaped_key (v : renameVisitor) (node : PathExpression)
    (old new rest : String) (hv : v.variables_ = [(old, new)]) (hparts : node.Parts ≠ [])
    (hnot : strings.HasPrefix node.Original old = false)
    (hraw : node.Original = escapeString old ++ rest) :
    (v.VisitPath node).1 = none ∧
      (v.VisitPath node).2.Original = escapeString new ++ rest := by
  have hpre : strings.HasPrefix node.Original (escapeString old) = true := by
    rw [hraw]; exact strings.HasPrefix_append _ rest
  refine ⟨(renameVisitor.VisitPath_keeps v node).1, ?_⟩
  rw [renameVisitor.VisitPath_of_parts v hparts, hv]
  simp only [List.foldl_cons, List.foldl_nil]
  rw [renamePair_of_escaped hnot hpre, hraw, strings.Replace1_append]

theorem renameVisitor.VisitPath_escaped_key_witness :
    escapeString "user name" ++ ".id" = "[user name].id" ∧
      ((newRenameVisitor helloTemplate [("user name", "client name")]).VisitPath
        ⟨"[user name].id", ["[user name]", "id"]⟩).2.Original =
        escapeString "client name" ++ ".id" ∧
      escapeString "client name" ++ ".id" = "[client name].id" ∧
      ((referenceTemplate ⟨"[user name].id", ["[user name]", "id"]⟩).Rename noParser []
          [("user name", "client name")]).2.program =
        some (.mk [] [.mustache (.mk (.mk
          (.path ⟨"[client name].id", ["[client name]", "id"]⟩) [] none))]) :=
  ⟨by decide,
    (renameVisitor.VisitPath_escaped_key
      (newRenameVisitor helloTemplate [("user name", "client name")])
      ⟨"[user name].id", ["[user name]", "id"]⟩ "user name" "client name" ".id" rfl
      (by decide) (by decide) (by decide)).2,
    by decide, rfl⟩

/-- C9 as stated fails in two ways.  With the pairs `"a" -> "b"`, `"b" -> "c"`
applied in this order the raw text `"a"` becomes `"c"`: the second pair
rewrites what the first one wrote, although the single replacement gives
`"b"`.  With the pair `"user.id" -> "x"` the raw text `"user.id"` becomes
`"x"` while the first segment `"user"`, which does not contain the key, stays:
raw text and first segment are not rewritten alike. -/
theorem renameVisitor.VisitPath_mapping_counterexample :
    ((newRenameVisitor helloTemplate [("a", "b"), ("b", "c")]).VisitPath ⟨"a", ["a"]⟩).2 =
        ⟨"c", ["c"]⟩ ∧
      strings.Replace1 "a" "a" (escapeString "b") = "b" ∧
      ((newRenameVisitor helloTemplate [("user.id", "x")]).VisitPath
          ⟨"user.id", ["user", "id"]⟩).2 = ⟨"x", ["user", "id"]⟩ := by
  refine ⟨by decide, by decide, by decide⟩

/-- C9, as the code has it: let the mapping be iterated as
`pre ++ (k, new) :: post`, let the raw text of a field reference with at least
one segment start with `k`, let no pair of `pre` match the raw text (neither
its key nor its escaped key is a leading part of it) and no pair of `post`
match the rewritten raw text.  Then the raw text `k ++ rest` becomes
`escapeString new ++ rest`, a first segment that starts with `k` too, say
`k ++ rest0`, becomes `escapeString new ++ rest0` with the other segments
unchanged, and nothing else is replaced. -/
theorem renameVisitor.VisitPath_single_match (v : renameVisitor) (node : PathExpression)
    (pre post : List (String × String)) (k new : String)
    (hv : v.variables_ = pre ++ (k, new) :: post) (hparts : node.Parts ≠ [])
    (hk : strings.HasPrefix node.Original k = true)
    (hpre : ∀ kv ∈ pre, strings.HasPrefix node.Original kv.1 = false ∧
      strings.HasPrefix node.Original (escapeString kv.1) = false)
    (hpost : ∀ kv ∈ post,
      strings.HasPrefix (strings.Replace1 node.Original k (escapeString new)) kv.1 = false ∧
      strings.HasPrefix (strings.Replace1 node.Original k (escapeString new))
        (escapeString kv.1) = false) :
    (v.VisitPath node).1 = none ∧
      (∃ rest, node.Original = k ++ rest ∧
        (v.VisitPath node).2.Original = escapeString new ++ rest) ∧
      (∀ rest0 tail, node.Parts = (k ++ rest0) :: tail →
        (v.VisitPath node).2.Parts = (escapeString new ++ rest0) :: tail) := by
  have hres : (v.VisitPath node).2 =
      { Original := strings.Replace1 node.Original k (escapeString new)
        Parts := node.Parts.modifyHead
          (fun part0 => strings.Replace1 part0 k (escapeString new)) } := by
    rw [renameVisitor.VisitPath_of_parts v hparts, hv]
    simp only [List.foldl_append, List.foldl_cons]
    rw [renamePairs_of_no_match pre node hpre, renamePair_of_literal hk]
    exact renamePairs_of_no_match post _ hpost
  obtain ⟨rest, hrest⟩ : ∃ rest : String, node.Original = k ++ rest := by
    have := List.prefix_iff_eq_append.1 (List.isPrefixOf_iff_prefix.1 hk)
    exact ⟨String.mk (node.Original.data.drop k.data.length),
      String.ext (by rw [String.data_append]; exact this.symm)⟩
  refine ⟨(renameVisitor.VisitPath_keeps v node).1, ⟨rest, hrest, ?_⟩, ?_⟩
  · rw [hres]
    show strings.Replace1 node.Original k (escapeString new) = _
    rw [hrest, strings.Replace1_append]
  · intro rest0 tail ht
    rw [hres]
    show node.Parts.modifyHead _ = _
    rw [ht]
    simp [List.modifyHead, strings.Replace1_append]

theorem renameVisitor.VisitPath_single_match_witness :
    ((newRenameVisitor helloTemplate
        [("order", "purchase"), ("user", "customer"), ("item", "product")]).VisitPath
      ⟨"user.id", ["user", "id"]⟩).2.Parts = (escapeString "customer" ++ "") :: ["id"] ∧
    ∃ rest, "user.id" = "user" ++ rest ∧
      ((newRenameVisitor helloTemplate
          [("order", "purchase"), ("user", "customer"), ("item", "product")]).VisitPath
        ⟨"user.id", ["user", "id"]⟩).2.Original = escapeString "customer" ++ rest :=
  have h := renameVisitor.VisitPath_single_match
    (newRenameVisitor helloTemplate
      [("order", "purchase"), ("user", "customer"), ("item", "product")])
    ⟨"user.id", ["user", "id"]⟩ [("order", "purchase")] [("item", "product")]
    "user" "customer" rfl (by decide) (by decide) (by decide) (by decide)
  ⟨h.2.2 "" ["id"] (by decide), h.2.1⟩

/-- C10: on a parsed template `Rename` with the empty mapping returns no error
and leaves the template, with every node of its tree, exactly as it was; so
running it after any other `Rename` changes nothing further. -/
theorem Template.Rename_empty_mapping (parser : Parser) (g : GoMap Helper) (tpl : Template)
    (prog : Program) (hp : tpl.program = some prog) :
    tpl.Rename parser g [] = (.returned none, tpl) ∧
      ∀ M : List (String × String),
        (tpl.Rename parser g M).2.Rename parser g [] =
          (.returned none, (tpl.Rename parser g M).2) := by
  have key : ∀ (t : Template) (q : Program), t.program = some q →
      t.Rename parser g [] = (.returned none, t) := by
    intro t q hq
    obtain ⟨h1, -, -, h4⟩ := renameVisitor.VisitProgram_keeps g q (newRenameVisitor t [])
    simp only [Template.Rename, Template.parse_of_program hq, hq]
    generalize renameVisitor.VisitProgram g (newRenameVisitor t []) q = r at h1 h4
    obtain ⟨e, w, q'⟩ := r
    simp only at h1 h4
    have hq' : q' = q := h4 rfl
    subst h1 hq'
    have : t.setProgram (some q') = t := by
      cases t
      simp only [Template.program] at hq
      simp [Template.setProgram, hq]
    simp [errRecover, this]
  refine ⟨key tpl prog hp, fun M => ?_⟩
  have hM : ∃ q, (tpl.Rename parser g M).2.program = some q := by
    simp only [Template.Rename, Template.parse_of_program hp, hp]
    cases tpl
    exact ⟨_, rfl⟩
  obtain ⟨q, hq⟩ := hM
  exact key _ q hq

theorem Template.Rename_empty_mapping_witness :
    reportTemplate.Rename noParser reportGlobals [] = (.returned none, reportTemplate) ∧
      (reportTemplate.Rename noParser reportGlobals [("user", "customer")]).2.Rename
          noParser reportGlobals [] =
        (.returned none,
          (reportTemplate.Rename noParser reportGlobals [("user", "customer")]).2) :=
  ⟨(Template.Rename_empty_mapping noParser reportGlobals reportTemplate reportProgram rfl).1,
    (Template.Rename_empty_mapping noParser reportGlobals reportTemplate reportProgram rfl).2
      [("user", "customer")]⟩

/-! ## The rename visitor computes the rewriting of the tree -/

theorem renameVisitor.VisitPath_eq_renamed (v : renameVisitor) (p : PathExpression) :
    v.VisitPath p = (none, p.renamed v.variables_) := by
  unfold renameVisitor.VisitPath PathExpression.renamed
  split <;> rfl

theorem renameVisitor.findHelper_isSome_eq (g : GoMap Helper) (v : renameVisitor)
    (name : String) :
    (v.findHelper g name).isSome =
      ((v.tpl.helpers.get name).isSome || (g.get name).isSome) := by
  unfold renameVisitor.findHelper Template.findHelper Raymond.findHelper
  cases v.tpl.helpers.get name <;> simp

theorem renameVisitor.Yields.wrap {α β : Type} {f : α → α} {f' : β → β} {v : renameVisitor}
    {node : α} {r : Option Err × renameVisitor × α} (h : renameVisitor.Yields f v node r)
    (c : α → β) (hc : f' (c node) = c (f node)) :
    renameVisitor.Yields f' v (c node) (r.1, r.2.1, c r.2.2) := by
  obtain ⟨h1, h2, h3, h4⟩ := h
  exact ⟨h1, h2, h3, by simp only [h4, hc]⟩

mutual
theorem renameVisitor.Accept_yields (g : GoMap Helper) : ∀ (n : Node) (v : renameVisitor),
    renameVisitor.Yields (Node.renamed v.tpl.helpers g v.variables_) v n
      (renameVisitor.Accept g v n)
  | .program n, v => by
    rw [renameVisitor.Accept]
    exact (renameVisitor.VisitProgram_yields g n v).wrap Node.program
      rfl
  | .mustache n, v => by
    rw [renameVisitor.Accept]
    exact (renameVisitor.VisitMustache_yields g n v).wrap Node.mustache
      rfl
  | .block n, v => by
    rw [renameVisitor.Accept]
    exact (renameVisitor.VisitBlock_yields g n v).wrap Node.block rfl
  | .partialStatement n, v => by
    rw [renameVisitor.Accept]; exact ⟨rfl, rfl, rfl, rfl⟩
  | .content n, v => by
    rw [renameVisitor.Accept]; exact ⟨rfl, rfl, rfl, rfl⟩
  | .comment n, v => by
    rw [renameVisitor.Accept]; exact ⟨rfl, rfl, rfl, rfl⟩
  | .expression n, v => by
    rw [renameVisitor.Accept]
    exact (renameVisitor.VisitExpression_yields g n v).wrap Node.expression
      rfl
  | .subExpression n, v => by
    rw [renameVisitor.Accept]
    exact (renameVisitor.VisitSubExpression_yields g n v).wrap Node.subExpression
      rfl
  | .path n, v => by
    rw [renameVisitor.Accept, renameVisitor.VisitPath_eq_renamed]
    exact ⟨rfl, rfl, rfl, rfl⟩
  | .string n, v => by
    rw [renameVisitor.Accept]; exact ⟨rfl, rfl, rfl, rfl⟩
  | .boolean n, v => by
    rw [renameVisitor.Accept]; exact ⟨rfl, rfl, rfl, rfl⟩
  | .number n, v => by
    rw [renameVisitor.Accept]; exact ⟨rfl, rfl, rfl, rfl⟩
  | .hash n, v => by
    rw [renameVisitor.Accept]
    exact (renameVisitor.VisitHash_yields g n v).wrap Node.hash rfl
  | .hashPair n, v => by
    rw [renameVisitor.Accept]
    exact (renameVisitor.VisitHashPair_yields g n v).wrap Node.hashPair
      rfl
theorem renameVisitor.acceptEach_yields (g : GoMap Helper) :
    ∀ (ns : List Node) (v : renameVisitor),
      renameVisitor.Yields (nodesRenamed v.tpl.helpers g v.variables_) v ns
        (renameVisitor.acceptEach g v ns)
  | [], v => by
    rw [renameVisitor.acceptEach]; exact ⟨rfl, rfl, rfl, rfl⟩
  | n :: ns, v => by
    rw [renameVisitor.acceptEach]
    have h1 := renameVisitor.Accept_yields g n v
    split
    · next err w n' heq =>
      rw [heq] at h1
      exact absurd h1.1 (by simp)
    · next w n' heq =>
      rw [heq] at h1
      obtain ⟨-, a2, a3, a4⟩ := h1
      obtain ⟨b1, b2, b3, b4⟩ := renameVisitor.acceptEach_yields g ns w
      simp only at a2 a3 a4
      rw [a2, a3] at b4
      refine ⟨b1, b2.trans a2, b3.trans a3, ?_⟩
      show n' :: _ = _
      rw [a4, b4]
      rfl
theorem renameVisitor.VisitProgram_yields (g : GoMap Helper) :
    ∀ (n : Program) (v : renameVisitor),
      renameVisitor.Yields (Program.renamed v.tpl.helpers g v.variables_) v n
        (renameVisitor.VisitProgram g v n)
  | .mk bp body, v => by
    rw [renameVisitor.VisitProgram]
    exact (renameVisitor.acceptEach_yields g body
      (v.at_ (.program (.mk bp body)))).wrap (Program.mk bp) rfl
theorem renameVisitor.VisitMustache_yields (g : GoMap Helper) :
    ∀ (n : MustacheStatement) (v : renameVisitor),
      renameVisitor.Yields (MustacheStatement.renamed v.tpl.helpers g v.variables_) v n
        (renameVisitor.VisitMustache g v n)
  | .mk e, v => by
    rw [renameVisitor.VisitMustache]
    exact (renameVisitor.VisitExpression_yields g e
      (v.at_ (.mustache (.mk e)))).wrap MustacheStatement.mk
      rfl
theorem renameVisitor.VisitBlock_yields (g : GoMap Helper) :
    ∀ (n : BlockStatement) (v : renameVisitor),
      renameVisitor.Yields (BlockStatement.renamed v.tpl.helpers g v.variables_) v n
        (renameVisitor.VisitBlock g v n)
  | .mk e p i, v => by
    rw [renameVisitor.VisitBlock]
    have h1 := renameVisitor.VisitExpression_yields g e
      { v.at_ (.block (.mk e p i)) with
        blockStack := (v.at_ (.block (.mk e p i))).blockStack ++ [BlockStatement.mk e p i] }
    split
    · next err w e' heq =>
      rw [heq] at h1
      exact absurd h1.1 (by simp)
    · next w1 e' heq1 =>
      rw [heq1] at h1
      obtain ⟨-, a2, a3, a4⟩ := h1
      simp only at a2 a3 a4
      have h2 := renameVisitor.acceptIfPresent_yields g p w1
      split
      · next err w p' heq =>
        rw [heq] at h2
        exact absurd h2.1 (by simp)
      · next w2 p' heq2 =>
        rw [heq2] at h2
        obtain ⟨-, b2, b3, b4⟩ := h2
        simp only at b2 b3 b4
        have h3 := renameVisitor.acceptIfPresent_yields g i w2
        split
        · next err w i' heq =>
          rw [heq] at h3
          exact absurd h3.1 (by simp)
        · next w3 i' heq3 =>
          rw [heq3] at h3
          obtain ⟨-, c2, c3, c4⟩ := h3
          simp only at c2 c3 c4
          have t1 : w1.tpl = v.tpl := a2
          have t2 : w2.tpl = v.tpl := b2.trans a2
          have m1 : w1.variables_ = v.variables_ := a3
          have m2 : w2.variables_ = v.variables_ := b3.trans a3
          rw [t1, m1] at b4
          rw [t2, m2] at c4
          refine ⟨rfl, (c2.trans b2).trans a2, (c3.trans b3).trans a3, ?_⟩
          show BlockStatement.mk e' p' i' = _
          rw [a4, b4, c4]
          rfl
theorem renameVisitor.acceptIfPresent_yields (g : GoMap Helper) :
    ∀ (n : Option Program) (v : renameVisitor),
      renameVisitor.Yields (programRenamedIfPresent v.tpl.helpers g v.variables_) v n
        (renameVisitor.acceptIfPresent g v n)
  | some p, v => by
    rw [renameVisitor.acceptIfPresent]
    exact (renameVisitor.VisitProgram_yields g p v).wrap some
      rfl
  | none, v => by
    rw [renameVisitor.acceptIfPresent]; exact ⟨rfl, rfl, rfl, rfl⟩
theorem renameVisitor.VisitExpression_yields (g : GoMap Helper) :
    ∀ (n : Expression) (v : renameVisitor),
      renameVisitor.Yields (Expression.renamed v.tpl.helpers g v.variables_) v n
        (renameVisitor.VisitExpression g v n)
  | .mk path ps h, v => by
    rw [renameVisitor.VisitExpression]
    have h1 := renameVisitor.acceptEach_yields g ps v
    split
    · next err w ps' heq =>
      rw [heq] at h1
      exact absurd h1.1 (by simp)
    · next w ps' heq =>
      rw [heq] at h1
      obtain ⟨-, a2, a3, a4⟩ := h1
      simp only at a2 a3 a4
      have hdone : ((Expression.mk path ps h).HelperName != "" &&
          (renameVisitor.findHelper g w (Expression.mk path ps h).HelperName).isSome) =
          (Expression.mk path ps h).isHelperCall v.tpl.helpers g := by
        rw [renameVisitor.findHelper_isSome_eq, a2, Expression.isHelperCall]
      dsimp only
      rw [hdone]
      subst a4
      cases path <;>
        cases hc : Expression.isHelperCall v.tpl.helpers g (Expression.mk _ ps h) <;>
        simp [Expression.LiteralStr, Expression.Path, ast.LiteralStr, Expression.FieldPath,
          renamedFieldPath, renameVisitor.Yields, a2, a3, renameVisitor.VisitPath_eq_renamed,
          Expression.renamed, hc]
theorem renameVisitor.VisitSubExpression_yields (g : GoMap Helper) :
    ∀ (n : SubExpression) (v : renameVisitor),
      renameVisitor.Yields (SubExpression.renamed v.tpl.helpers g v.variables_) v n
        (renameVisitor.VisitSubExpression g v n)
  | .mk e, v => by
    rw [renameVisitor.VisitSubExpression]
    exact (renameVisitor.VisitExpression_yields g e
      (v.at_ (.subExpression (.mk e)))).wrap SubExpression.mk
      rfl
theorem renameVisitor.VisitHash_yields (g : GoMap Helper) :
    ∀ (n : Hash) (v : renameVisitor),
      renameVisitor.Yields (Hash.renamed v.tpl.helpers g v.variables_) v n
        (renameVisitor.VisitHash g v n)
  | .mk ps, v => by
    rw [renameVisitor.VisitHash]
    exact (renameVisitor.acceptPairs_yields g ps
      (v.at_ (.hash (.mk ps)))).wrap Hash.mk rfl
theorem renameVisitor.acceptPairs_yields (g : GoMap Helper) :
    ∀ (ns : List HashPair) (v : renameVisitor),
      renameVisitor.Yields (pairsRenamed v.tpl.helpers g v.variables_) v ns
        (renameVisitor.acceptPairs g v ns)
  | [], v => by
    rw [renameVisitor.acceptPairs]; exact ⟨rfl, rfl, rfl, rfl⟩
  | n :: ns, v => by
    rw [renameVisitor.acceptPairs]
    have h1 := renameVisitor.VisitHashPair_yields g n v
    split
    · next err w n' heq =>
      rw [heq] at h1
      exact absurd h1.1 (by simp)
    · next w n' heq =>
      rw [heq] at h1
      obtain ⟨-, a2, a3, a4⟩ := h1
      obtain ⟨b1, b2, b3, b4⟩ := renameVisitor.acceptPairs_yields g ns w
      simp only at a2 a3 a4
      rw [a2, a3] at b4
      refine ⟨b1, b2.trans a2, b3.trans a3, ?_⟩
      show n' :: _ = _
      rw [a4, b4]
      rfl
theorem renameVisitor.VisitHashPair_yields (g : GoMap Helper) :
    ∀ (n : HashPair) (v : renameVisitor),
      renameVisitor.Yields (HashPair.renamed v.tpl.helpers g v.variables_) v n
        (renameVisitor.VisitHashPair g v n)
  | .mk k val, v => by
    rw [renameVisitor.VisitHashPair]
    exact (renameVisitor.Accept_yields g val
      (v.at_ (.hashPair (.mk k val)))).wrap (HashPair.mk k) rfl
end

theorem Template.setProgram_program (tpl : Template) (p : Option Program) :
    (tpl.setProgram p).program = p := by
  cases tpl; rfl

theorem Template.Rename_eq_renamed (parser : Parser) (g : GoMap Helper) (tpl : Template)
    (M : List (String × String)) (prog : Program) (hp : tpl.program = some prog) :
    tpl.Rename parser g M =
      (.returned none, tpl.setProgram (some (prog.renamed tpl.helpers g M))) := by
  obtain ⟨h1, -, -, h4⟩ := renameVisitor.VisitProgram_yields g prog (newRenameVisitor tpl M)
  simp only [Template.Rename, Template.parse_of_program hp, hp]
  generalize renameVisitor.VisitProgram g (newRenameVisitor tpl M) prog = r at h1 h4
  obtain ⟨e, w, q⟩ := r
  simp only at h1 h4
  subst h1 h4
  rfl

/-- When every range of the mapping takes the pairs in the order of the one
list: whatever the block stack of the visitor, a visit returns no error and
yields the node rewritten by `Node.renamed`, a function of the registries, the
mapping and the node alone; the visit of a block, in any state, yields the
block of its call expression, its primary body and its inverse body as a
fresh top-level visitor rewrites them; and `Rename` on a parsed template
returns no error and leaves the rewritten tree. -/
theorem Template.Rename_uniform (parser : Parser) (g : GoMap Helper) (tpl : Template)
    (M : List (String × String)) :
    (∀ (v : renameVisitor) (n : Node), v.tpl = tpl → v.variables_ = M →
        (renameVisitor.Accept g v n).1 = none ∧
          (renameVisitor.Accept g v n).2.2 = Node.renamed tpl.helpers g M n) ∧
      (∀ (v : renameVisitor) (e : Expression) (p i : Option Program),
        v.tpl = tpl → v.variables_ = M →
        (renameVisitor.VisitBlock g v (.mk e p i)).2.2 =
          BlockStatement.mk
            (renameVisitor.VisitExpression g (newRenameVisitor tpl M) e).2.2
            (p.map (fun q => (renameVisitor.VisitProgram g (newRenameVisitor tpl M) q).2.2))
            (i.map (fun q =>
              (renameVisitor.VisitProgram g (newRenameVisitor tpl M) q).2.2))) ∧
      (∀ prog : Program, tpl.program = some prog →
        tpl.Rename parser g M =
          (.returned none, tpl.setProgram (some (prog.renamed tpl.helpers g M)))) := by
  refine ⟨?_, ?_, fun prog hp => Template.Rename_eq_renamed parser g tpl M prog hp⟩
  · intro v n ht hM
    obtain ⟨h1, -, -, h4⟩ := renameVisitor.Accept_yields g n v
    rw [ht, hM] at h4
    exact ⟨h1, h4⟩
  · intro v e p i ht hM
    have hb := (renameVisitor.VisitBlock_yields g (.mk e p i) v).2.2.2
    have he := (renameVisitor.VisitExpression_yields g e (newRenameVisitor tpl M)).2.2.2
    have hq : ∀ q : Program,
        (renameVisitor.VisitProgram g (newRenameVisitor tpl M) q).2.2 =
          Program.renamed tpl.helpers g M q :=
      fun q => (renameVisitor.VisitProgram_yields g q (newRenameVisitor tpl M)).2.2.2
    rw [hb, he, ht, hM]
    simp only [hq]
    cases p <;> cases i <;> rfl

theorem Template.Rename_uniform_witness :
    (renameVisitor.VisitBlock reportGlobals
        { newRenameVisitor reportTemplate [("items", "products"), ("title", "name")] with
          blockStack := [eachBlock, eachBlock] } eachBlock).2.2 =
      BlockStatement.mk
        (.mk (.path ⟨"each", ["each"]⟩) [.path ⟨"products", ["products"]⟩] none)
        (some (.mk [] [.mustache (.mk (.mk (.path ⟨"name", ["name"]⟩) [] none))]))
        (some (.mk [] [.mustache (.mk (.mk (.path ⟨"missing", ["missing"]⟩) [] none))])) ∧
      (reportTemplate.Rename noParser reportGlobals
          [("items", "products"), ("title", "name")]).1 = .returned none :=
  ⟨((Template.Rename_uniform noParser reportGlobals reportTemplate
      [("items", "products"), ("title", "name")]).2.1 _ _ _ _ rfl rfl).trans rfl,
    congrArg Prod.fst ((Template.Rename_uniform noParser reportGlobals reportTemplate
      [("items", "products"), ("title", "name")]).2.2 reportProgram rfl)⟩

/-- C12: with overlapping keys the result of the rename pass depends on the
iteration order: for the keys `"a"` and `"ab"` against the raw text `"ab"`,
the order `"a"`, `"ab"` leaves `"xb"` and the order `"ab"`, `"a"` leaves
`"y"`. -/
theorem renameVisitor.VisitPath_order_dependent :
    ((newRenameVisitor helloTemplate [("a", "x"), ("ab", "y")]).VisitPath
        ⟨"ab", ["ab"]⟩).2.Original = "xb" ∧
      ((newRenameVisitor helloTemplate [("ab", "y"), ("a", "x")]).VisitPath
        ⟨"ab", ["ab"]⟩).2.Original = "y" ∧
      ∃ (k₁ n₁ k₂ n₂ : String) (node : PathExpression),
        ((newRenameVisitor helloTemplate [(k₁, n₁), (k₂, n₂)]).VisitPath node).2.Original ≠
          ((newRenameVisitor helloTemplate [(k₂, n₂), (k₁, n₁)]).VisitPath node).2.Original := by
  refine ⟨by decide, by decide, "a", "x", "ab", "y", ⟨"ab", ["ab"]⟩, by decide⟩

/-! ## Claims on the registries -/

/-- C13: duplicate registration is fatal and atomic.  When the name is
already in the registry, `RegisterHelper` panics for every helper, the
template's `RegisterPartial` and `RegisterPartialTemplate` panic for every
source and template, and so do the global `RegisterPartial` and
`RegisterPartialTemplate`; in each case the registry that comes back is the
one that went in. -/
theorem duplicate_registration_panics (ensureValidHelper : EnsureValidHelper)
    (tpl : Template) (globals : GoMap Partial) (name : String) :
    ((tpl.helpers.get name).isSome = true → ∀ h : Helper,
        tpl.RegisterHelper ensureValidHelper name h =
          (.panicked (.value ("Helper " ++ name ++ " already registered")), tpl)) ∧
      ((tpl.partials.get name).isSome = true → ∀ (src : String) (t : Option Template),
        tpl.RegisterPartial name src =
            (.panicked (.value ("Partial " ++ name ++ " already registered")), tpl) ∧
          tpl.RegisterPartialTemplate name t =
            (.panicked (.value ("Partial " ++ name ++ " already registered")), tpl)) ∧
      ((globals.get name).isSome = true →
        ∀ (src : String) (unescaped : Bool) (t : Option Template),
        RegisterPartial globals name src unescaped =
            (.panicked (.error (Err.partialAlreadyRegistered name)), globals) ∧
          RegisterPartialTemplate globals name t =
            (.panicked (.error (Err.partialAlreadyRegistered name)), globals)) := by
  refine ⟨fun h _ => ?_, fun h _ _ => ⟨?_, ?_⟩, fun h _ _ _ => ⟨?_, ?_⟩⟩
  · simp [Template.RegisterHelper, h]
  · simp [Template.RegisterPartial, Template.addPartial, h]
  · simp [Template.RegisterPartialTemplate, Template.addPartial, h]
  · simp [RegisterPartial, h]
  · simp [RegisterPartialTemplate, h]

theorem duplicate_registration_panics_witness :
    pageTemplate.RegisterHelper anyHelperValid "now" ⟨8⟩ =
        (.panicked (.value ("Helper " ++ "now" ++ " already registered")), pageTemplate) ∧
      pageTemplate.RegisterPartialTemplate "footer" (some helloTemplate) =
        (.panicked (.value ("Partial " ++ "footer" ++ " already registered")),
          pageTemplate) ∧
      RegisterPartial [("footer", footerPartial)] "footer" "bye" true =
        (.panicked (.error (Err.partialAlreadyRegistered "footer")),
          [("footer", footerPartial)]) :=
  ⟨(duplicate_registration_panics anyHelperValid pageTemplate [] "now").1 rfl ⟨8⟩,
    ((duplicate_registration_panics anyHelperValid pageTemplate [] "footer").2.1 rfl
      "" (some helloTemplate)).2,
    ((duplicate_registration_panics anyHelperValid pageTemplate [("footer", footerPartial)]
      "footer").2.2 rfl "bye" true none).1⟩

theorem Template.RegisterPartial_absent (tpl : Template) (name source : String)
    (h : tpl.partials.get name = none) :
    tpl.RegisterPartial name source =
      (.panicked (.runtimeError "nil pointer dereference"), tpl) := by
  simp [Template.RegisterPartial, Template.addPartial, h, newPartial]

theorem RegisterPartial_global_absent (partials : GoMap Partial) (name source : String)
    (unescaped : Bool) (h : partials.get name = none) :
    RegisterPartial partials name source unescaped =
      (.panicked (.runtimeError "nil pointer dereference"), partials) := by
  simp [RegisterPartial, h, newPartial]

/-- C14, what the code does: registering the partial `footer` with the source
`"bye"` on a template that has no partial, and in the empty global registry,
does not complete: `newPartial` is called with a nil template and reads
`tpl.unescaped`, so the call panics with a runtime fault and `findPartial`
still finds nothing. -/
theorem RegisterPartial_panics_at_nil_template :
    helloTemplate.RegisterPartial "footer" "bye" =
        (.panicked (.runtimeError "nil pointer dereference"), helloTemplate) ∧
      (helloTemplate.RegisterPartial "footer" "bye").2.findPartial "footer" = none ∧
      RegisterPartial [] "footer" "bye" true =
        (.panicked (.runtimeError "nil pointer dereference"), []) ∧
      findPartial (RegisterPartial [] "footer" "bye" true).2 "footer" = none :=
  ⟨Template.RegisterPartial_absent helloTemplate "footer" "bye" rfl, rfl,
    RegisterPartial_global_absent [] "footer" "bye" true rfl, rfl⟩

theorem GoMap.get_of_not_mem {α : Type} (m : GoMap α) (k : String)
    (h : k ∉ m.map Prod.fst) : m.get k = none := by
  induction m with
  | nil => rfl
  | cons a rest ih =>
    obtain ⟨k', v'⟩ := a
    simp only [List.map_cons, List.mem_cons, not_or] at h
    have hne : (k == k') = false := by simpa using h.1
    simp only [GoMap.get, List.lookup, hne]
    exact ih h.2

theorem GoMap.set_of_not_mem {α : Type} (m : GoMap α) (k : String) (v : α)
    (h : k ∉ m.map Prod.fst) : m.set k v = m ++ [(k, v)] := by
  induction m with
  | nil => rfl
  | cons a rest ih =>
    obtain ⟨k', v'⟩ := a
    simp only [List.map_cons, List.mem_cons, not_or] at h
    have hne : (k' == k) = false := by simpa using fun e => h.1 e.symm
    simp only [GoMap.set, hne, ih h.2]
    simp

theorem cloneHelpers_eq (ensureValidHelper : EnsureValidHelper) :
    ∀ (L : GoMap Helper) (r : Template),
      (r.helpers.map Prod.fst ++ L.map Prod.fst).Nodup →
      (∀ nh ∈ L, ensureValidHelper nh.1 nh.2 = none) →
      cloneHelpers ensureValidHelper r L = .returned (r.setHelpers (r.helpers ++ L)) := by
  intro L
  induction L with
  | nil =>
    intro r _ _
    cases r
    simp [cloneHelpers, Template.setHelpers, Template.helpers]
  | cons a rest ih =>
    intro r hnd hvalid
    obtain ⟨name, helper⟩ := a
    have hnot : name ∉ r.helpers.map Prod.fst := by
      intro hm
      exact (List.nodup_append.1 hnd).2.2 hm (by simp)
    have hget : (r.helpers.get name).isSome = false := by
      rw [GoMap.get_of_not_mem _ _ hnot]; rfl
    have hv : ensureValidHelper name helper = none := hvalid (name, helper) (by simp)
    have hstep : r.RegisterHelper ensureValidHelper name helper =
        (.returned (), r.setHelpers (r.helpers ++ [(name, helper)])) := by
      simp [Template.RegisterHelper, hget, hv, GoMap.set_of_not_mem _ _ _ hnot]
    have hh : (r.setHelpers (r.helpers ++ [(name, helper)])).helpers =
        r.helpers ++ [(name, helper)] := by cases r; rfl
    rw [cloneHelpers, hstep]
    simp only
    rw [ih _ (by rw [hh]; simpa [List.append_assoc] using hnd)
      (fun nh hnh => hvalid nh (List.mem_cons_of_mem _ hnh)), hh]
    cases r
    simp [Template.setHelpers]

theorem clonePartials_eq :
    ∀ (L : GoMap Partial) (r : Template),
      (r.partials.map Prod.fst ++ L.map Prod.fst).Nodup →
      (∀ np ∈ L, np.2.tpl.isSome = true) →
      clonePartials r L = .returned (r.setPartials (r.partials ++ L.map clonedPartial)) := by
  intro L
  induction L with
  | nil =>
    intro r _ _
    cases r
    simp [clonePartials, Template.setPartials, Template.partials]
  | cons a rest ih =>
    intro r hnd hown
    obtain ⟨name, part⟩ := a
    have hnot : name ∉ r.partials.map Prod.fst := by
      intro hm
      exact (List.nodup_append.1 hnd).2.2 hm (by simp)
    have hget : (r.partials.get name).isSome = false := by
      rw [GoMap.get_of_not_mem _ _ hnot]; rfl
    obtain ⟨t, ht⟩ := Option.isSome_iff_exists.1 (hown (name, part) (by simp))
    simp only at ht
    have hstep : r.addPartial name part.source part.tpl =
        (.returned (), r.setPartials (r.partials ++ [clonedPartial (name, part)])) := by
      simp [Template.addPartial, hget, ht, newPartial, clonedPartial,
        GoMap.set_of_not_mem _ _ _ hnot]
    have hh : (r.setPartials (r.partials ++ [clonedPartial (name, part)])).partials =
        r.partials ++ [clonedPartial (name, part)] := by cases r; rfl
    rw [clonePartials, hstep]
    simp only
    rw [ih _ (by rw [hh]; simpa [List.append_assoc, clonedPartial] using hnd)
      (fun np hnp => hown np (List.mem_cons_of_mem _ hnp)), hh]
    cases r
    simp [Template.setPartials]

theorem lookup_map_clonedPartial (L : GoMap Partial) (name : String) :
    GoMap.get (L.map clonedPartial) name =
      (GoMap.get L name).map (fun p => (clonedPartial (name, p)).2) := by
  induction L with
  | nil => rfl
  | cons a rest ih =>
    obtain ⟨k, p⟩ := a
    by_cases hk : name = k
    · subst hk
      simp [GoMap.get, List.lookup, clonedPartial]
    · have : (name == k) = false := by simpa using hk
      simp only [GoMap.get, List.map_cons, clonedPartial, List.lookup, this]
      exact ih

/-- With the registries taken by value: for a template with no name twice in
a registry, whose helpers pass `ensureValidHelper` and whose partials all own
a template, `Clone` completes and returns a template with the same source,
flag and tree, the same helper registry, and a partial registry with the same
names, each mapped to a partial of that name with the same source and the
same owned template. -/
theorem Template.Clone_copies (ensureValidHelper : EnsureValidHelper) (tpl : Template)
    (hk : (tpl.helpers.map Prod.fst).Nodup)
    (hv : ∀ nh ∈ tpl.helpers, ensureValidHelper nh.1 nh.2 = none)
    (pk : (tpl.partials.map Prod.fst).Nodup)
    (pt : ∀ np ∈ tpl.partials, np.2.tpl.isSome = true) :
    ∃ c : Template, tpl.Clone ensureValidHelper = .returned c ∧
      c.source = tpl.source ∧ c.unescaped = tpl.unescaped ∧ c.program = tpl.program ∧
      c.helpers = tpl.helpers ∧
      c.partials.map Prod.fst = tpl.partials.map Prod.fst ∧
      ∀ (name : String) (p : Partial), tpl.findPartial name = some p →
        ∃ p', c.findPartial name = some p' ∧ p'.name = name ∧ p'.source = p.source ∧
          p'.tpl = p.tpl := by
  obtain ⟨src, prog, helpers, partials, unesc⟩ := tpl
  simp only [Template.helpers, Template.partials] at hk hv pk pt
  refine ⟨.mk src prog helpers (partials.map clonedPartial) unesc, ?_, rfl, rfl, rfl, rfl,
    ?_, ?_⟩
  · simp only [Template.Clone, newTemplate, Template.setProgram, Template.source,
      Template.unescaped, Template.program, Template.helpers, Template.partials]
    rw [cloneHelpers_eq ensureValidHelper helpers _ (by simpa [Template.helpers] using hk) hv]
    simp only [Template.setHelpers, Template.helpers, List.nil_append]
    rw [clonePartials_eq partials _ (by simpa [Template.partials] using pk) pt]
    simp [Template.setPartials, Template.partials]
  · simp [Template.partials, clonedPartial, List.map_map, Function.comp_def]
  · intro name p hp
    simp only [Template.findPartial, Template.partials] at hp ⊢
    rw [lookup_map_clonedPartial, hp]
    exact ⟨_, rfl, rfl, rfl, rfl⟩

theorem Template.Clone_copies_witness :
    ∃ c : Template, pageTemplate.Clone anyHelperValid = .returned c ∧
      c.source = pageTemplate.source ∧ c.unescaped = pageTemplate.unescaped ∧
      c.program = pageTemplate.program ∧ c.helpers = pageTemplate.helpers ∧
      c.partials.map Prod.fst = pageTemplate.partials.map Prod.fst ∧
      ∀ (name : String) (p : Partial), pageTemplate.findPartial name = some p →
        ∃ p', c.findPartial name = some p' ∧ p'.name = name ∧ p'.source = p.source ∧
          p'.tpl = p.tpl :=
  Template.Clone_copies anyHelperValid pageTemplate (by decide) (fun _ _ => rfl) (by decide)
    (by intro np hnp
        have : np = ("footer", footerPartial) := by simpa [pageTemplate, Template.partials] using hnp
        subst this
        rfl)

/-! ## Claims on the entry points -/

/-- C16: `errRecover` classifies what was raised.  An ordinary error is
captured and becomes the returned error, unchanged; a runtime fault and a
value that is no error are raised again, unchanged, and nothing is returned;
when nothing was raised the returned error is left as it was.  So `ExecWith`
on a parsed template returns the empty text with the error an evaluation
raised, panics with the runtime fault or the other value an evaluation
raised, and returns the text without error when the evaluation returns. -/
theorem errRecover_classifies {Ctx Data : Type} (parser : Parser)
    (eval : Evaluator Ctx Data) (tpl tpl' : Template) (prog : Program) (ctx : Ctx)
    (privData : Option Data) (hp : tpl.program = some prog) :
    (∀ (raised : Err) (err : Option Err),
        errRecover (some (.error raised)) err = .returned (some raised)) ∧
      (∀ (msg : String) (err : Option Err),
        errRecover (some (.runtimeError msg)) err = .panicked (.runtimeError msg)) ∧
      (∀ (msg : String) (err : Option Err),
        errRecover (some (.value msg)) err = .panicked (.value msg)) ∧
      (∀ err : Option Err, errRecover none err = .returned err) ∧
      (∀ raised : Err, eval tpl prog ctx privData = (.panicked (.error raised), tpl') →
        tpl.ExecWith parser eval ctx privData = (.returned ("", some raised), tpl')) ∧
      (∀ msg : String, eval tpl prog ctx privData = (.panicked (.runtimeError msg), tpl') →
        tpl.ExecWith parser eval ctx privData = (.panicked (.runtimeError msg), tpl')) ∧
      (∀ msg : String, eval tpl prog ctx privData = (.panicked (.value msg), tpl') →
        tpl.ExecWith parser eval ctx privData = (.panicked (.value msg), tpl')) ∧
      (∀ text : Option String, eval tpl prog ctx privData = (.returned text, tpl') →
        tpl.ExecWith parser eval ctx privData = (.returned (text.getD "", none), tpl')) := by
  refine ⟨fun _ _ => rfl, fun _ _ => rfl, fun _ _ => rfl, fun _ => rfl, ?_, ?_, ?_, ?_⟩ <;>
    intro x hx <;>
    simp [Template.ExecWith, Template.parse_of_program hp, hp, hx, errRecover]

theorem errRecover_classifies_witness :
    helloTemplate.ExecWith noParser raisingEvaluator () none =
        (.returned ("", some (Err.raised "boom")), helloTemplate) ∧
      helloTemplate.ExecWith noParser faultingEvaluator () none =
        (.panicked (.runtimeError "index out of range"), helloTemplate) ∧
      helloTemplate.ExecWith noParser helloEvaluator () none =
        (.returned ((some "Hello world").getD "", none), helloTemplate) :=
  ⟨(errRecover_classifies noParser raisingEvaluator helloTemplate helloTemplate helloProgram
      () none rfl).2.2.2.2.1 (Err.raised "boom") rfl,
    (errRecover_classifies noParser faultingEvaluator helloTemplate helloTemplate helloProgram
      () none rfl).2.2.2.2.2.1 "index out of range" rfl,
    (errRecover_classifies noParser helloEvaluator helloTemplate helloTemplate helloProgram
      () none rfl).2.2.2.2.2.2.2 (some "Hello world") rfl⟩

/-- C17 as stated fails for `Print`: on the template
`newTemplate("Hello {{name}}", false)`, whose tree has not been produced, and
with a parser that parses this source, `Validate`, `Rename` and `ExecWith`
parse first and leave the parsed template, but `Print` does not produce the
tree: it has no call of `parse`, walks the absent tree and ends in a nil
dereference.  On the parsed template it prints the source text. -/
theorem Template.Print_walks_absent_tree :
    (newTemplate "Hello {{name}}" false).program = none ∧
      (newTemplate "Hello {{name}}" false).Print =
        .panicked (.runtimeError "nil pointer dereference") ∧
      (newTemplate "Hello {{name}}" false).Validate helloParser [] ["name"] =
        (.returned none, helloTemplate) ∧
      (newTemplate "Hello {{name}}" false).Rename helloParser [] [] =
        (.returned none, helloTemplate) ∧
      (newTemplate "Hello {{name}}" false).ExecWith helloParser helloEvaluator () none =
        (.returned ("Hello world", none), helloTemplate) ∧
      helloTemplate.Print = .returned "Hello {{name}}" :=
  ⟨rfl, rfl, rfl, rfl, rfl, by decide⟩

/-! ## The print visitor only appends -/

theorem printOriginalVistor.closeBlock_prefixed (path : Node) (x : String) (d : Int)
    (o i : Bool) (b : String) :
    printOriginalVistor.closeBlock ⟨b ++ x, d, o, i⟩ path =
      ⟨b ++ (printOriginalVistor.closeBlock ⟨x, d, o, i⟩ path).buf,
        (printOriginalVistor.closeBlock ⟨x, d, o, i⟩ path).depth,
        (printOriginalVistor.closeBlock ⟨x, d, o, i⟩ path).original,
        (printOriginalVistor.closeBlock ⟨x, d, o, i⟩ path).inBlock⟩ := by
  cases path <;> simp [printOriginalVistor.closeBlock, printOriginalVistor.str,
    String.append_assoc]

mutual
theorem printOriginalVistor.Accept_prefixed : ∀ (n : Node) (x : String) (d : Int)
    (o i : Bool) (b : String),
    printOriginalVistor.Accept ⟨b ++ x, d, o, i⟩ n =
      ⟨b ++ (printOriginalVistor.Accept ⟨x, d, o, i⟩ n).buf,
        (printOriginalVistor.Accept ⟨x, d, o, i⟩ n).depth,
        (printOriginalVistor.Accept ⟨x, d, o, i⟩ n).original,
        (printOriginalVistor.Accept ⟨x, d, o, i⟩ n).inBlock⟩
  | .program n, x, d, o, i, b => by
    rw [printOriginalVistor.Accept, printOriginalVistor.Accept]
    exact printOriginalVistor.VisitProgram_prefixed n x d o i b
  | .mustache n, x, d, o, i, b => by
    rw [printOriginalVistor.Accept, printOriginalVistor.Accept]
    exact printOriginalVistor.VisitMustache_prefixed n x d o i b
  | .block n, x, d, o, i, b => by
    rw [printOriginalVistor.Accept, printOriginalVistor.Accept]
    exact printOriginalVistor.VisitBlock_prefixed n x d o i b
  | .partialStatement n, x, d, o, i, b => by
    rw [printOriginalVistor.Accept, printOriginalVistor.Accept]
    exact printOriginalVistor.VisitPartial_prefixed n x d o i b
  | .content n, x, d, o, i, b => by
    simp [printOriginalVistor.Accept, printOriginalVistor.str, String.append_assoc]
  | .comment n, x, d, o, i, b => by
    simp [printOriginalVistor.Accept, printOriginalVistor.str, printOriginalVistor.line,
      printOriginalVistor.nl, printOriginalVistor.indent, String.append_assoc]
  | .expression n, x, d, o, i, b => by
    rw [printOriginalVistor.Accept, printOriginalVistor.Accept]
    exact printOriginalVistor.VisitExpression_prefixed n x d o i b
  | .subExpression n, x, d, o, i, b => by
    rw [printOriginalVistor.Accept, printOriginalVistor.Accept]
    exact printOriginalVistor.VisitSubExpression_prefixed n x d o i b
  | .path n, x, d, o, i, b => by
    simp [printOriginalVistor.Accept, printOriginalVistor.str, String.append_assoc]
  | .string n, x, d, o, i, b => by
    simp [printOriginalVistor.Accept, printOriginalVistor.str, String.append_assoc]
  | .boolean n, x, d, o, i, b => by
    simp [printOriginalVistor.Accept, printOriginalVistor.str, String.append_assoc]
  | .number n, x, d, o, i, b => by
    simp [printOriginalVistor.Accept, printOriginalVistor.str, String.append_assoc]
  | .hash n, x, d, o, i, b => by
    rw [printOriginalVistor.Accept, printOriginalVistor.Accept]
    exact printOriginalVistor.VisitHash_prefixed n x d o i b
  | .hashPair n, x, d, o, i, b => by
    rw [printOriginalVistor.Accept, printOriginalVistor.Accept]
    exact printOriginalVistor.VisitHashPair_prefixed n x d o i b
theorem printOriginalVistor.acceptEach_prefixed : ∀ (ns : List Node) (x : String) (d : Int)
    (o i : Bool) (b : String),
    printOriginalVistor.acceptEach ⟨b ++ x, d, o, i⟩ ns =
      ⟨b ++ (printOriginalVistor.acceptEach ⟨x, d, o, i⟩ ns).buf,
        (printOriginalVistor.acceptEach ⟨x, d, o, i⟩ ns).depth,
        (printOriginalVistor.acceptEach ⟨x, d, o, i⟩ ns).original,
        (printOriginalVistor.acceptEach ⟨x, d, o, i⟩ ns).inBlock⟩
  | [], x, d, o, i, b => by
    simp [printOriginalVistor.acceptEach]
  | n :: ns, x, d, o, i, b => by
    rw [printOriginalVistor.acceptEach, printOriginalVistor.acceptEach,
      printOriginalVistor.Accept_prefixed n x d o i b,
      printOriginalVistor.acceptEach_prefixed ns _ _ _ _ b]
theorem printOriginalVistor.VisitProgram_prefixed : ∀ (n : Program) (x : String) (d : Int)
    (o i : Bool) (b : String),
    printOriginalVistor.VisitProgram ⟨b ++ x, d, o, i⟩ n =
      ⟨b ++ (printOriginalVistor.VisitProgram ⟨x, d, o, i⟩ n).buf,
        (printOriginalVistor.VisitProgram ⟨x, d, o, i⟩ n).depth,
        (printOriginalVistor.VisitProgram ⟨x, d, o, i⟩ n).original,
        (printOriginalVistor.VisitProgram ⟨x, d, o, i⟩ n).inBlock⟩
  | .mk bp body, x, d, o, i, b => by
    rw [printOriginalVistor.VisitProgram, printOriginalVistor.VisitProgram]
    by_cases hbp : bp.length > 0
    · simp only [hbp, if_true, printOriginalVistor.line, printOriginalVistor.nl,
        printOriginalVistor.str, printOriginalVistor.indent, String.append_assoc]
      exact printOriginalVistor.acceptEach_prefixed body _ _ _ _ b
    · simp only [hbp, if_false]
      exact printOriginalVistor.acceptEach_prefixed body _ _ _ _ b
theorem printOriginalVistor.VisitMustache_prefixed : ∀ (n : MustacheStatement) (x : String)
    (d : Int) (o i : Bool) (b : String),
    printOriginalVistor.VisitMustache ⟨b ++ x, d, o, i⟩ n =
      ⟨b ++ (printOriginalVistor.VisitMustache ⟨x, d, o, i⟩ n).buf,
        (printOriginalVistor.VisitMustache ⟨x, d, o, i⟩ n).depth,
        (printOriginalVistor.VisitMustache ⟨x, d, o, i⟩ n).original,
        (printOriginalVistor.VisitMustache ⟨x, d, o, i⟩ n).inBlock⟩
  | .mk e, x, d, o, i, b => by
    rw [printOriginalVistor.VisitMustache, printOriginalVistor.VisitMustache]
    simp only [printOriginalVistor.str, String.append_assoc]
    rw [printOriginalVistor.VisitExpression_prefixed e _ _ _ _ b]
    simp only [String.append_assoc]
theorem printOriginalVistor.VisitBlock_prefixed : ∀ (n : BlockStatement) (x : String)
    (d : Int) (o i : Bool) (b : String),
    printOriginalVistor.VisitBlock ⟨b ++ x, d, o, i⟩ n =
      ⟨b ++ (printOriginalVistor.VisitBlock ⟨x, d, o, i⟩ n).buf,
        (printOriginalVistor.VisitBlock ⟨x, d, o, i⟩ n).depth,
        (printOriginalVistor.VisitBlock ⟨x, d, o, i⟩ n).original,
        (printOriginalVistor.VisitBlock ⟨x, d, o, i⟩ n).inBlock⟩
  | .mk e p q, x, d, o, i, b => by
    rw [printOriginalVistor.VisitBlock, printOriginalVistor.VisitBlock]
    simp only [printOriginalVistor.str, String.append_assoc]
    rw [printOriginalVistor.VisitExpression_prefixed e _ _ _ _ b]
    simp only [String.append_assoc]
    rw [printOriginalVistor.acceptProgramIfPresent_prefixed p _ _ _ _ b,
      printOriginalVistor.acceptInverseIfPresent_prefixed q _ _ _ _ b,
      printOriginalVistor.closeBlock_prefixed]
theorem printOriginalVistor.acceptProgramIfPresent_prefixed : ∀ (n : Option Program)
    (x : String) (d : Int) (o i : Bool) (b : String),
    printOriginalVistor.acceptProgramIfPresent ⟨b ++ x, d, o, i⟩ n =
      ⟨b ++ (printOriginalVistor.acceptProgramIfPresent ⟨x, d, o, i⟩ n).buf,
        (printOriginalVistor.acceptProgramIfPresent ⟨x, d, o, i⟩ n).depth,
        (printOriginalVistor.acceptProgramIfPresent ⟨x, d, o, i⟩ n).original,
        (printOriginalVistor.acceptProgramIfPresent ⟨x, d, o, i⟩ n).inBlock⟩
  | some p, x, d, o, i, b => by
    rw [printOriginalVistor.acceptProgramIfPresent, printOriginalVistor.acceptProgramIfPresent]
    simp only
    rw [printOriginalVistor.VisitProgram_prefixed p _ _ _ _ b]
  | none, x, d, o, i, b => by
    simp [printOriginalVistor.acceptProgramIfPresent]
theorem printOriginalVistor.acceptInverseIfPresent_prefixed : ∀ (n : Option Program)
    (x : String) (d : Int) (o i : Bool) (b : String),
    printOriginalVistor.acceptInverseIfPresent ⟨b ++ x, d, o, i⟩ n =
      ⟨b ++ (printOriginalVistor.acceptInverseIfPresent ⟨x, d, o, i⟩ n).buf,
        (printOriginalVistor.acceptInverseIfPresent ⟨x, d, o, i⟩ n).depth,
        (printOriginalVistor.acceptInverseIfPresent ⟨x, d, o, i⟩ n).original,
        (printOriginalVistor.acceptInverseIfPresent ⟨x, d, o, i⟩ n).inBlock⟩
  | some p, x, d, o, i, b => by
    rw [printOriginalVistor.acceptInverseIfPresent, printOriginalVistor.acceptInverseIfPresent]
    simp only [printOriginalVistor.str, String.append_assoc]
    rw [printOriginalVistor.VisitProgram_prefixed p _ _ _ _ b]
  | none, x, d, o, i, b => by
    simp [printOriginalVistor.acceptInverseIfPresent]
theorem printOriginalVistor.VisitPartial_prefixed : ∀ (n : PartialStatement) (x : String)
    (d : Int) (o i : Bool) (b : String),
    printOriginalVistor.VisitPartial ⟨b ++ x, d, o, i⟩ n =
      ⟨b ++ (printOriginalVistor.VisitPartial ⟨x, d, o, i⟩ n).buf,
        (printOriginalVistor.VisitPartial ⟨x, d, o, i⟩ n).depth,
        (printOriginalVistor.VisitPartial ⟨x, d, o, i⟩ n).original,
        (printOriginalVistor.VisitPartial ⟨x, d, o, i⟩ n).inBlock⟩
  | .mk name params hash, x, d, o, i, b => by
    rw [printOriginalVistor.VisitPartial, printOriginalVistor.VisitPartial]
    simp only [printOriginalVistor.str, String.append_assoc]
    rw [printOriginalVistor.Accept_prefixed name _ _ _ _ b]
    simp only
    rw [printOriginalVistor.acceptFirst_prefixed params _ _ _ _ b,
      printOriginalVistor.acceptHashIfPresent_prefixed hash _ _ _ _ b]
    simp only [String.append_assoc]
theorem printOriginalVistor.acceptFirst_prefixed : ∀ (ns : List Node) (x : String) (d : Int)
    (o i : Bool) (b : String),
    printOriginalVistor.acceptFirst ⟨b ++ x, d, o, i⟩ ns =
      ⟨b ++ (printOriginalVistor.acceptFirst ⟨x, d, o, i⟩ ns).buf,
        (printOriginalVistor.acceptFirst ⟨x, d, o, i⟩ ns).depth,
        (printOriginalVistor.acceptFirst ⟨x, d, o, i⟩ ns).original,
        (printOriginalVistor.acceptFirst ⟨x, d, o, i⟩ ns).inBlock⟩
  | n :: _, x, d, o, i, b => by
    rw [printOriginalVistor.acceptFirst, printOriginalVistor.acceptFirst]
    simp only [printOriginalVistor.str, String.append_assoc]
    rw [printOriginalVistor.Accept_prefixed n _ _ _ _ b]
  | [], x, d, o, i, b => by
    simp [printOriginalVistor.acceptFirst]
theorem printOriginalVistor.acceptHashIfPresent_prefixed : ∀ (n : Option Hash) (x : String)
    (d : Int) (o i : Bool) (b : String),
    printOriginalVistor.acceptHashIfPresent ⟨b ++ x, d, o, i⟩ n =
      ⟨b ++ (printOriginalVistor.acceptHashIfPresent ⟨x, d, o, i⟩ n).buf,
        (printOriginalVistor.acceptHashIfPresent ⟨x, d, o, i⟩ n).depth,
        (printOriginalVistor.acceptHashIfPresent ⟨x, d, o, i⟩ n).original,
        (printOriginalVistor.acceptHashIfPresent ⟨x, d, o, i⟩ n).inBlock⟩
  | some h, x, d, o, i, b => by
    rw [printOriginalVistor.acceptHashIfPresent, printOriginalVistor.acceptHashIfPresent]
    simp only [printOriginalVistor.str, String.append_assoc]
    rw [printOriginalVistor.VisitHash_prefixed h _ _ _ _ b]
  | none, x, d, o, i, b => by
    simp [printOriginalVistor.acceptHashIfPresent]
theorem printOriginalVistor.VisitExpression_prefixed : ∀ (n : Expression) (x : String)
    (d : Int) (o i : Bool) (b : String),
    printOriginalVistor.VisitExpression ⟨b ++ x, d, o, i⟩ n =
      ⟨b ++ (printOriginalVistor.VisitExpression ⟨x, d, o, i⟩ n).buf,
        (printOriginalVistor.VisitExpression ⟨x, d, o, i⟩ n).depth,
        (printOriginalVistor.VisitExpression ⟨x, d, o, i⟩ n).original,
        (printOriginalVistor.VisitExpression ⟨x, d, o, i⟩ n).inBlock⟩
  | .mk path params hash, x, d, o, i, b => by
    rw [printOriginalVistor.VisitExpression, printOriginalVistor.VisitExpression]
    rw [printOriginalVistor.Accept_prefixed path _ _ _ _ b,
      printOriginalVistor.acceptParams_prefixed params _ _ _ _ b,
      printOriginalVistor.acceptHashIfPresent_prefixed hash _ _ _ _ b]
theorem printOriginalVistor.acceptParams_prefixed : ∀ (ns : List Node) (x : String) (d : Int)
    (o i : Bool) (b : String),
    printOriginalVistor.acceptParams ⟨b ++ x, d, o, i⟩ ns =
      ⟨b ++ (printOriginalVistor.acceptParams ⟨x, d, o, i⟩ ns).buf,
        (printOriginalVistor.acceptParams ⟨x, d, o, i⟩ ns).depth,
        (printOriginalVistor.acceptParams ⟨x, d, o, i⟩ ns).original,
        (printOriginalVistor.acceptParams ⟨x, d, o, i⟩ ns).inBlock⟩
  | [], x, d, o, i, b => by
    simp [printOriginalVistor.acceptParams]
  | n :: ns, x, d, o, i, b => by
    rw [printOriginalVistor.acceptParams, printOriginalVistor.acceptParams]
    simp only [printOriginalVistor.str, String.append_assoc]
    rw [printOriginalVistor.Accept_prefixed n _ _ _ _ b,
      printOriginalVistor.acceptParams_prefixed ns _ _ _ _ b]
theorem printOriginalVistor.VisitSubExpression_prefixed : ∀ (n : SubExpression) (x : String)
    (d : Int) (o i : Bool) (b : String),
    printOriginalVistor.VisitSubExpression ⟨b ++ x, d, o, i⟩ n =
      ⟨b ++ (printOriginalVistor.VisitSubExpression ⟨x, d, o, i⟩ n).buf,
        (printOriginalVistor.VisitSubExpression ⟨x, d, o, i⟩ n).depth,
        (printOriginalVistor.VisitSubExpression ⟨x, d, o, i⟩ n).original,
        (printOriginalVistor.VisitSubExpression ⟨x, d, o, i⟩ n).inBlock⟩
  | .mk e, x, d, o, i, b => by
    rw [printOriginalVistor.VisitSubExpression, printOriginalVistor.VisitSubExpression]
    exact printOriginalVistor.VisitExpression_prefixed e x d o i b
theorem printOriginalVistor.VisitHash_prefixed : ∀ (n : Hash) (x : String) (d : Int)
    (o i : Bool) (b : String),
    printOriginalVistor.VisitHash ⟨b ++ x, d, o, i⟩ n =
      ⟨b ++ (printOriginalVistor.VisitHash ⟨x, d, o, i⟩ n).buf,
        (printOriginalVistor.VisitHash ⟨x, d, o, i⟩ n).depth,
        (printOriginalVistor.VisitHash ⟨x, d, o, i⟩ n).original,
        (printOriginalVistor.VisitHash ⟨x, d, o, i⟩ n).inBlock⟩
  | .mk pairs, x, d, o, i, b => by
    rw [printOriginalVistor.VisitHash, printOriginalVistor.VisitHash]
    simp only [printOriginalVistor.str, String.append_assoc]
    rw [printOriginalVistor.acceptPairs_prefixed pairs 0 _ _ _ _ b]
    simp only [String.append_assoc]
theorem printOriginalVistor.acceptPairs_prefixed : ∀ (ns : List HashPair) (k : Nat)
    (x : String) (d : Int) (o i : Bool) (b : String),
    printOriginalVistor.acceptPairs ⟨b ++ x, d, o, i⟩ k ns =
      ⟨b ++ (printOriginalVistor.acceptPairs ⟨x, d, o, i⟩ k ns).buf,
        (printOriginalVistor.acceptPairs ⟨x, d, o, i⟩ k ns).depth,
        (printOriginalVistor.acceptPairs ⟨x, d, o, i⟩ k ns).original,
        (printOriginalVistor.acceptPairs ⟨x, d, o, i⟩ k ns).inBlock⟩
  | [], k, x, d, o, i, b => by
    simp [printOriginalVistor.acceptPairs]
  | n :: ns, k, x, d, o, i, b => by
    rw [printOriginalVistor.acceptPairs, printOriginalVistor.acceptPairs]
    by_cases hk : k > 0
    · simp only [hk, if_true, printOriginalVistor.str, String.append_assoc]
      rw [printOriginalVistor.VisitHashPair_prefixed n _ _ _ _ b,
        printOriginalVistor.acceptPairs_prefixed ns _ _ _ _ _ b]
    · simp only [hk, if_false]
      rw [printOriginalVistor.VisitHashPair_prefixed n _ _ _ _ b,
        printOriginalVistor.acceptPairs_prefixed ns _ _ _ _ _ b]
theorem printOriginalVistor.VisitHashPair_prefixed : ∀ (n : HashPair) (x : String) (d : Int)
    (o i : Bool) (b : String),
    printOriginalVistor.VisitHashPair ⟨b ++ x, d, o, i⟩ n =
      ⟨b ++ (printOriginalVistor.VisitHashPair ⟨x, d, o, i⟩ n).buf,
        (printOriginalVistor.VisitHashPair ⟨x, d, o, i⟩ n).depth,
        (printOriginalVistor.VisitHashPair ⟨x, d, o, i⟩ n).original,
        (printOriginalVistor.VisitHashPair ⟨x, d, o, i⟩ n).inBlock⟩
  | .mk key val, x, d, o, i, b => by
    rw [printOriginalVistor.VisitHashPair, printOriginalVistor.VisitHashPair]
    simp only [printOriginalVistor.str, String.append_assoc]
    rw [printOriginalVistor.Accept_prefixed val _ _ _ _ b]
end

/-! ## Claims on the print pass -/

theorem printOriginalVistor.VisitExpression_appends (e : Expression)
    (s : printOriginalVistor) :
    printOriginalVistor.VisitExpression s e =
      ⟨s.buf ++ (printOriginalVistor.VisitExpression s.fresh e).buf,
        (printOriginalVistor.VisitExpression s.fresh e).depth,
        (printOriginalVistor.VisitExpression s.fresh e).original,
        (printOriginalVistor.VisitExpression s.fresh e).inBlock⟩ := by
  obtain ⟨x, d, o, i⟩ := s
  simpa [printOriginalVistor.fresh] using
    printOriginalVistor.VisitExpression_prefixed e "" d o i x

theorem printOriginalVistor.acceptProgramIfPresent_appends (p : Option Program)
    (s : printOriginalVistor) :
    printOriginalVistor.acceptProgramIfPresent s p =
      ⟨s.buf ++ (printOriginalVistor.acceptProgramIfPresent s.fresh p).buf,
        (printOriginalVistor.acceptProgramIfPresent s.fresh p).depth,
        (printOriginalVistor.acceptProgramIfPresent s.fresh p).original,
        (printOriginalVistor.acceptProgramIfPresent s.fresh p).inBlock⟩ := by
  obtain ⟨x, d, o, i⟩ := s
  simpa [printOriginalVistor.fresh] using
    printOriginalVistor.acceptProgramIfPresent_prefixed p "" d o i x

theorem printOriginalVistor.acceptInverseIfPresent_appends (p : Option Program)
    (s : printOriginalVistor) :
    printOriginalVistor.acceptInverseIfPresent s p =
      ⟨s.buf ++ (printOriginalVistor.acceptInverseIfPresent s.fresh p).buf,
        (printOriginalVistor.acceptInverseIfPresent s.fresh p).depth,
        (printOriginalVistor.acceptInverseIfPresent s.fresh p).original,
        (printOriginalVistor.acceptInverseIfPresent s.fresh p).inBlock⟩ := by
  obtain ⟨x, d, o, i⟩ := s
  simpa [printOriginalVistor.fresh] using
    printOriginalVistor.acceptInverseIfPresent_prefixed p "" d o i x

theorem printOriginalVistor.Accept_appends (n : Node) (s : printOriginalVistor) :
    printOriginalVistor.Accept s n =
      ⟨s.buf ++ (printOriginalVistor.Accept s.fresh n).buf,
        (printOriginalVistor.Accept s.fresh n).depth,
        (printOriginalVistor.Accept s.fresh n).original,
        (printOriginalVistor.Accept s.fresh n).inBlock⟩ := by
  obtain ⟨x, d, o, i⟩ := s
  simpa [printOriginalVistor.fresh] using printOriginalVistor.Accept_prefixed n "" d o i x

theorem printOriginalVistor.acceptParams_appends (ns : List Node) (s : printOriginalVistor) :
    printOriginalVistor.acceptParams s ns =
      ⟨s.buf ++ (printOriginalVistor.acceptParams s.fresh ns).buf,
        (printOriginalVistor.acceptParams s.fresh ns).depth,
        (printOriginalVistor.acceptParams s.fresh ns).original,
        (printOriginalVistor.acceptParams s.fresh ns).inBlock⟩ := by
  obtain ⟨x, d, o, i⟩ := s
  simpa [printOriginalVistor.fresh] using
    printOriginalVistor.acceptParams_prefixed ns "" d o i x

theorem printOriginalVistor.acceptHashIfPresent_appends (h : Option Hash)
    (s : printOriginalVistor) :
    printOriginalVistor.acceptHashIfPresent s h =
      ⟨s.buf ++ (printOriginalVistor.acceptHashIfPresent s.fresh h).buf,
        (printOriginalVistor.acceptHashIfPresent s.fresh h).depth,
        (printOriginalVistor.acceptHashIfPresent s.fresh h).original,
        (printOriginalVistor.acceptHashIfPresent s.fresh h).inBlock⟩ := by
  obtain ⟨x, d, o, i⟩ := s
  simpa [printOriginalVistor.fresh] using
    printOriginalVistor.acceptHashIfPresent_prefixed h "" d o i x

/-- C18: for a block statement whose call expression has a path expression
`pe` as its path, `VisitBlock` appends to the buffer, in this order, `"{{#"`,
the text the call expression prints, `"}}"`, the text the primary body prints
if there is one, `"{{else}}"` and the text the inverse body prints if there
is an inverse, and `"{{/" ++ pe.Original ++ "}}"`; the call expression prints
the raw text of its path, then every parameter after one space, then the
hash, if there is one, after one space.  The text a visit prints is what it
leaves in an empty buffer in the state it is made in. -/
theorem printOriginalVistor.VisitBlock_appends (v : printOriginalVistor)
    (pe : PathExpression) (params : List Node) (hash : Option Hash)
    (p i : Option Program) :
    (printOriginalVistor.VisitBlock v (.mk (.mk (.path pe) params hash) p i)).buf =
        v.buf ++ "\x7b\x7b#" ++
          (printOriginalVistor.VisitExpression ⟨"", v.depth + 1, v.original, true⟩
            (.mk (.path pe) params hash)).buf ++ "\x7d\x7d" ++
          (printOriginalVistor.acceptProgramIfPresent
            (printOriginalVistor.VisitExpression ⟨"", v.depth + 1, v.original, true⟩
              (.mk (.path pe) params hash)).fresh p).buf ++
          (printOriginalVistor.acceptInverseIfPresent
            (printOriginalVistor.acceptProgramIfPresent
              (printOriginalVistor.VisitExpression ⟨"", v.depth + 1, v.original, true⟩
                (.mk (.path pe) params hash)).fresh p).fresh i).buf ++
          "\x7b\x7b/" ++ pe.Original ++ "\x7d\x7d" ∧
      (∀ s : printOriginalVistor,
        (printOriginalVistor.VisitExpression s (.mk (.path pe) params hash)).buf =
          s.buf ++ pe.Original ++ (printOriginalVistor.acceptParams s.fresh params).buf ++
            (printOriginalVistor.acceptHashIfPresent
              (printOriginalVistor.acceptParams s.fresh params).fresh hash).buf) ∧
      (∀ (s : printOriginalVistor) (n : Node) (ns : List Node),
        (printOriginalVistor.acceptParams s []).buf = s.buf ∧
        (printOriginalVistor.acceptParams s (n :: ns)).buf =
          s.buf ++ " " ++ (printOriginalVistor.Accept s.fresh n).buf ++
            (printOriginalVistor.acceptParams
              (printOriginalVistor.Accept s.fresh n).fresh ns).buf) ∧
      (∀ (s : printOriginalVistor) (h : Hash),
        (printOriginalVistor.acceptHashIfPresent s none).buf = s.buf ∧
        (printOriginalVistor.acceptHashIfPresent s (some h)).buf =
          s.buf ++ " " ++ (printOriginalVistor.VisitHash s.fresh h).buf) ∧
      (∀ (s : printOriginalVistor) (q : Program),
        (printOriginalVistor.acceptProgramIfPresent s none).buf = s.buf ∧
        (printOriginalVistor.acceptProgramIfPresent s (some q)).buf =
          s.buf ++ (printOriginalVistor.VisitProgram
            ⟨"", s.depth + 1, s.original, s.inBlock⟩ q).buf ∧
        (printOriginalVistor.acceptInverseIfPresent s none).buf = s.buf ∧
        (printOriginalVistor.acceptInverseIfPresent s (some q)).buf =
          s.buf ++ "\x7b\x7belse\x7d\x7d" ++ (printOriginalVistor.VisitProgram
            ⟨"", s.depth + 1, s.original, s.inBlock⟩ q).buf) := by
  refine ⟨?_, ?_, ?_, ?_, ?_⟩
  · rw [printOriginalVistor.VisitBlock]
    simp only [printOriginalVistor.str, Expression.Path, printOriginalVistor.closeBlock]
    rw [printOriginalVistor.VisitExpression_appends]
    simp only [printOriginalVistor.fresh]
    rw [printOriginalVistor.acceptProgramIfPresent_appends]
    simp only [printOriginalVistor.fresh]
    rw [printOriginalVistor.acceptInverseIfPresent_appends]
    simp only [printOriginalVistor.fresh, String.append_assoc]
  · intro s
    rw [printOriginalVistor.VisitExpression, printOriginalVistor.Accept]
    simp only [printOriginalVistor.str]
    rw [printOriginalVistor.acceptParams_appends]
    simp only [printOriginalVistor.fresh]
    rw [printOriginalVistor.acceptHashIfPresent_appends]
    simp only [printOriginalVistor.fresh, String.append_assoc]
  · intro s n ns
    refine ⟨by rw [printOriginalVistor.acceptParams], ?_⟩
    rw [printOriginalVistor.acceptParams]
    simp only [printOriginalVistor.str]
    rw [printOriginalVistor.Accept_appends]
    simp only [printOriginalVistor.fresh]
    rw [printOriginalVistor.acceptParams_appends]
    simp only [printOriginalVistor.fresh, String.append_assoc]
  · intro s h
    refine ⟨by rw [printOriginalVistor.acceptHashIfPresent], ?_⟩
    obtain ⟨x, d, o, i'⟩ := s
    rw [printOriginalVistor.acceptHashIfPresent]
    simp only [printOriginalVistor.str, printOriginalVistor.fresh]
    have h2 := printOriginalVistor.VisitHash_prefixed h "" d o i' " "
    simp only [String.append_empty] at h2
    rw [printOriginalVistor.VisitHash_prefixed h " " d o i' x, h2]
    simp [String.append_assoc]
  · intro s q
    obtain ⟨x, d, o, i'⟩ := s
    refine ⟨by rw [printOriginalVistor.acceptProgramIfPresent], ?_,
      by rw [printOriginalVistor.acceptInverseIfPresent], ?_⟩
    · rw [printOriginalVistor.acceptProgramIfPresent]
      simp only
      have := printOriginalVistor.VisitProgram_prefixed q "" (d + 1) o i' x
      simp only [String.append_empty] at this
      rw [this]
    · rw [printOriginalVistor.acceptInverseIfPresent]
      simp only [printOriginalVistor.str]
      have := printOriginalVistor.VisitProgram_prefixed q "" (d + 1) o i'
        (x ++ "\x7b\x7belse\x7d\x7d")
      simp only [String.append_empty] at this
      rw [this]

theorem printOriginalVistor.VisitBlock_appends_witness :
    PrintOriginal (.block ifBlock) =
        "\x7b\x7b#if ok HASH\x7bflag=1\x7d\x7d\x7dyes\x7b\x7belse\x7d\x7dno\x7b\x7b/if\x7d\x7d" ∧
      (printOriginalVistor.VisitBlock newPrintOriginalVisitor ifBlock).buf =
        "" ++ "\x7b\x7b#" ++ "if ok HASH\x7bflag=1\x7d" ++ "\x7d\x7d" ++ "yes" ++
          "\x7b\x7belse\x7d\x7dno" ++ "\x7b\x7b/" ++ "if" ++ "\x7d\x7d" :=
  ⟨by decide,
    ((printOriginalVistor.VisitBlock_appends newPrintOriginalVisitor ⟨"if", ["if"]⟩
      [.path ⟨"ok", ["ok"]⟩] (some (.mk [.mk "flag" (.number ⟨true, "1"⟩)]))
      (some (.mk [] [.content ⟨"yes", "yes"⟩]))
      (some (.mk [] [.content ⟨"no", "no"⟩]))).1).trans (by decide)⟩

/-! ## Further claims on the validate pass -/

/-- C19: the block stack of the validate visitor is balanced: a visit of any
node that returns no error leaves the block stack as it found it.  So strict
checking resumes after a block: for a program that is a block statement
followed by a top-level mustache whose path is a field reference with a
first segment that matches no name of `V`, `Validate` returns the error for
that reference. -/
theorem validateVisitor.blockStack_balanced (parser : Parser) (g : GoMap Helper)
    (tpl : Template) (V : List String) :
    (∀ (v : validateVisitor) (n : Node), (validateVisitor.Accept g v n).1 = none →
        (validateVisitor.Accept g v n).2.blockStack = v.blockStack) ∧
      (∀ (bp : List String) (B : BlockStatement) (p : PathExpression) (hash : Option Hash)
        (s : String) (rest : List String),
        tpl.program = some (.mk bp [.block B, .mustache (.mk (.mk (.path p) [] hash))]) →
        Expression.isHelperCall tpl.helpers g (.mk (.path p) [] hash) = false →
        p.Parts = s :: rest → (∀ n ∈ V, s ≠ n ∧ s ≠ "[" ++ n ++ "]") →
        (validateVisitor.VisitBlock g (newValidateVisitor tpl V) B).1 = none ∧
          (tpl.Validate parser g V).1 =
            .returned (some (Err.invalidVariableReference p.Original V))) := by
  refine ⟨fun v n h => (validateVisitor.Accept_inv g n v).2.2.1 h, ?_⟩
  intro bp B p hash s rest hp hh hparts hno
  refine ⟨validateVisitor.VisitBlock_noError g _ B, ?_⟩
  rw [Template.Validate_eq_firstInvalid parser g tpl _ V hp (by rfl)]
  have hk : ¬ p.firstSegmentKnown V := by
    intro hk
    obtain ⟨n, hn, hs⟩ := hk s (by rw [hparts]; rfl)
    exact hs.elim (hno n hn).1 (hno n hn).2
  simp [Program.topLevelFieldReferences, Program.Body, statementFieldReferences,
    Expression.fieldReferences, paramsFieldReferences, hh, Expression.FieldPath,
    Expression.Path, firstInvalid, hk]

theorem validateVisitor.blockStack_balanced_witness :
    (validateVisitor.VisitBlock [] (newValidateVisitor blockThenNameTemplate ["items"])
        eachBlock).1 = none ∧
      (blockThenNameTemplate.Validate noParser [] ["items"]).1 =
        .returned (some (Err.invalidVariableReference "name" ["items"])) :=
  (validateVisitor.blockStack_balanced noParser [] blockThenNameTemplate ["items"]).2
    [] eachBlock ⟨"name", ["name"]⟩ none "name" [] rfl (by decide) rfl (by decide)

/-! ## The validate pass does not see hashes and partials -/

theorem validateVisitor.Alike.of_setCurNodes {v w : validateVisitor} (h : v.Alike w)
    (n m : Node) : (v.at_ n).Alike (w.at_ m) := h

theorem validateVisitor.Alike.step {v w v' w' : validateVisitor} (h : v.Alike w)
    (hv : v.Inv (none, v')) (hw : w.Inv (none, w')) : v'.Alike w' := by
  obtain ⟨h1, h2, h3⟩ := h
  obtain ⟨a1, a2, a3, -⟩ := hv
  obtain ⟨b1, b2, b3, -⟩ := hw
  simp only at a1 a2 a3 b1 b2 b3
  refine ⟨by rw [a1, b1, h1], by rw [a2, b2, h2], ?_⟩
  rw [a3 trivial, b3 trivial]
  exact h3

theorem validateVisitor.VisitPath_alike {v w : validateVisitor} (h : v.Alike w)
    (p : PathExpression) : v.VisitPath p = w.VisitPath p := by
  obtain ⟨-, h2, h3⟩ := h
  have hb : v.inBlock = w.inBlock := by
    by_cases hv : v.blockStack = []
    · simp [validateVisitor.inBlock, hv, h3.1 hv]
    · have hw : w.blockStack ≠ [] := fun e => hv (h3.2 e)
      rw [validateVisitor.inBlock_of_ne_nil hv, validateVisitor.inBlock_of_ne_nil hw]
  simp only [validateVisitor.VisitPath, hb, h2]

theorem validateVisitor.findHelper_alike (g : GoMap Helper) {v w : validateVisitor}
    (h : v.Alike w) (name : String) : v.findHelper g name = w.findHelper g name := by
  simp only [validateVisitor.findHelper, Template.findHelper, h.1]

theorem Expression.skeleton_HelperName (e : Expression) :
    e.skeleton.HelperName = e.HelperName := by
  obtain ⟨path, params, hash⟩ := e
  cases path <;> rfl

theorem Expression.skeleton_LiteralStr (e : Expression) :
    e.skeleton.LiteralStr = e.LiteralStr := by
  obtain ⟨path, params, hash⟩ := e
  cases path <;> rfl

theorem Expression.skeleton_FieldPath (e : Expression) :
    e.skeleton.FieldPath = e.FieldPath := by
  obtain ⟨path, params, hash⟩ := e
  cases path <;> rfl

mutual
theorem validateVisitor.Accept_skeleton (g : GoMap Helper) :
    ∀ (n : Node) (v w : validateVisitor), v.Alike w →
      (validateVisitor.Accept g v n).1 = (validateVisitor.Accept g w n.skeleton).1
  | .program n, v, w, h => by
    rw [Node.skeleton, validateVisitor.Accept, validateVisitor.Accept]
    exact validateVisitor.VisitProgram_skeleton g n v w h
  | .mustache n, v, w, h => by
    rw [Node.skeleton, validateVisitor.Accept, validateVisitor.Accept]
    exact validateVisitor.VisitMustache_skeleton g n v w h
  | .block n, v, w, _ => by
    rw [Node.skeleton, validateVisitor.Accept, validateVisitor.Accept,
      validateVisitor.VisitBlock_noError, validateVisitor.VisitBlock_noError]
  | .partialStatement n, v, w, _ => by
    rw [Node.skeleton, validateVisitor.Accept, validateVisitor.Accept]
  | .content n, v, w, _ => by
    rw [Node.skeleton, validateVisitor.Accept, validateVisitor.Accept]
  | .comment n, v, w, _ => by
    rw [Node.skeleton, validateVisitor.Accept, validateVisitor.Accept]
  | .expression n, v, w, h => by
    rw [Node.skeleton, validateVisitor.Accept, validateVisitor.Accept]
    exact validateVisitor.VisitExpression_skeleton g n v w h
  | .subExpression n, v, w, h => by
    rw [Node.skeleton, validateVisitor.Accept, validateVisitor.Accept]
    exact validateVisitor.VisitSubExpression_skeleton g n v w h
  | .path n, v, w, h => by
    rw [Node.skeleton, validateVisitor.Accept, validateVisitor.Accept]
    exact validateVisitor.VisitPath_alike h n
  | .string n, v, w, _ => by
    rw [Node.skeleton, validateVisitor.Accept, validateVisitor.Accept]
  | .boolean n, v, w, _ => by
    rw [Node.skeleton, validateVisitor.Accept, validateVisitor.Accept]
  | .number n, v, w, _ => by
    rw [Node.skeleton, validateVisitor.Accept, validateVisitor.Accept]
  | .hash n, v, w, h => by
    rw [Node.skeleton, validateVisitor.Accept, validateVisitor.Accept]
    exact validateVisitor.VisitHash_skeleton g n v w h
  | .hashPair n, v, w, h => by
    rw [Node.skeleton, validateVisitor.Accept, validateVisitor.Accept]
    exact validateVisitor.VisitHashPair_skeleton g n v w h
theorem validateVisitor.acceptEach_skeleton (g : GoMap Helper) :
    ∀ (ns : List Node) (v w : validateVisitor), v.Alike w →
      (validateVisitor.acceptEach g v ns).1 =
        (validateVisitor.acceptEach g w (nodesSkeleton ns)).1
  | [], v, w, _ => by
    rw [nodesSkeleton, validateVisitor.acceptEach, validateVisitor.acceptEach]
  | n :: ns, v, w, h => by
    rw [nodesSkeleton, validateVisitor.acceptEach, validateVisitor.acceptEach]
    have ih := validateVisitor.Accept_skeleton g n v w h
    have i1 := validateVisitor.Accept_inv g n v
    have i2 := validateVisitor.Accept_inv g n.skeleton w
    generalize validateVisitor.Accept g v n = r1 at ih i1
    generalize validateVisitor.Accept g w n.skeleton = r2 at ih i2
    obtain ⟨e1, v'⟩ := r1
    obtain ⟨e2, w'⟩ := r2
    simp only at ih
    subst ih
    cases e1 with
    | some err => rfl
    | none => exact validateVisitor.acceptEach_skeleton g ns v' w' (h.step i1 i2)
theorem validateVisitor.VisitProgram_skeleton (g : GoMap Helper) :
    ∀ (n : Program) (v w : validateVisitor), v.Alike w →
      (validateVisitor.VisitProgram g v n).1 =
        (validateVisitor.VisitProgram g w n.skeleton).1
  | .mk bp body, v, w, h => by
    rw [Program.skeleton, validateVisitor.VisitProgram, validateVisitor.VisitProgram]
    exact validateVisitor.acceptEach_skeleton g body _ _ (h.of_setCurNodes _ _)
theorem validateVisitor.VisitMustache_skeleton (g : GoMap Helper) :
    ∀ (n : MustacheStatement) (v w : validateVisitor), v.Alike w →
      (validateVisitor.VisitMustache g v n).1 =
        (validateVisitor.VisitMustache g w n.skeleton).1
  | .mk e, v, w, h => by
    rw [MustacheStatement.skeleton, validateVisitor.VisitMustache,
      validateVisitor.VisitMustache]
    exact validateVisitor.VisitExpression_skeleton g e _ _ (h.of_setCurNodes _ _)
theorem validateVisitor.VisitExpression_skeleton (g : GoMap Helper) :
    ∀ (n : Expression) (v w : validateVisitor), v.Alike w →
      (validateVisitor.VisitExpression g v n).1 =
        (validateVisitor.VisitExpression g w n.skeleton).1
  | .mk path ps hash, v, w, h => by
    have hn := Expression.skeleton_HelperName (.mk path ps hash)
    have hl := Expression.skeleton_LiteralStr (.mk path ps hash)
    have hf := Expression.skeleton_FieldPath (.mk path ps hash)
    rw [Expression.skeleton] at hn hl hf
    rw [Expression.skeleton, validateVisitor.VisitExpression,
      validateVisitor.VisitExpression]
    have ih := validateVisitor.acceptEach_skeleton g ps v w h
    have i1 := validateVisitor.acceptEach_inv g ps v
    have i2 := validateVisitor.acceptEach_inv g (nodesSkeleton ps) w
    generalize validateVisitor.acceptEach g v ps = r1 at ih i1
    generalize validateVisitor.acceptEach g w (nodesSkeleton ps) = r2 at ih i2
    obtain ⟨e1, v'⟩ := r1
    obtain ⟨e2, w'⟩ := r2
    simp only at ih
    subst ih
    cases e1 with
    | some err => rfl
    | none =>
      have h' := h.step i1 i2
      simp only [hn, hl, hf, validateVisitor.findHelper_alike g h',
        validateVisitor.VisitPath_alike h']
      split
      · rfl
      · split
        · split
          · split <;> rfl
          · rfl
        · rfl
theorem validateVisitor.VisitSubExpression_skeleton (g : GoMap Helper) :
    ∀ (n : SubExpression) (v w : validateVisitor), v.Alike w →
      (validateVisitor.VisitSubExpression g v n).1 =
        (validateVisitor.VisitSubExpression g w n.skeleton).1
  | .mk e, v, w, h => by
    rw [SubExpression.skeleton, validateVisitor.VisitSubExpression,
      validateVisitor.VisitSubExpression]
    exact validateVisitor.VisitExpression_skeleton g e _ _ (h.of_setCurNodes _ _)
theorem validateVisitor.VisitHash_skeleton (g : GoMap Helper) :
    ∀ (n : Hash) (v w : validateVisitor), v.Alike w →
      (validateVisitor.VisitHash g v n).1 = (validateVisitor.VisitHash g w n.skeleton).1
  | .mk ps, v, w, h => by
    rw [Hash.skeleton, validateVisitor.VisitHash, validateVisitor.VisitHash]
    exact validateVisitor.acceptPairs_skeleton g ps _ _ (h.of_setCurNodes _ _)
theorem validateVisitor.acceptPairs_skeleton (g : GoMap Helper) :
    ∀ (ns : List HashPair) (v w : validateVisitor), v.Alike w →
      (validateVisitor.acceptPairs g v ns).1 =
        (validateVisitor.acceptPairs g w (pairsSkeleton ns)).1
  | [], v, w, _ => by
    rw [pairsSkeleton, validateVisitor.acceptPairs, validateVisitor.acceptPairs]
  | n :: ns, v, w, h => by
    rw [pairsSkeleton, validateVisitor.acceptPairs, validateVisitor.acceptPairs]
    have ih := validateVisitor.VisitHashPair_skeleton g n v w h
    have i1 := validateVisitor.VisitHashPair_inv g n v
    have i2 := validateVisitor.VisitHashPair_inv g n.skeleton w
    generalize validateVisitor.VisitHashPair g v n = r1 at ih i1
    generalize validateVisitor.VisitHashPair g w n.skeleton = r2 at ih i2
    obtain ⟨e1, v'⟩ := r1
    obtain ⟨e2, w'⟩ := r2
    simp only at ih
    subst ih
    cases e1 with
    | some err => rfl
    | none => exact validateVisitor.acceptPairs_skeleton g ns v' w' (h.step i1 i2)
theorem validateVisitor.VisitHashPair_skeleton (g : GoMap Helper) :
    ∀ (n : HashPair) (v w : validateVisitor), v.Alike w →
      (validateVisitor.VisitHashPair g v n).1 =
        (validateVisitor.VisitHashPair g w n.skeleton).1
  | .mk k val, v, w, h => by
    rw [HashPair.skeleton, validateVisitor.VisitHashPair, validateVisitor.VisitHashPair]
    exact validateVisitor.Accept_skeleton g val _ _ (h.of_setCurNodes _ _)
end

theorem Template.setProgram_helpers (tpl : Template) (p : Option Program) :
    (tpl.setProgram p).helpers = tpl.helpers := by
  cases tpl; rfl

theorem Template.Validate_skeleton (parser : Parser) (g : GoMap Helper)
    (tpl tpl' : Template) (prog prog' : Program) (V : List String)
    (hp : tpl.program = some prog) (hp' : tpl'.program = some prog')
    (hh : tpl.helpers = tpl'.helpers) (hs : prog.skeleton = prog'.skeleton) :
    (tpl.Validate parser g V).1 = (tpl'.Validate parser g V).1 := by
  simp only [Template.Validate, Template.parse_of_program hp,
    Template.parse_of_program hp', hp, hp']
  have a : (newValidateVisitor tpl V).Alike (newValidateVisitor tpl' V) :=
    ⟨hh, rfl, Iff.rfl⟩
  have b : (newValidateVisitor tpl' V).Alike (newValidateVisitor tpl' V) :=
    ⟨rfl, rfl, Iff.rfl⟩
  rw [validateVisitor.VisitProgram_skeleton g prog _ _ a,
    validateVisitor.VisitProgram_skeleton g prog' _ _ b, hs]

/-- C20: `Validate` never inspects the hash of an expression or a partial
statement.  Visiting an expression gives the same result whatever hash it
carries, and visiting a partial statement gives no error; on a parsed
template the result of `Validate` is the same for every tree that differs
from the template's tree only in hashes of expressions and in partial
statements (the two trees have the same skeleton), for every `V`; and the tree
of a top-level mustache `name` with a hash value that is any path, followed
by a partial whose argument is any path, validates against `V = ["name"]`. -/
theorem Template.Validate_ignores_hashes_and_partials (parser : Parser)
    (g : GoMap Helper) (V : List String) :
    (∀ (v : validateVisitor) (path : Node) (ps : List Node) (h h' : Option Hash),
        (validateVisitor.VisitExpression g v (.mk path ps h)).1 =
          (validateVisitor.VisitExpression g v (.mk path ps h')).1) ∧
      (∀ (v : validateVisitor) (p : PartialStatement),
        (validateVisitor.Accept g v (.partialStatement p)).1 = none) ∧
      (∀ (tpl : Template) (prog prog' : Program), tpl.program = some prog →
        prog.skeleton = prog'.skeleton →
        ((tpl.setProgram (some prog')).Validate parser g V).1 =
          (tpl.Validate parser g V).1) ∧
      (∀ (key : String) (q c : PathExpression) (nm : Node),
        (Template.Validate parser g
          (.mk "" (some (.mk [] [.mustache (.mk (.mk (.path ⟨"name", ["name"]⟩) []
              (some (.mk [.mk key (.path q)])))),
            .partialStatement (.mk nm [.path c] none)])) [] [] false) ["name"]).1 =
          .returned none) := by
  refine ⟨?_, ?_, ?_, ?_⟩
  · intro v path ps h h'
    have a : v.Alike v := ⟨rfl, rfl, Iff.rfl⟩
    rw [validateVisitor.VisitExpression_skeleton g (.mk path ps h) v v a,
      validateVisitor.VisitExpression_skeleton g (.mk path ps h') v v a,
      Expression.skeleton, Expression.skeleton]
  · intro v p
    rw [validateVisitor.Accept]
  · intro tpl prog prog' hp hs
    exact (Template.Validate_skeleton parser g tpl (tpl.setProgram (some prog')) prog prog' V
      hp (Template.setProgram_program tpl _) (Template.setProgram_helpers tpl _).symm hs).symm
  · intro key q c nm
    refine (Template.Validate_skeleton parser g
      (.mk "" (some (.mk [] [.mustache (.mk (.mk (.path ⟨"name", ["name"]⟩) []
          (some (.mk [.mk key (.path q)])))),
        .partialStatement (.mk nm [.path c] none)])) [] [] false)
      (.mk "" (some (.mk [] [.mustache (.mk (.mk (.path ⟨"name", ["name"]⟩) [] none)),
        .partialStatement blankPartial])) [] [] false)
      (.mk [] [.mustache (.mk (.mk (.path ⟨"name", ["name"]⟩) []
          (some (.mk [.mk key (.path q)])))),
        .partialStatement (.mk nm [.path c] none)])
      (.mk [] [.mustache (.mk (.mk (.path ⟨"name", ["name"]⟩) [] none)),
        .partialStatement blankPartial])
      ["name"] rfl rfl rfl rfl).trans ?_
    simp only [Template.Validate, Template.parse, Template.program]
    cases hg : List.lookup "name" g <;>
      simp [validateVisitor.VisitProgram, validateVisitor.acceptEach,
        validateVisitor.Accept, validateVisitor.VisitMustache,
        validateVisitor.VisitExpression, validateVisitor.findHelper, Template.findHelper,
        Raymond.findHelper, Template.helpers, GoMap.get, hg, Expression.HelperName,
        Expression.LiteralStr, Expression.FieldPath, Expression.Path, ast.LiteralStr,
        validateVisitor.VisitPath, validateVisitor.inBlock, validateVisitor.at_,
        newValidateVisitor]

theorem Template.Validate_ignores_hashes_and_partials_witness :
    hashAndPartialTemplate.program = some hashAndPartialProgram ∧
      hashAndPartialProgram.skeleton =
        (Program.mk [] [.mustache (.mk (.mk (.path ⟨"name", ["name"]⟩) [] none)),
          .partialStatement (.mk (.path ⟨"other", ["other"]⟩) [] none)]).skeleton ∧
      ((hashAndPartialTemplate.setProgram
          (some (.mk [] [.mustache (.mk (.mk (.path ⟨"name", ["name"]⟩) [] none)),
            .partialStatement (.mk (.path ⟨"other", ["other"]⟩) [] none)]))).Validate
          noParser [] ["name"]).1 =
        (hashAndPartialTemplate.Validate noParser [] ["name"]).1 ∧
      (hashAndPartialTemplate.Validate noParser [] ["name"]).1 = .returned none :=
  ⟨rfl, rfl,
    (Template.Validate_ignores_hashes_and_partials noParser [] ["name"]).2.2.1
      hashAndPartialTemplate hashAndPartialProgram _ rfl rfl,
    by decide⟩

/-! ## The validate pass over a larger set of names -/

theorem validateVisitor.Below.of_at_both {v w : validateVisitor} (h : v.Below w)
    (n m : Node) : (v.at_ n).Below (w.at_ m) := h

theorem validateVisitor.Below.after {v w v' w' : validateVisitor} (h : v.Below w)
    (hv : v.Inv (none, v')) (hw : w.Inv (none, w')) : v'.Below w' := by
  obtain ⟨h1, h2, h3⟩ := h
  obtain ⟨a1, a2, a3, -⟩ := hv
  obtain ⟨b1, b2, b3, -⟩ := hw
  simp only at a1 a2 a3 b1 b2 b3
  refine ⟨by rw [a1, b1, h1], by rw [a2, b2]; exact h2, ?_⟩
  rw [a3 trivial, b3 trivial]
  exact h3

theorem validateVisitor.VisitPath_below {v w : validateVisitor} (h : v.Below w)
    (p : PathExpression) (hv : v.VisitPath p = none) : w.VisitPath p = none := by
  obtain ⟨-, h2, h3⟩ := h
  by_cases hw : w.blockStack = []
  · rw [validateVisitor.VisitPath_top (h3.2 hw), firstInvalid_eq_none_iff] at hv
    rw [validateVisitor.VisitPath_top hw, firstInvalid_eq_none_iff]
    intro q hq s hs
    obtain ⟨n, hn, hsn⟩ := hv q hq s hs
    exact ⟨n, h2 n hn, hsn⟩
  · exact validateVisitor.VisitPath_inBlock hw p

theorem validateVisitor.findHelper_below (g : GoMap Helper) {v w : validateVisitor}
    (h : v.Below w) (name : String) : v.findHelper g name = w.findHelper g name := by
  simp only [validateVisitor.findHelper, Template.findHelper, h.1]

mutual
theorem validateVisitor.Accept_below (g : GoMap Helper) :
    ∀ (n : Node) (v w : validateVisitor), v.Below w →
      (validateVisitor.Accept g v n).1 = none → (validateVisitor.Accept g w n).1 = none
  | .program n, v, w, h => by
    rw [validateVisitor.Accept, validateVisitor.Accept]
    exact validateVisitor.VisitProgram_below g n v w h
  | .mustache n, v, w, h => by
    rw [validateVisitor.Accept, validateVisitor.Accept]
    exact validateVisitor.VisitMustache_below g n v w h
  | .block n, v, w, _ => by
    intro _
    rw [validateVisitor.Accept, validateVisitor.VisitBlock_noError]
  | .partialStatement n, v, w, _ => by
    rw [validateVisitor.Accept, validateVisitor.Accept]; exact fun _ => rfl
  | .content n, v, w, _ => by
    rw [validateVisitor.Accept, validateVisitor.Accept]; exact fun _ => rfl
  | .comment n, v, w, _ => by
    rw [validateVisitor.Accept, validateVisitor.Accept]; exact fun _ => rfl
  | .expression n, v, w, h => by
    rw [validateVisitor.Accept, validateVisitor.Accept]
    exact validateVisitor.VisitExpression_below g n v w h
  | .subExpression n, v, w, h => by
    rw [validateVisitor.Accept, validateVisitor.Accept]
    exact validateVisitor.VisitSubExpression_below g n v w h
  | .path n, v, w, h => by
    rw [validateVisitor.Accept, validateVisitor.Accept]
    exact validateVisitor.VisitPath_below h n
  | .string n, v, w, _ => by
    rw [validateVisitor.Accept, validateVisitor.Accept]; exact fun _ => rfl
  | .boolean n, v, w, _ => by
    rw [validateVisitor.Accept, validateVisitor.Accept]; exact fun _ => rfl
  | .number n, v, w, _ => by
    rw [validateVisitor.Accept, validateVisitor.Accept]; exact fun _ => rfl
  | .hash n, v, w, h => by
    rw [validateVisitor.Accept, validateVisitor.Accept]
    exact validateVisitor.VisitHash_below g n v w h
  | .hashPair n, v, w, h => by
    rw [validateVisitor.Accept, validateVisitor.Accept]
    exact validateVisitor.VisitHashPair_below g n v w h
theorem validateVisitor.acceptEach_below (g : GoMap Helper) :
    ∀ (ns : List Node) (v w : validateVisitor), v.Below w →
      (validateVisitor.acceptEach g v ns).1 = none →
        (validateVisitor.acceptEach g w ns).1 = none
  | [], v, w, _ => by
    rw [validateVisitor.acceptEach, validateVisitor.acceptEach]; exact fun _ => rfl
  | n :: ns, v, w, h => by
    rw [validateVisitor.acceptEach, validateVisitor.acceptEach]
    have ih := validateVisitor.Accept_below g n v w h
    have i1 := validateVisitor.Accept_inv g n v
    have i2 := validateVisitor.Accept_inv g n w
    generalize validateVisitor.Accept g v n = r1 at ih i1
    generalize validateVisitor.Accept g w n = r2 at ih i2
    obtain ⟨e1, v'⟩ := r1
    obtain ⟨e2, w'⟩ := r2
    cases e1 with
    | some err => intro hv; simp at hv
    | none =>
      have he := ih rfl
      simp only at he
      subst he
      exact validateVisitor.acceptEach_below g ns v' w' (h.after i1 i2)
theorem validateVisitor.VisitProgram_below (g : GoMap Helper) :
    ∀ (n : Program) (v w : validateVisitor), v.Below w →
      (validateVisitor.VisitProgram g v n).1 = none →
        (validateVisitor.VisitProgram g w n).1 = none
  | .mk bp body, v, w, h => by
    rw [validateVisitor.VisitProgram, validateVisitor.VisitProgram]
    exact validateVisitor.acceptEach_below g body _ _ (h.of_at_both _ _)
theorem validateVisitor.VisitMustache_below (g : GoMap Helper) :
    ∀ (n : MustacheStatement) (v w : validateVisitor), v.Below w →
      (validateVisitor.VisitMustache g v n).1 = none →
        (validateVisitor.VisitMustache g w n).1 = none
  | .mk e, v, w, h => by
    rw [validateVisitor.VisitMustache, validateVisitor.VisitMustache]
    exact validateVisitor.VisitExpression_below g e _ _ (h.of_at_both _ _)
theorem validateVisitor.VisitExpression_below (g : GoMap Helper) :
    ∀ (n : Expression) (v w : validateVisitor), v.Below w →
      (validateVisitor.VisitExpression g v n).1 = none →
        (validateVisitor.VisitExpression g w n).1 = none
  | .mk path ps hash, v, w, h => by
    rw [validateVisitor.VisitExpression, validateVisitor.VisitExpression]
    have ih := validateVisitor.acceptEach_below g ps v w h
    have i1 := validateVisitor.acceptEach_inv g ps v
    have i2 := validateVisitor.acceptEach_inv g ps w
    generalize validateVisitor.acceptEach g v ps = r1 at ih i1
    generalize validateVisitor.acceptEach g w ps = r2 at ih i2
    obtain ⟨e1, v'⟩ := r1
    obtain ⟨e2, w'⟩ := r2
    cases e1 with
    | some err => intro hv; simp at hv
    | none =>
      have he := ih rfl
      simp only at he
      subst he
      have h' := h.after i1 i2
      simp only [validateVisitor.findHelper_below g h']
      intro hv
      split
      · rfl
      · next hc1 =>
        rw [if_neg hc1] at hv
        split
        · next hc2 =>
          rw [if_pos hc2] at hv
          split
          · next fp hfp =>
            simp only [hfp] at hv
            have hp : v'.VisitPath fp = none := by
              cases hvp : v'.VisitPath fp with
              | none => rfl
              | some err => simp [hvp] at hv
            rw [validateVisitor.VisitPath_below h' fp hp]
          · rfl
        · rfl
theorem validateVisitor.VisitSubExpression_below (g : GoMap Helper) :
    ∀ (n : SubExpression) (v w : validateVisitor), v.Below w →
      (validateVisitor.VisitSubExpression g v n).1 = none →
        (validateVisitor.VisitSubExpression g w n).1 = none
  | .mk e, v, w, h => by
    rw [validateVisitor.VisitSubExpression, validateVisitor.VisitSubExpression]
    exact validateVisitor.VisitExpression_below g e _ _ (h.of_at_both _ _)
theorem validateVisitor.VisitHash_below (g : GoMap Helper) :
    ∀ (n : Hash) (v w : validateVisitor), v.Below w →
      (validateVisitor.VisitHash g v n).1 = none → (validateVisitor.VisitHash g w n).1 = none
  | .mk ps, v, w, h => by
    rw [validateVisitor.VisitHash, validateVisitor.VisitHash]
    exact validateVisitor.acceptPairs_below g ps _ _ (h.of_at_both _ _)
theorem validateVisitor.acceptPairs_below (g : GoMap Helper) :
    ∀ (ns : List HashPair) (v w : validateVisitor), v.Below w →
      (validateVisitor.acceptPairs g v ns).1 = none →
        (validateVisitor.acceptPairs g w ns).1 = none
  | [], v, w, _ => by
    rw [validateVisitor.acceptPairs, validateVisitor.acceptPairs]; exact fun _ => rfl
  | n :: ns, v, w, h => by
    rw [validateVisitor.acceptPairs, validateVisitor.acceptPairs]
    have ih := validateVisitor.VisitHashPair_below g n v w h
    have i1 := validateVisitor.VisitHashPair_inv g n v
    have i2 := validateVisitor.VisitHashPair_inv g n w
    generalize validateVisitor.VisitHashPair g v n = r1 at ih i1
    generalize validateVisitor.VisitHashPair g w n = r2 at ih i2
    obtain ⟨e1, v'⟩ := r1
    obtain ⟨e2, w'⟩ := r2
    cases e1 with
    | some err => intro hv; simp at hv
    | none =>
      have he := ih rfl
      simp only at he
      subst he
      exact validateVisitor.acceptPairs_below g ns v' w' (h.after i1 i2)
theorem validateVisitor.VisitHashPair_below (g : GoMap Helper) :
    ∀ (n : HashPair) (v w : validateVisitor), v.Below w →
      (validateVisitor.VisitHashPair g v n).1 = none →
        (validateVisitor.VisitHashPair g w n).1 = none
  | .mk k val, v, w, h => by
    rw [validateVisitor.VisitHashPair, validateVisitor.VisitHashPair]
    exact validateVisitor.Accept_below g val _ _ (h.of_at_both _ _)
end

/-- C21: `Validate` is monotone in the set of known names: for every
template (parsed or not, whatever its tree), every parser, all helper
registries and all `V`, `V'` such that every name of `V` is a name of `V'`,
when `Validate` with `V` returns no error, `Validate` with `V'` returns no
error. -/
theorem Template.Validate_monotone (parser : Parser) (g : GoMap Helper) (tpl : Template)
    (V V' : List String) (hsub : ∀ x ∈ V, x ∈ V')
    (h : (tpl.Validate parser g V).1 = .returned none) :
    (tpl.Validate parser g V').1 = .returned none := by
  unfold Template.Validate at h ⊢
  generalize tpl.parse parser = r at h ⊢
  obtain ⟨e, t⟩ := r
  cases e with
  | some err => simp at h
  | none =>
    simp only at h ⊢
    cases hprog : t.program with
    | none => simp [hprog] at h
    | some prog =>
      simp only [hprog, Outcome.returned.injEq] at h ⊢
      exact validateVisitor.VisitProgram_below g prog (newValidateVisitor t V)
        (newValidateVisitor t V') ⟨rfl, hsub, Iff.rfl⟩ h

theorem Template.Validate_monotone_witness :
    (∀ x ∈ ["name"], x ∈ ["title", "name"]) ∧
      (helloTemplate.Validate noParser [] ["name"]).1 = .returned none ∧
      (helloTemplate.Validate noParser [] ["title", "name"]).1 = .returned none :=
  ⟨by decide, by decide,
    Template.Validate_monotone noParser [] helloTemplate ["name"] ["title", "name"]
      (by decide) (by decide)⟩

/-! ## Further claims on the rename pass -/

theorem bracketChars_bracketChars (part : List Char) :
    bracketChars (bracketChars part) = bracketChars part := by
  rw [bracketChars_eq part]
  split
  · rw [bracketChars_eq]
    simp
  · next hc =>
    rw [bracketChars_eq, if_neg hc]

/-- C22: `escapeString` is idempotent, and it is the identity on a text
without a space character: `escapeString (escapeString s) = escapeString s`
for every `s`, and `escapeString s = s` for every `s` that contains no
space. -/
theorem escapeString_idempotent (s : String) :
    escapeString (escapeString s) = escapeString s ∧
      (' ' ∉ s.data → escapeString s = s) := by
  refine ⟨?_, escapeString_of_no_space s⟩
  apply String.ext
  rw [escapeString_data (escapeString s), escapeString_split, escapeString_data s,
    List.map_map]
  congr 1
  apply List.map_congr_left
  intro p _
  exact bracketChars_bracketChars p

theorem escapeString_idempotent_witness :
    escapeString (escapeString "user.first name") = escapeString "user.first name" ∧
      escapeString "user.first name" = "user.[first name]" ∧
      ' ' ∉ "user.name".data ∧ escapeString "user.name" = "user.name" :=
  ⟨(escapeString_idempotent "user.first name").1, by decide, by decide,
    (escapeString_idempotent "user.name").2 (by decide)⟩

/-! ## What the rename pass leaves as it is -/

theorem PathExpression.frame_eq_iff (p q : PathExpression) :
    p.frame = q.frame ↔
      p.Parts.length = q.Parts.length ∧ p.Parts.tail = q.Parts.tail := by
  obtain ⟨po, pp⟩ := p
  obtain ⟨qo, qp⟩ := q
  cases pp <;> cases qp <;> simp [PathExpression.frame, List.modifyHead]
  intro h
  rw [h]

theorem renamePair_frame (p : PathExpression) (key newVal : String) :
    (renamePair p key newVal).frame = p.frame := by
  obtain ⟨po, pp⟩ := p
  unfold renamePair
  simp only
  split
  · cases pp <;> simp [PathExpression.frame, List.modifyHead]
  · split
    · cases pp <;> simp [PathExpression.frame, List.modifyHead]
    · rfl

theorem renamePairs_frame (pairs : List (String × String)) (p : PathExpression) :
    (pairs.foldl (fun node kv => renamePair node kv.1 kv.2) p).frame = p.frame := by
  induction pairs generalizing p with
  | nil => rfl
  | cons kv rest ih => rw [List.foldl_cons, ih, renamePair_frame]

theorem PathExpression.renamed_frame_path (M : List (String × String)) (p : PathExpression) :
    (p.renamed M).frame = p.frame := by
  unfold PathExpression.renamed
  split
  · rfl
  · exact renamePairs_frame M p

theorem PathExpression.renamed_of_untouched (M : List (String × String))
    (p : PathExpression) (h : p.untouchedBy M) : p.renamed M = p := by
  unfold PathExpression.renamed
  split
  · rfl
  · exact renamePairs_of_no_match M p h

mutual
theorem Node.renamed_frame_node (helpers g : GoMap Helper) (M : List (String × String)) :
    ∀ n : Node, (Node.renamed helpers g M n).frame = n.frame
  | .program n => by
    rw [Node.renamed, Node.frame, Node.frame, Program.renamed_frame_program helpers g M n]
  | .mustache n => by
    rw [Node.renamed, Node.frame, Node.frame, MustacheStatement.renamed_frame_mustache helpers g M n]
  | .block n => by
    rw [Node.renamed, Node.frame, Node.frame, BlockStatement.renamed_frame_block helpers g M n]
  | .partialStatement n => by rw [Node.renamed]
  | .content n => by rw [Node.renamed]
  | .comment n => by rw [Node.renamed]
  | .expression n => by
    rw [Node.renamed, Node.frame, Node.frame, Expression.renamed_frame_expression helpers g M n]
  | .subExpression n => by
    rw [Node.renamed, Node.frame, Node.frame, SubExpression.renamed_frame_subExpression helpers g M n]
  | .path n => by
    rw [Node.renamed, Node.frame, Node.frame, PathExpression.renamed_frame_path]
  | .string n => by rw [Node.renamed]
  | .boolean n => by rw [Node.renamed]
  | .number n => by rw [Node.renamed]
  | .hash n => by
    rw [Node.renamed, Node.frame, Node.frame, Hash.renamed_frame_hash helpers g M n]
  | .hashPair n => by
    rw [Node.renamed, Node.frame, Node.frame, HashPair.renamed_frame_hashPair helpers g M n]
theorem nodesRenamed_frame (helpers g : GoMap Helper) (M : List (String × String)) :
    ∀ ns : List Node, nodesFrame (nodesRenamed helpers g M ns) = nodesFrame ns
  | [] => by rw [nodesRenamed]
  | n :: ns => by
    rw [nodesRenamed, nodesFrame, nodesFrame, Node.renamed_frame_node helpers g M n,
      nodesRenamed_frame helpers g M ns]
theorem Program.renamed_frame_program (helpers g : GoMap Helper) (M : List (String × String)) :
    ∀ n : Program, (Program.renamed helpers g M n).frame = n.frame
  | .mk bp body => by
    rw [Program.renamed, Program.frame, Program.frame, nodesRenamed_frame helpers g M body]
theorem programRenamedIfPresent_frame (helpers g : GoMap Helper)
    (M : List (String × String)) :
    ∀ n : Option Program,
      programFrameIfPresent (programRenamedIfPresent helpers g M n) = programFrameIfPresent n
  | some q => by
    rw [programRenamedIfPresent, programFrameIfPresent, programFrameIfPresent,
      Program.renamed_frame_program helpers g M q]
  | none => by rw [programRenamedIfPresent]
theorem MustacheStatement.renamed_frame_mustache (helpers g : GoMap Helper)
    (M : List (String × String)) :
    ∀ n : MustacheStatement, (MustacheStatement.renamed helpers g M n).frame = n.frame
  | .mk e => by
    rw [MustacheStatement.renamed, MustacheStatement.frame, MustacheStatement.frame,
      Expression.renamed_frame_expression helpers g M e]
theorem BlockStatement.renamed_frame_block (helpers g : GoMap Helper)
    (M : List (String × String)) :
    ∀ n : BlockStatement, (BlockStatement.renamed helpers g M n).frame = n.frame
  | .mk e p i => by
    rw [BlockStatement.renamed, BlockStatement.frame, BlockStatement.frame,
      Expression.renamed_frame_expression helpers g M e, programRenamedIfPresent_frame helpers g M p,
      programRenamedIfPresent_frame helpers g M i]
theorem Expression.renamed_frame_expression (helpers g : GoMap Helper) (M : List (String × String)) :
    ∀ n : Expression, (Expression.renamed helpers g M n).frame = n.frame
  | .mk path ps hash => by
    rw [Expression.renamed, Expression.frame, Expression.frame,
      nodesRenamed_frame helpers g M ps]
    congr 1
    split
    · rfl
    · cases path <;> simp only [renamedFieldPath, Node.frame, PathExpression.renamed_frame_path]
theorem SubExpression.renamed_frame_subExpression (helpers g : GoMap Helper)
    (M : List (String × String)) :
    ∀ n : SubExpression, (SubExpression.renamed helpers g M n).frame = n.frame
  | .mk e => by
    rw [SubExpression.renamed, SubExpression.frame, SubExpression.frame,
      Expression.renamed_frame_expression helpers g M e]
theorem Hash.renamed_frame_hash (helpers g : GoMap Helper) (M : List (String × String)) :
    ∀ n : Hash, (Hash.renamed helpers g M n).frame = n.frame
  | .mk ps => by
    rw [Hash.renamed, Hash.frame, Hash.frame, pairsRenamed_frame helpers g M ps]
theorem pairsRenamed_frame (helpers g : GoMap Helper) (M : List (String × String)) :
    ∀ ns : List HashPair, pairsFrame (pairsRenamed helpers g M ns) = pairsFrame ns
  | [] => by rw [pairsRenamed]
  | n :: ns => by
    rw [pairsRenamed, pairsFrame, pairsFrame, HashPair.renamed_frame_hashPair helpers g M n,
      pairsRenamed_frame helpers g M ns]
theorem HashPair.renamed_frame_hashPair (helpers g : GoMap Helper) (M : List (String × String)) :
    ∀ n : HashPair, (HashPair.renamed helpers g M n).frame = n.frame
  | .mk k val => by
    rw [HashPair.renamed, HashPair.frame, HashPair.frame, Node.renamed_frame_node helpers g M val]
end

/-- C23: the rename pass changes nothing but the raw text and the first
segment of path expressions.  On a parsed template `Rename` returns no error
and leaves a tree with the frame of the tree before: the same variants, the
same number and order of statements, parameters and hash pairs, the same
contents, comments, partial statements, literals and hashes of expressions,
and path expressions that differ at most in raw text and first segment; so
does every visit of the rename visitor, in any state.  A visit leaves a
partial statement, a content, a comment and a literal as they are, and an
expression with the hash it had; a path expression keeps its number of
segments and every segment after the first; and a path expression whose raw
text starts with no key and no escaped key of the mapping is left entirely as
it is. -/
theorem Template.Rename_frame (parser : Parser) (g : GoMap Helper) (tpl : Template)
    (M : List (String × String)) :
    (∀ prog : Program, tpl.program = some prog →
        ∃ prog' : Program,
          tpl.Rename parser g M = (.returned none, tpl.setProgram (some prog')) ∧
            prog'.frame = prog.frame) ∧
      (∀ (v : renameVisitor) (n : Node), (renameVisitor.Accept g v n).2.2.frame = n.frame) ∧
      (∀ (v : renameVisitor) (a : PartialStatement) (b : ContentStatement)
        (c : CommentStatement) (d : StringLiteral) (e : BooleanLiteral) (f : NumberLiteral),
        (renameVisitor.Accept g v (.partialStatement a)).2.2 = .partialStatement a ∧
          (renameVisitor.Accept g v (.content b)).2.2 = .content b ∧
          (renameVisitor.Accept g v (.comment c)).2.2 = .comment c ∧
          (renameVisitor.Accept g v (.string d)).2.2 = .string d ∧
          (renameVisitor.Accept g v (.boolean e)).2.2 = .boolean e ∧
          (renameVisitor.Accept g v (.number f)).2.2 = .number f) ∧
      (∀ (v : renameVisitor) (path : Node) (params : List Node) (hash : Option Hash),
        ∃ (path' : Node) (params' : List Node),
          (renameVisitor.VisitExpression g v (.mk path params hash)).2.2 =
            .mk path' params' hash) ∧
      (∀ (v : renameVisitor) (p : PathExpression),
        (v.VisitPath p).2.Parts.length = p.Parts.length ∧
          (v.VisitPath p).2.Parts.tail = p.Parts.tail) ∧
      (∀ (v : renameVisitor) (p : PathExpression), p.untouchedBy v.variables_ →
        (v.VisitPath p).2 = p ∧
          (renameVisitor.Accept g v (.path p)).2.2 = .path p) := by
  refine ⟨?_, ?_, ?_, ?_, ?_, ?_⟩
  · intro prog hp
    exact ⟨_, Template.Rename_eq_renamed parser g tpl M prog hp,
      Program.renamed_frame_program tpl.helpers g M prog⟩
  · intro v n
    rw [(renameVisitor.Accept_yields g n v).2.2.2]
    exact Node.renamed_frame_node _ g _ n
  · intro v a b c d e f
    refine ⟨?_, ?_, ?_, ?_, ?_, ?_⟩ <;>
      rw [(renameVisitor.Accept_yields g _ v).2.2.2, Node.renamed]
  · intro v path params hash
    rw [(renameVisitor.VisitExpression_yields g (.mk path params hash) v).2.2.2,
      Expression.renamed]
    exact ⟨_, _, rfl⟩
  · intro v p
    rw [renameVisitor.VisitPath_eq_renamed]
    exact (PathExpression.frame_eq_iff _ _).1 (PathExpression.renamed_frame_path _ p)
  · intro v p h
    rw [(renameVisitor.Accept_yields g (.path p) v).2.2.2, Node.renamed,
      renameVisitor.VisitPath_eq_renamed, PathExpression.renamed_of_untouched _ p h]
    exact ⟨rfl, rfl⟩

theorem Template.Rename_frame_witness :
    userTemplate.Rename noParser [] [("user", "customer")] =
        (.returned none, userTemplate.setProgram (some (.mk []
          [.mustache (.mk (.mk (.path ⟨"customer.name", ["customer", "name"]⟩) []
              (some (.mk [.mk "key" (.path ⟨"user.id", ["user", "id"]⟩)])))),
            .partialStatement (.mk (.path ⟨"user", ["user"]⟩)
              [.path ⟨"user.id", ["user", "id"]⟩] none),
            .mustache (.mk (.mk (.path ⟨"other", ["other"]⟩) [] none))]))) ∧
      (∃ prog' : Program,
        userTemplate.Rename noParser [] [("user", "customer")] =
            (.returned none, userTemplate.setProgram (some prog')) ∧
          prog'.frame = userProgram.frame) ∧
      ((newRenameVisitor userTemplate [("user", "customer")]).VisitPath
        ⟨"other", ["other"]⟩).2 = ⟨"other", ["other"]⟩ :=
  ⟨rfl,
    (Template.Rename_frame noParser [] userTemplate [("user", "customer")]).1 userProgram rfl,
    ((Template.Rename_frame noParser [] userTemplate [("user", "customer")]).2.2.2.2.2
      (newRenameVisitor userTemplate [("user", "customer")]) ⟨"other", ["other"]⟩
      (fun kv hkv => by
        have : kv = ("user", "customer") := by simpa [newRenameVisitor] using hkv
        subst this
        exact ⟨by decide, by decide⟩)).1⟩

/-! ## Parsing before the walk -/

theorem Template.parse_of_absent_error {tpl : Template} {parser : Parser} {err : String}
    (h : tpl.program = none) (hp : parser tpl.source tpl.unescaped = .error err) :
    tpl.parse parser = (some err, tpl) := by
  simp [Template.parse, h, hp]

theorem Template.parse_of_absent_ok {tpl : Template} {parser : Parser} {prog : Program}
    (h : tpl.program = none) (hp : parser tpl.source tpl.unescaped = .ok prog) :
    tpl.parse parser = (none, tpl.setProgram (some prog)) := by
  simp [Template.parse, h, hp]

theorem Template.parse_program (parser : Parser) (tpl t : Template)
    (h : tpl.parse parser = (none, t)) : ∃ prog, t.program = some prog := by
  unfold Template.parse at h
  cases hp : tpl.program with
  | some prog =>
    simp only [hp, Prod.mk.injEq, true_and] at h
    exact ⟨prog, h ▸ hp⟩
  | none =>
    simp only [hp] at h
    cases hq : parser tpl.source tpl.unescaped with
    | error e => simp [hq] at h
    | ok prog =>
      simp only [hq, Prod.mk.injEq, true_and] at h
      exact ⟨prog, h ▸ Template.setProgram_program tpl _⟩

theorem Template.RegisterHelper_program (ev : EnsureValidHelper) (tpl : Template)
    (name : String) (helper : Helper) :
    (tpl.RegisterHelper ev name helper).2.program = tpl.program := by
  obtain ⟨s, p, h, ps, u⟩ := tpl
  unfold Template.RegisterHelper
  split
  · rfl
  · split <;> rfl

theorem Template.addPartial_program (tpl : Template) (name source : String)
    (template : Option Template) :
    (tpl.addPartial name source template).2.program = tpl.program := by
  obtain ⟨s, p, h, ps, u⟩ := tpl
  unfold Template.addPartial
  split
  · rfl
  · split <;> rfl

theorem cloneHelpers_program (ev : EnsureValidHelper) (hs : GoMap Helper) :
    ∀ result c : Template, cloneHelpers ev result hs = .returned c →
      c.program = result.program := by
  induction hs with
  | nil =>
    intro result c h
    simp only [cloneHelpers, Outcome.returned.injEq] at h
    rw [h]
  | cons nh rest ih =>
    intro result c h
    obtain ⟨name, helper⟩ := nh
    rw [cloneHelpers] at h
    have hprog := Template.RegisterHelper_program ev result name helper
    generalize result.RegisterHelper ev name helper = r at h hprog
    obtain ⟨o, t⟩ := r
    cases o with
    | panicked p => simp at h
    | returned u => exact (ih t c h).trans hprog

theorem clonePartials_program (ps : GoMap Partial) :
    ∀ result c : Template, clonePartials result ps = .returned c →
      c.program = result.program := by
  induction ps with
  | nil =>
    intro result c h
    simp only [clonePartials, Outcome.returned.injEq] at h
    rw [h]
  | cons np rest ih =>
    intro result c h
    obtain ⟨name, part⟩ := np
    rw [clonePartials] at h
    have hprog := Template.addPartial_program result name part.source part.tpl
    generalize result.addPartial name part.source part.tpl = r at h hprog
    obtain ⟨o, t⟩ := r
    cases o with
    | panicked p => simp at h
    | returned u => exact (ih t c h).trans hprog

theorem Template.Clone_program (ev : EnsureValidHelper) (tpl c : Template)
    (h : tpl.Clone ev = .returned c) : c.program = tpl.program := by
  unfold Template.Clone at h
  simp only at h
  cases hc : cloneHelpers ev ((newTemplate tpl.source tpl.unescaped).setProgram tpl.program)
      tpl.helpers with
  | panicked p => simp [hc] at h
  | returned r =>
    simp only [hc] at h
    rw [clonePartials_program _ _ _ h, cloneHelpers_program ev _ _ _ hc,
      Template.setProgram_program]

theorem ParseTemplate_program (parser : Parser) (source : String) (unescaped : Bool)
    (t : Template) (h : ParseTemplate parser source unescaped = .ok t) :
    ∃ prog, t.program = some prog := by
  unfold ParseTemplate at h
  simp only at h
  generalize hr : (newTemplate source unescaped).parse parser = r at h
  obtain ⟨e, t'⟩ := r
  cases e with
  | some err => simp at h
  | none =>
    simp only [Except.ok.injEq] at h
    subst h
    exact Template.parse_program parser _ _ hr

theorem Template.Print_of_program {tpl : Template} {prog : Program}
    (h : tpl.program = some prog) : tpl.Print = .returned (PrintOriginal (.program prog)) := by
  simp [Template.Print, h]

/-- C17, as the code has it: `ExecWith`, `Validate` and `Rename` parse on first
use: on a template whose tree has not been produced they return the parse
error when parsing fails (the template is left without tree), and otherwise
do what they do on the template with the parsed tree; on a template whose
tree exists, the result of none of them depends on the parser, so none parses
again.  `Print` never parses: it prints the tree the template has, and on a
template without tree it runs into a nil dereference.  Every template a
constructor hands out has its tree: `ParseTemplate`, `Parse` and
`ParseUnescaped` parse before they return, a partial produces its template by
`ParseTemplate`, and `Clone` passes the tree on; so on those `Print` walks a
tree that is there. -/
theorem Template.parse_on_first_use {Ctx Data : Type} (parser : Parser) (g : GoMap Helper)
    (eval : Evaluator Ctx Data) (tpl : Template) (V : List String)
    (M : List (String × String)) (ctx : Ctx) (privData : Option Data) :
    (∀ err : String, tpl.program = none → parser tpl.source tpl.unescaped = .error err →
        tpl.Validate parser g V = (.returned (some (Err.couldNotBeParsed err)), tpl) ∧
          tpl.Rename parser g M = (.returned (some (Err.couldNotBeParsed err)), tpl) ∧
          tpl.ExecWith parser eval ctx privData =
            (.returned ("", some (Err.parser err)), tpl)) ∧
      (∀ prog : Program, tpl.program = none → parser tpl.source tpl.unescaped = .ok prog →
        tpl.Validate parser g V = (tpl.setProgram (some prog)).Validate parser g V ∧
          tpl.Rename parser g M = (tpl.setProgram (some prog)).Rename parser g M ∧
          tpl.ExecWith parser eval ctx privData =
            (tpl.setProgram (some prog)).ExecWith parser eval ctx privData) ∧
      (∀ prog : Program, tpl.program = some prog →
        (∀ parser' : Parser,
          tpl.Validate parser' g V = tpl.Validate parser g V ∧
            tpl.Rename parser' g M = tpl.Rename parser g M ∧
            tpl.ExecWith parser' eval ctx privData = tpl.ExecWith parser eval ctx privData) ∧
          (tpl.Validate parser g V).2 = tpl ∧
          (∃ prog', (tpl.Rename parser g M).2.program = some prog') ∧
          tpl.Print = .returned (PrintOriginal (.program prog))) ∧
      (tpl.program = none → tpl.Print = .panicked (.runtimeError "nil pointer dereference")) ∧
      (∀ (source : String) (unescaped : Bool) (t : Template),
        ParseTemplate parser source unescaped = .ok t ∨
            (unescaped = false ∧ Parse parser source = .ok t) ∨
            (unescaped = true ∧ ParseUnescaped parser source = .ok t) →
          ∃ prog, t.program = some prog ∧
            t.Print = .returned (PrintOriginal (.program prog))) ∧
      (∀ (p p' : Partial) (t : Template), p.tpl = none →
        Partial.template parser p = (.ok t, p') →
          p'.tpl = some t ∧ ∃ prog, t.program = some prog) ∧
      (∀ (ev : EnsureValidHelper) (c : Template), tpl.Clone ev = .returned c →
        c.program = tpl.program ∧ c.Print = tpl.Print) := by
  refine ⟨?_, ?_, ?_, ?_, ?_, ?_, ?_⟩
  · intro err h hp
    simp [Template.Validate, Template.Rename, Template.ExecWith,
      Template.parse_of_absent_error h hp, errRecover]
  · intro prog h hp
    have hq := Template.parse_of_program (Template.setProgram_program tpl (some prog)) parser
    simp only [Template.Validate, Template.Rename, Template.ExecWith,
      Template.parse_of_absent_ok h hp, hq]
    exact ⟨trivial, trivial, trivial⟩
  · intro prog h
    refine ⟨fun parser' => ?_, ?_, ?_, Template.Print_of_program h⟩
    · simp only [Template.Validate, Template.Rename, Template.ExecWith,
        Template.parse_of_program h]
      exact ⟨trivial, trivial, trivial⟩
    · simp only [Template.Validate, Template.parse_of_program h, h]
    · rw [Template.Rename_eq_renamed parser g tpl M prog h]
      exact ⟨_, Template.setProgram_program tpl _⟩
  · intro h
    simp [Template.Print, h]
  · intro source unescaped t h
    have ht : ParseTemplate parser source unescaped = .ok t := by
      rcases h with h | ⟨hu, h⟩ | ⟨hu, h⟩
      · exact h
      · subst hu; exact h
      · subst hu; exact h
    obtain ⟨prog, hprog⟩ := ParseTemplate_program parser source unescaped t ht
    exact ⟨prog, hprog, Template.Print_of_program hprog⟩
  · intro p p' t hp h
    unfold Partial.template at h
    simp only [hp] at h
    cases hq : ParseTemplate parser p.source p.unescaped with
    | error e => simp [hq] at h
    | ok t' =>
      simp only [hq, Prod.mk.injEq, Except.ok.injEq] at h
      obtain ⟨h1, h2⟩ := h
      subst h1
      refine ⟨?_, ParseTemplate_program parser _ _ _ hq⟩
      rw [← h2]
      cases p
      rfl
  · intro ev c h
    have hc := Template.Clone_program ev tpl c h
    refine ⟨hc, ?_⟩
    simp only [Template.Print, hc]

theorem Template.parse_on_first_use_witness :
    (newTemplate "Hello {{name}}" false).Validate helloParser [] ["name"] =
        (helloTemplate.Validate helloParser [] ["name"]) ∧
      (newTemplate "Bye {{name}}" false).Validate helloParser [] ["name"] =
        (.returned (some (Err.couldNotBeParsed "parse error")), newTemplate "Bye {{name}}" false) ∧
      helloTemplate.Rename noParser [] [("name", "title")] =
        helloTemplate.Rename helloParser [] [("name", "title")] ∧
      (∃ prog, helloTemplate.program = some prog ∧
        helloTemplate.Print = .returned (PrintOriginal (.program prog))) ∧
      ParseTemplate helloParser "Hello {{name}}" false = .ok helloTemplate :=
  ⟨((Template.parse_on_first_use helloParser [] helloEvaluator
      (newTemplate "Hello {{name}}" false) ["name"] [] () none).2.1 helloProgram rfl rfl).1,
    ((Template.parse_on_first_use helloParser [] helloEvaluator
      (newTemplate "Bye {{name}}" false) ["name"] [] () none).1 "parse error" rfl rfl).1,
    (((Template.parse_on_first_use helloParser [] helloEvaluator helloTemplate ["name"]
      [("name", "title")] () none).2.2.1 helloProgram rfl).1 noParser).2.1,
    (Template.parse_on_first_use helloParser [] helloEvaluator helloTemplate ["name"]
      [] () none).2.2.2.2.1 "Hello {{name}}" false helloTemplate (Or.inl rfl),
    rfl⟩

/-! ## Cloning, with the registries held by reference -/

theorem Heap.helpersAt_putHelper_ne (H : Heap) {a b : Nat} (h : b ≠ a) (name : String)
    (val : Helper) : (H.putHelper a name val).helpersAt b = H.helpersAt b := by
  simp [Heap.helpersAt, Heap.putHelper, List.getD_eq_getElem?_getD,
    List.getElem?_set_ne (Ne.symm h)]

theorem Heap.helpersAt_putHelper_self (H : Heap) {a : Nat} (h : a < H.helperMaps.length)
    (name : String) (val : Helper) :
    (H.putHelper a name val).helpersAt a = (H.helpersAt a).set name val := by
  simp [Heap.helpersAt, Heap.putHelper, List.getD_eq_getElem?_getD, h]

theorem Heap.partialsAt_putPartial_ne (H : Heap) {a b : Nat} (h : b ≠ a) (name : String)
    (p : PartialRef) : (H.putPartial a name p).partialsAt b = H.partialsAt b := by
  simp [Heap.partialsAt, Heap.putPartial, List.getD_eq_getElem?_getD,
    List.getElem?_set_ne (Ne.symm h)]

theorem Heap.partialsAt_putPartial_self (H : Heap) {a : Nat} (h : a < H.partialMaps.length)
    (name : String) (p : PartialRef) :
    (H.putPartial a name p).partialsAt a = (H.partialsAt a).set name p := by
  simp [Heap.partialsAt, Heap.putPartial, List.getD_eq_getElem?_getD, h]


theorem Heap.length_putHelper (H : Heap) (a : Nat) (name : String) (val : Helper) :
    (H.putHelper a name val).helperMaps.length = H.helperMaps.length := by
  simp [Heap.putHelper]

theorem Heap.length_putPartial (H : Heap) (a : Nat) (name : String) (p : PartialRef) :
    (H.putPartial a name p).partialMaps.length = H.partialMaps.length := by
  simp [Heap.putPartial]

theorem TemplateRef.RegisterHelper_frame (ev : EnsureValidHelper) (H : Heap)
    (tpl : TemplateRef) (name : String) (helper : Helper) :
    (∀ b, b ≠ tpl.helpers →
        (tpl.RegisterHelper ev H name helper).2.helpersAt b = H.helpersAt b) ∧
      (tpl.RegisterHelper ev H name helper).2.partialMaps = H.partialMaps ∧
      (tpl.RegisterHelper ev H name helper).2.helperMaps.length = H.helperMaps.length := by
  unfold TemplateRef.RegisterHelper
  split
  · exact ⟨fun _ _ => rfl, rfl, rfl⟩
  · split
    · exact ⟨fun _ _ => rfl, rfl, rfl⟩
    · exact ⟨fun b hb => Heap.helpersAt_putHelper_ne H hb _ _, rfl,
        Heap.length_putHelper H _ _ _⟩

theorem TemplateRef.addPartial_frame (H : Heap) (tpl : TemplateRef) (name source : String)
    (template : Option TemplateRef) :
    (∀ b, b ≠ tpl.partials →
        (tpl.addPartial H name source template).2.partialsAt b = H.partialsAt b) ∧
      (tpl.addPartial H name source template).2.helperMaps = H.helperMaps ∧
      (tpl.addPartial H name source template).2.partialMaps.length =
        H.partialMaps.length := by
  unfold TemplateRef.addPartial
  split
  · exact ⟨fun _ _ => rfl, rfl, rfl⟩
  · split
    · exact ⟨fun _ _ => rfl, rfl, rfl⟩
    · exact ⟨fun b hb => Heap.partialsAt_putPartial_ne H hb _ _, rfl,
        Heap.length_putPartial H _ _ _⟩

theorem Heap.helpersAt_of_helperMaps {H H' : Heap} (h : H'.helperMaps = H.helperMaps)
    (a : Nat) : H'.helpersAt a = H.helpersAt a := by
  simp [Heap.helpersAt, h]

theorem Heap.partialsAt_of_partialMaps {H H' : Heap} (h : H'.partialMaps = H.partialMaps)
    (a : Nat) : H'.partialsAt a = H.partialsAt a := by
  simp [Heap.partialsAt, h]

theorem TemplateRef.register_frame (ev : EnsureValidHelper) (H : Heap) (tpl : TemplateRef)
    (op : Registration) :
    (∀ b, b ≠ tpl.helpers → (tpl.register ev H op).2.helpersAt b = H.helpersAt b) ∧
      (∀ b, b ≠ tpl.partials → (tpl.register ev H op).2.partialsAt b = H.partialsAt b) := by
  cases op with
  | helper name helper =>
    have h := TemplateRef.RegisterHelper_frame ev H tpl name helper
    exact ⟨h.1, fun b _ => Heap.partialsAt_of_partialMaps h.2.1 b⟩
  | partialSource name source =>
    have h := TemplateRef.addPartial_frame H tpl name source none
    exact ⟨fun b _ => Heap.helpersAt_of_helperMaps h.2.1 b, h.1⟩
  | partialTemplate name template =>
    have h := TemplateRef.addPartial_frame H tpl name "" template
    exact ⟨fun b _ => Heap.helpersAt_of_helperMaps h.2.1 b, h.1⟩

theorem TemplateRef.registerAll_frame (ev : EnsureValidHelper) (tpl : TemplateRef)
    (ops : List Registration) :
    ∀ H : Heap,
      (∀ b, b ≠ tpl.helpers → (tpl.registerAll ev H ops).helpersAt b = H.helpersAt b) ∧
        (∀ b, b ≠ tpl.partials →
          (tpl.registerAll ev H ops).partialsAt b = H.partialsAt b) := by
  induction ops with
  | nil => exact fun H => ⟨fun _ _ => rfl, fun _ _ => rfl⟩
  | cons op rest ih =>
    intro H
    have h := TemplateRef.register_frame ev H tpl op
    have h' := ih (tpl.register ev H op).2
    rw [TemplateRef.registerAll]
    exact ⟨fun b hb => (h'.1 b hb).trans (h.1 b hb),
      fun b hb => (h'.2 b hb).trans (h.2 b hb)⟩

theorem cloneHelpersRef_eq (ev : EnsureValidHelper) (r : TemplateRef) :
    ∀ (L : GoMap Helper) (H : Heap), r.helpers < H.helperMaps.length →
      ((H.helpersAt r.helpers).map Prod.fst ++ L.map Prod.fst).Nodup →
      (∀ nh ∈ L, ev nh.1 nh.2 = none) →
      ∃ H' : Heap, cloneHelpersRef ev r H L = (.returned (), H') ∧
        H'.helpersAt r.helpers = H.helpersAt r.helpers ++ L ∧
        (∀ b, b ≠ r.helpers → H'.helpersAt b = H.helpersAt b) ∧
        H'.partialMaps = H.partialMaps ∧ H'.helperMaps.length = H.helperMaps.length := by
  intro L
  induction L with
  | nil =>
    intro H _ _ _
    exact ⟨H, rfl, by simp, fun _ _ => rfl, rfl, rfl⟩
  | cons a rest ih =>
    intro H hlt hnd hvalid
    obtain ⟨name, helper⟩ := a
    have hnot : name ∉ (H.helpersAt r.helpers).map Prod.fst := by
      intro hm
      exact (List.nodup_append.1 hnd).2.2 hm (by simp)
    have hget : (r.findHelper H name).isSome = false := by
      rw [TemplateRef.findHelper, GoMap.get_of_not_mem _ _ hnot]; rfl
    have hv : ev name helper = none := hvalid (name, helper) (by simp)
    have hstep : r.RegisterHelper ev H name helper =
        (.returned (), H.putHelper r.helpers name helper) := by
      simp [TemplateRef.RegisterHelper, hget, hv]
    have hself : (H.putHelper r.helpers name helper).helpersAt r.helpers =
        H.helpersAt r.helpers ++ [(name, helper)] := by
      rw [Heap.helpersAt_putHelper_self H hlt, GoMap.set_of_not_mem _ _ _ hnot]
    obtain ⟨H', h1, h2, h3, h4, h5⟩ := ih (H.putHelper r.helpers name helper)
      (by rw [Heap.length_putHelper]; exact hlt)
      (by rw [hself]; simpa [List.append_assoc] using hnd)
      (fun nh hnh => hvalid nh (List.mem_cons_of_mem _ hnh))
    refine ⟨H', ?_, ?_, ?_, ?_, ?_⟩
    · rw [cloneHelpersRef, hstep]
      exact h1
    · rw [h2, hself]; simp
    · intro b hb
      rw [h3 b hb, Heap.helpersAt_putHelper_ne H hb]
    · rw [h4]; rfl
    · rw [h5, Heap.length_putHelper]

theorem clonePartialsRef_eq (r : TemplateRef) :
    ∀ (L : GoMap PartialRef) (H : Heap), r.partials < H.partialMaps.length →
      ((H.partialsAt r.partials).map Prod.fst ++ L.map Prod.fst).Nodup →
      (∀ np ∈ L, np.2.tpl.isSome = true) →
      ∃ H' : Heap, clonePartialsRef r H L = (.returned (), H') ∧
        H'.partialsAt r.partials = H.partialsAt r.partials ++ L.map clonedPartialRef ∧
        (∀ b, b ≠ r.partials → H'.partialsAt b = H.partialsAt b) ∧
        H'.helperMaps = H.helperMaps ∧ H'.partialMaps.length = H.partialMaps.length := by
  intro L
  induction L with
  | nil =>
    intro H _ _ _
    exact ⟨H, rfl, by simp, fun _ _ => rfl, rfl, rfl⟩
  | cons a rest ih =>
    intro H hlt hnd hown
    obtain ⟨name, part⟩ := a
    have hnot : name ∉ (H.partialsAt r.partials).map Prod.fst := by
      intro hm
      exact (List.nodup_append.1 hnd).2.2 hm (by simp)
    have hget : (r.findPartial H name).isSome = false := by
      rw [TemplateRef.findPartial, GoMap.get_of_not_mem _ _ hnot]; rfl
    obtain ⟨t, ht⟩ := Option.isSome_iff_exists.1 (hown (name, part) (by simp))
    simp only at ht
    have hstep : r.addPartial H name part.source part.tpl =
        (.returned (), H.putPartial r.partials name (clonedPartialRef (name, part)).2) := by
      simp [TemplateRef.addPartial, hget, ht, newPartialRef, clonedPartialRef]
    have hself : (H.putPartial r.partials name (clonedPartialRef (name, part)).2).partialsAt
        r.partials = H.partialsAt r.partials ++ [clonedPartialRef (name, part)] := by
      rw [Heap.partialsAt_putPartial_self H hlt, GoMap.set_of_not_mem _ _ _ hnot]
      rfl
    obtain ⟨H', h1, h2, h3, h4, h5⟩ :=
      ih (H.putPartial r.partials name (clonedPartialRef (name, part)).2)
      (by rw [Heap.length_putPartial]; exact hlt)
      (by rw [hself]; simpa [List.append_assoc, clonedPartialRef] using hnd)
      (fun np hnp => hown np (List.mem_cons_of_mem _ hnp))
    refine ⟨H', ?_, ?_, ?_, ?_, ?_⟩
    · rw [clonePartialsRef, hstep]
      exact h1
    · rw [h2, hself]; simp
    · intro b hb
      rw [h3 b hb, Heap.partialsAt_putPartial_ne H hb]
    · rw [h4]; rfl
    · rw [h5, Heap.length_putPartial]

theorem lookup_map_clonedPartialRef (L : GoMap PartialRef) (name : String) :
    GoMap.get (L.map clonedPartialRef) name =
      (GoMap.get L name).map (fun p => (clonedPartialRef (name, p)).2) := by
  induction L with
  | nil => rfl
  | cons a rest ih =>
    obtain ⟨k, p⟩ := a
    by_cases hk : name = k
    · subst hk
      simp [GoMap.get, List.lookup, clonedPartialRef]
    · have : (name == k) = false := by simpa using hk
      simp only [GoMap.get, List.map_cons, clonedPartialRef, List.lookup, this]
      exact ih


theorem newTemplateRef_eq (H : Heap) (source : String) (unescaped : Bool) :
    newTemplateRef H source unescaped =
      (⟨source, none, H.helperMaps.length, H.partialMaps.length, unescaped⟩,
        ⟨H.helperMaps ++ [[]], H.partialMaps ++ [[]]⟩) := rfl

theorem Heap.helpersAt_append (hm : List (GoMap Helper)) (pm : List (GoMap PartialRef))
    (x : GoMap Helper) (y : GoMap PartialRef) (a : Nat) :
    (a < hm.length → (Heap.mk (hm ++ [x]) (pm ++ [y])).helpersAt a = (Heap.mk hm pm).helpersAt a) ∧
      (Heap.mk (hm ++ [x]) (pm ++ [y])).helpersAt hm.length = x ∧
      (a < pm.length →
        (Heap.mk (hm ++ [x]) (pm ++ [y])).partialsAt a = (Heap.mk hm pm).partialsAt a) ∧
      (Heap.mk (hm ++ [x]) (pm ++ [y])).partialsAt pm.length = y := by
  refine ⟨fun h => ?_, ?_, fun h => ?_, ?_⟩
  · simp [Heap.helpersAt, List.getD_eq_getElem?_getD, List.getElem?_append_left h]
  · simp [Heap.helpersAt, List.getD_eq_getElem?_getD]
  · simp [Heap.partialsAt, List.getD_eq_getElem?_getD, List.getElem?_append_left h]
  · simp [Heap.partialsAt, List.getD_eq_getElem?_getD]

/-- C15: for a template whose registries are Go maps in the heap (no name
twice), whose helpers pass `ensureValidHelper` (they did when they were
registered) and whose partials all own a template (the only kind a
registration that completes leaves behind), `Clone` completes and returns a
template with the same source, flag and tree, whose helper map has the same
entries, and whose partial map has the same names, each mapped to a partial of
that name with the same source and the same owned template.  The two maps of
the clone are new ones: `Clone` leaves every map that was in the heap, those
of `t` among them, as it was, and so does every sequence of registrations
that is made on the clone afterwards. -/
theorem TemplateRef.Clone_independent (ensureValidHelper : EnsureValidHelper) (H : Heap)
    (t : TemplateRef)
    (hh : t.helpers < H.helperMaps.length) (hp : t.partials < H.partialMaps.length)
    (hk : ((H.helpersAt t.helpers).map Prod.fst).Nodup)
    (hv : ∀ nh ∈ H.helpersAt t.helpers, ensureValidHelper nh.1 nh.2 = none)
    (pk : ((H.partialsAt t.partials).map Prod.fst).Nodup)
    (pt : ∀ np ∈ H.partialsAt t.partials, np.2.tpl.isSome = true) :
    ∃ (c : TemplateRef) (H' : Heap), t.Clone ensureValidHelper H = (.returned c, H') ∧
      c.source = t.source ∧ c.unescaped = t.unescaped ∧ c.program = t.program ∧
      H'.helpersAt c.helpers = H.helpersAt t.helpers ∧
      (∀ name : String, c.findHelper H' name = t.findHelper H name) ∧
      (H'.partialsAt c.partials).map Prod.fst = (H.partialsAt t.partials).map Prod.fst ∧
      (∀ (name : String) (p : PartialRef), t.findPartial H name = some p →
        ∃ p', c.findPartial H' name = some p' ∧ p'.name = name ∧ p'.source = p.source ∧
          p'.tpl = p.tpl) ∧
      c.helpers ≠ t.helpers ∧ c.partials ≠ t.partials ∧
      (∀ a, a < H.helperMaps.length → H'.helpersAt a = H.helpersAt a) ∧
      (∀ a, a < H.partialMaps.length → H'.partialsAt a = H.partialsAt a) ∧
      (∀ ops : List Registration,
        (c.registerAll ensureValidHelper H' ops).helpersAt t.helpers =
            H.helpersAt t.helpers ∧
          (c.registerAll ensureValidHelper H' ops).partialsAt t.partials =
            H.partialsAt t.partials ∧
          ∀ name : String,
            t.findHelper (c.registerAll ensureValidHelper H' ops) name =
                t.findHelper H name ∧
              t.findPartial (c.registerAll ensureValidHelper H' ops) name =
                t.findPartial H name) := by
  obtain ⟨hm, pm⟩ := H
  obtain ⟨src, prog, th, tp, unesc⟩ := t
  simp only at hh hp hk hv pk pt
  have e1 := (Heap.helpersAt_append hm pm [] [] th).1 hh
  have e2 := (Heap.helpersAt_append hm pm [] [] th).2.1
  have e3 := (Heap.helpersAt_append hm pm [] [] tp).2.2.1 hp
  have e4 := (Heap.helpersAt_append hm pm [] [] tp).2.2.2
  obtain ⟨H1, a1, a2, a3, a4, a5⟩ := cloneHelpersRef_eq ensureValidHelper
    ⟨src, prog, hm.length, pm.length, unesc⟩ ((Heap.mk hm pm).helpersAt th)
    ⟨hm ++ [[]], pm ++ [[]]⟩ (by simp) (by simpa [e2] using hk) hv
  simp only [e2, List.nil_append] at a2
  have hp1 : H1.partialsAt tp = (Heap.mk hm pm).partialsAt tp := by
    rw [Heap.partialsAt_of_partialMaps a4, e3]
  have hp1c : H1.partialsAt pm.length = [] := by
    rw [Heap.partialsAt_of_partialMaps a4, e4]
  obtain ⟨H2, b1, b2, b3, b4, b5⟩ := clonePartialsRef_eq
    ⟨src, prog, hm.length, pm.length, unesc⟩ ((Heap.mk hm pm).partialsAt tp) H1
    (by rw [a4]; simp) (by simpa [hp1c] using pk) pt
  simp only [hp1c, List.nil_append] at b2
  have hne1 : hm.length ≠ th := Nat.ne_of_gt hh
  have hne2 : pm.length ≠ tp := Nat.ne_of_gt hp
  have old1 : ∀ a, a < hm.length → H2.helpersAt a = (Heap.mk hm pm).helpersAt a := by
    intro a ha
    rw [Heap.helpersAt_of_helperMaps b4, a3 a (Nat.ne_of_lt ha),
      (Heap.helpersAt_append hm pm [] [] a).1 ha]
  have old2 : ∀ a, a < pm.length → H2.partialsAt a = (Heap.mk hm pm).partialsAt a := by
    intro a ha
    rw [b3 a (Nat.ne_of_lt ha), Heap.partialsAt_of_partialMaps a4,
      (Heap.helpersAt_append hm pm [] [] a).2.2.1 ha]
  have hc1 : H2.helpersAt hm.length = (Heap.mk hm pm).helpersAt th := by
    rw [Heap.helpersAt_of_helperMaps b4, a2]
  refine ⟨⟨src, prog, hm.length, pm.length, unesc⟩, H2, ?_, rfl, rfl, rfl, hc1, ?_, ?_, ?_,
    hne1, hne2, old1, old2, ?_⟩
  · simp only [TemplateRef.Clone, newTemplateRef_eq, e1, a1, hp1, b1]
  · intro name
    simp only [TemplateRef.findHelper, hc1]
  · rw [b2]
    simp [clonedPartialRef, List.map_map, Function.comp_def]
  · intro name p hfind
    simp only [TemplateRef.findPartial] at hfind ⊢
    rw [b2, lookup_map_clonedPartialRef, hfind]
    exact ⟨_, rfl, rfl, rfl, rfl⟩
  · intro ops
    have hf := TemplateRef.registerAll_frame ensureValidHelper
      ⟨src, prog, hm.length, pm.length, unesc⟩ ops H2
    have r1 := (hf.1 th (Ne.symm hne1)).trans (old1 th hh)
    have r2 := (hf.2 tp (Ne.symm hne2)).trans (old2 tp hp)
    refine ⟨r1, r2, fun name => ?_⟩
    simp only [TemplateRef.findHelper, TemplateRef.findPartial] at r1 r2 ⊢
    rw [r1, r2]
    exact ⟨rfl, rfl⟩

theorem TemplateRef.Clone_independent_witness :
    pageRef.Clone anyHelperValid pageHeap =
        (.returned ⟨"Hello {{name}}", some helloProgram, 2, 2, false⟩,
          ⟨[[("now", ⟨7⟩)], [], [("now", ⟨7⟩)]],
            [[("footer", ⟨"footer", "", some helloRef, false⟩)], [],
              [("footer", ⟨"footer", "", some helloRef, false⟩)]]⟩) ∧
      (∃ (c : TemplateRef) (H' : Heap),
        pageRef.Clone anyHelperValid pageHeap = (.returned c, H') ∧
          c.helpers ≠ pageRef.helpers ∧ c.partials ≠ pageRef.partials ∧
          H'.helpersAt c.helpers = pageHeap.helpersAt pageRef.helpers ∧
          (c.registerAll anyHelperValid H'
              [.helper "extra" ⟨9⟩, .partialTemplate "side" (some helloRef)]).helpersAt
              pageRef.helpers = pageHeap.helpersAt pageRef.helpers ∧
          (c.registerAll anyHelperValid H'
              [.helper "extra" ⟨9⟩, .partialTemplate "side" (some helloRef)]).partialsAt
              pageRef.partials = pageHeap.partialsAt pageRef.partials) ∧
      (TemplateRef.mk "Hello {{name}}" (some helloProgram) 2 2 false).findHelper
          ((TemplateRef.mk "Hello {{name}}" (some helloProgram) 2 2 false).registerAll
            anyHelperValid
            ⟨[[("now", ⟨7⟩)], [], [("now", ⟨7⟩)]],
              [[("footer", ⟨"footer", "", some helloRef, false⟩)], [],
                [("footer", ⟨"footer", "", some helloRef, false⟩)]]⟩
            [.helper "extra" ⟨9⟩]) "extra" = some ⟨9⟩ := by
  refine ⟨rfl, ?_, by decide⟩
  obtain ⟨c, H', h1, -, -, -, h5, -, -, -, h9, h10, -, -, h13⟩ :=
    TemplateRef.Clone_independent anyHelperValid pageHeap pageRef (by decide) (by decide)
      (by decide) (fun _ _ => rfl) (by decide)
      (by intro np hnp
          have : np = ("footer", ⟨"footer", "", some helloRef, false⟩) := by
            simpa [pageHeap, pageRef, Heap.partialsAt] using hnp
          subst this
          rfl)
  exact ⟨c, H', h1, h9, h10, h5, (h13 _).1, (h13 _).2.1⟩

/-! ## The rename pass, whatever order each range takes -/

theorem RangeOrder.asListed_fair : RangeOrder.asListed.Fair :=
  fun _ m => List.Perm.refl m

theorem RangeOrder.turning_fair : RangeOrder.turning.Fair := by
  intro k m
  unfold RangeOrder.turning
  split
  · exact List.Perm.refl m
  · exact List.reverse_perm m

theorem renameVisitor.Agree.lift {α β : Type} {v : renameVisitor}
    {r r' : Option Err × renameVisitor × Nat × α} (h : renameVisitor.Agree v r r')
    (c : α → β) :
    renameVisitor.Agree v (r.1, r.2.1, r.2.2.1, c r.2.2.2) (r'.1, r'.2.1, r'.2.2.1, c r'.2.2.2) := by
  obtain ⟨h1, h2, h3, h4, h5, h6, h7⟩ := h
  exact ⟨h1, h2, h3, h4, h5, h6, by simp only [h7]⟩

theorem renameVisitor.Agree.rebase {α : Type} {v w : renameVisitor}
    {r r' : Option Err × renameVisitor × Nat × α} (h : renameVisitor.Agree w r r')
    (ht : w.tpl = v.tpl) (hm : w.variables_ = v.variables_) : renameVisitor.Agree v r r' := by
  obtain ⟨h1, h2, h3, h4, h5, h6, h7⟩ := h
  exact ⟨h1, h2, h3.trans ht, h4.trans hm, h5.trans ht, h6.trans hm, h7⟩

theorem renameVisitor.VisitPathAt_congr (order : RangeOrder) {v v' : renameVisitor}
    (hm : v.variables_ = v'.variables_) (k : Nat) (p : PathExpression) :
    renameVisitor.VisitPathAt order v k p = renameVisitor.VisitPathAt order v' k p := by
  simp only [renameVisitor.VisitPathAt, hm]

theorem renameVisitor.VisitPathAt_noError (order : RangeOrder) (v : renameVisitor) (k : Nat)
    (p : PathExpression) : (renameVisitor.VisitPathAt order v k p).1 = none := by
  unfold renameVisitor.VisitPathAt
  split <;> rfl

theorem renameVisitor.findHelper_congr (g : GoMap Helper) {v v' : renameVisitor}
    (ht : v.tpl = v'.tpl) (name : String) : v.findHelper g name = v'.findHelper g name := by
  simp only [renameVisitor.findHelper, ht]

mutual
theorem renameVisitor.AcceptAt_agree (g : GoMap Helper) (order : RangeOrder) :
    ∀ (n : Node) (v v' : renameVisitor) (k : Nat), v.tpl = v'.tpl →
      v.variables_ = v'.variables_ →
      renameVisitor.Agree v (renameVisitor.AcceptAt g order v k n)
        (renameVisitor.AcceptAt g order v' k n)
  | .program n, v, v', k, ht, hm => by
    rw [renameVisitor.AcceptAt, renameVisitor.AcceptAt]
    exact (renameVisitor.VisitProgramAt_agree g order n v v' k ht hm).lift Node.program
  | .mustache n, v, v', k, ht, hm => by
    rw [renameVisitor.AcceptAt, renameVisitor.AcceptAt]
    exact (renameVisitor.VisitMustacheAt_agree g order n v v' k ht hm).lift Node.mustache
  | .block n, v, v', k, ht, hm => by
    rw [renameVisitor.AcceptAt, renameVisitor.AcceptAt]
    exact (renameVisitor.VisitBlockAt_agree g order n v v' k ht hm).lift Node.block
  | .partialStatement n, v, v', k, ht, hm => by
    rw [renameVisitor.AcceptAt, renameVisitor.AcceptAt]
    exact ⟨rfl, rfl, rfl, rfl, ht.symm, hm.symm, rfl⟩
  | .content n, v, v', k, ht, hm => by
    rw [renameVisitor.AcceptAt, renameVisitor.AcceptAt]
    exact ⟨rfl, rfl, rfl, rfl, ht.symm, hm.symm, rfl⟩
  | .comment n, v, v', k, ht, hm => by
    rw [renameVisitor.AcceptAt, renameVisitor.AcceptAt]
    exact ⟨rfl, rfl, rfl, rfl, ht.symm, hm.symm, rfl⟩
  | .expression n, v, v', k, ht, hm => by
    rw [renameVisitor.AcceptAt, renameVisitor.AcceptAt]
    exact (renameVisitor.VisitExpressionAt_agree g order n v v' k ht hm).lift Node.expression
  | .subExpression n, v, v', k, ht, hm => by
    rw [renameVisitor.AcceptAt, renameVisitor.AcceptAt]
    exact (renameVisitor.VisitSubExpressionAt_agree g order n v v' k ht hm).lift
      Node.subExpression
  | .path n, v, v', k, ht, hm => by
    rw [renameVisitor.AcceptAt, renameVisitor.AcceptAt,
      ← renameVisitor.VisitPathAt_congr order hm k n]
    exact ⟨renameVisitor.VisitPathAt_noError order v k n,
      renameVisitor.VisitPathAt_noError order v k n, rfl, rfl, ht.symm, hm.symm, rfl⟩
  | .string n, v, v', k, ht, hm => by
    rw [renameVisitor.AcceptAt, renameVisitor.AcceptAt]
    exact ⟨rfl, rfl, rfl, rfl, ht.symm, hm.symm, rfl⟩
  | .boolean n, v, v', k, ht, hm => by
    rw [renameVisitor.AcceptAt, renameVisitor.AcceptAt]
    exact ⟨rfl, rfl, rfl, rfl, ht.symm, hm.symm, rfl⟩
  | .number n, v, v', k, ht, hm => by
    rw [renameVisitor.AcceptAt, renameVisitor.AcceptAt]
    exact ⟨rfl, rfl, rfl, rfl, ht.symm, hm.symm, rfl⟩
  | .hash n, v, v', k, ht, hm => by
    rw [renameVisitor.AcceptAt, renameVisitor.AcceptAt]
    exact (renameVisitor.VisitHashAt_agree g order n v v' k ht hm).lift Node.hash
  | .hashPair n, v, v', k, ht, hm => by
    rw [renameVisitor.AcceptAt, renameVisitor.AcceptAt]
    exact (renameVisitor.VisitHashPairAt_agree g order n v v' k ht hm).lift Node.hashPair
theorem renameVisitor.acceptEachAt_agree (g : GoMap Helper) (order : RangeOrder) :
    ∀ (ns : List Node) (v v' : renameVisitor) (k : Nat), v.tpl = v'.tpl →
      v.variables_ = v'.variables_ →
      renameVisitor.Agree v (renameVisitor.acceptEachAt g order v k ns)
        (renameVisitor.acceptEachAt g order v' k ns)
  | [], v, v', k, ht, hm => by
    rw [renameVisitor.acceptEachAt, renameVisitor.acceptEachAt]
    exact ⟨rfl, rfl, rfl, rfl, ht.symm, hm.symm, rfl⟩
  | n :: ns, v, v', k, ht, hm => by
    rw [renameVisitor.acceptEachAt, renameVisitor.acceptEachAt]
    have h1 := renameVisitor.AcceptAt_agree g order n v v' k ht hm
    generalize renameVisitor.AcceptAt g order v k n = r at h1
    generalize renameVisitor.AcceptAt g order v' k n = r' at h1
    obtain ⟨e, w, k1, n1⟩ := r
    obtain ⟨e', w', k1', n1'⟩ := r'
    obtain ⟨a1, a2, a3, a4, a5, a6, a7⟩ := h1
    simp only [Prod.mk.injEq] at a1 a2 a3 a4 a5 a6 a7
    obtain ⟨rfl, rfl⟩ := a7
    subst a1 a2
    exact ((renameVisitor.acceptEachAt_agree g order ns w w' k1 (a3.trans a5.symm)
      (a4.trans a6.symm)).rebase a3 a4).lift (fun ns' => n1 :: ns')
theorem renameVisitor.VisitProgramAt_agree (g : GoMap Helper) (order : RangeOrder) :
    ∀ (n : Program) (v v' : renameVisitor) (k : Nat), v.tpl = v'.tpl →
      v.variables_ = v'.variables_ →
      renameVisitor.Agree v (renameVisitor.VisitProgramAt g order v k n)
        (renameVisitor.VisitProgramAt g order v' k n)
  | .mk bp body, v, v', k, ht, hm => by
    rw [renameVisitor.VisitProgramAt, renameVisitor.VisitProgramAt]
    exact ((renameVisitor.acceptEachAt_agree g order body (v.at_ (.program (.mk bp body)))
      (v'.at_ (.program (.mk bp body))) k ht hm).rebase rfl rfl).lift (Program.mk bp)
theorem renameVisitor.VisitMustacheAt_agree (g : GoMap Helper) (order : RangeOrder) :
    ∀ (n : MustacheStatement) (v v' : renameVisitor) (k : Nat), v.tpl = v'.tpl →
      v.variables_ = v'.variables_ →
      renameVisitor.Agree v (renameVisitor.VisitMustacheAt g order v k n)
        (renameVisitor.VisitMustacheAt g order v' k n)
  | .mk e, v, v', k, ht, hm => by
    rw [renameVisitor.VisitMustacheAt, renameVisitor.VisitMustacheAt]
    exact ((renameVisitor.VisitExpressionAt_agree g order e (v.at_ (.mustache (.mk e)))
      (v'.at_ (.mustache (.mk e))) k ht hm).rebase rfl rfl).lift MustacheStatement.mk
theorem renameVisitor.VisitBlockAt_agree (g : GoMap Helper) (order : RangeOrder) :
    ∀ (n : BlockStatement) (v v' : renameVisitor) (k : Nat), v.tpl = v'.tpl →
      v.variables_ = v'.variables_ →
      renameVisitor.Agree v (renameVisitor.VisitBlockAt g order v k n)
        (renameVisitor.VisitBlockAt g order v' k n)
  | .mk e p i, v, v', k, ht, hm => by
    rw [renameVisitor.VisitBlockAt, renameVisitor.VisitBlockAt]
    have h1 := renameVisitor.VisitExpressionAt_agree g order e
      { v.at_ (.block (.mk e p i)) with
        blockStack := (v.at_ (.block (.mk e p i))).blockStack ++ [BlockStatement.mk e p i] }
      { v'.at_ (.block (.mk e p i)) with
        blockStack := (v'.at_ (.block (.mk e p i))).blockStack ++ [BlockStatement.mk e p i] }
      k ht hm
    generalize renameVisitor.VisitExpressionAt g order _ k e = r at h1
    generalize renameVisitor.VisitExpressionAt g order _ k e = r' at h1
    obtain ⟨e1, w, k1, n1⟩ := r
    obtain ⟨e1', w', k1', n1'⟩ := r'
    obtain ⟨a1, a2, a3, a4, a5, a6, a7⟩ := h1
    simp only [Prod.mk.injEq] at a1 a2 a3 a4 a5 a6 a7
    obtain ⟨rfl, rfl⟩ := a7
    subst a1 a2
    have h2 := renameVisitor.acceptIfPresentAt_agree g order p w w' k1 (a3.trans a5.symm)
      (a4.trans a6.symm)
    dsimp only
    generalize renameVisitor.acceptIfPresentAt g order w k1 p = r at h2
    generalize renameVisitor.acceptIfPresentAt g order w' k1 p = r' at h2
    obtain ⟨e2, w2, k2, n2⟩ := r
    obtain ⟨e2', w2', k2', n2'⟩ := r'
    obtain ⟨b1, b2, b3, b4, b5, b6, b7⟩ := h2
    simp only [Prod.mk.injEq] at b1 b2 b3 b4 b5 b6 b7
    obtain ⟨rfl, rfl⟩ := b7
    subst b1 b2
    have h3 := renameVisitor.acceptIfPresentAt_agree g order i w2 w2' k2 (b3.trans b5.symm)
      (b4.trans b6.symm)
    dsimp only
    generalize renameVisitor.acceptIfPresentAt g order w2 k2 i = r at h3
    generalize renameVisitor.acceptIfPresentAt g order w2' k2 i = r' at h3
    obtain ⟨e3, w3, k3, n3⟩ := r
    obtain ⟨e3', w3', k3', n3'⟩ := r'
    obtain ⟨c1, c2, c3, c4, c5, c6, c7⟩ := h3
    simp only [Prod.mk.injEq] at c1 c2 c3 c4 c5 c6 c7
    obtain ⟨rfl, rfl⟩ := c7
    subst c1 c2
    exact ⟨rfl, rfl, (c3.trans b3).trans a3, (c4.trans b4).trans a4,
      (c5.trans b3).trans a3, (c6.trans b4).trans a4, rfl⟩
theorem renameVisitor.acceptIfPresentAt_agree (g : GoMap Helper) (order : RangeOrder) :
    ∀ (n : Option Program) (v v' : renameVisitor) (k : Nat), v.tpl = v'.tpl →
      v.variables_ = v'.variables_ →
      renameVisitor.Agree v (renameVisitor.acceptIfPresentAt g order v k n)
        (renameVisitor.acceptIfPresentAt g order v' k n)
  | some p, v, v', k, ht, hm => by
    rw [renameVisitor.acceptIfPresentAt, renameVisitor.acceptIfPresentAt]
    exact (renameVisitor.VisitProgramAt_agree g order p v v' k ht hm).lift some
  | none, v, v', k, ht, hm => by
    rw [renameVisitor.acceptIfPresentAt, renameVisitor.acceptIfPresentAt]
    exact ⟨rfl, rfl, rfl, rfl, ht.symm, hm.symm, rfl⟩
theorem renameVisitor.VisitExpressionAt_agree (g : GoMap Helper) (order : RangeOrder) :
    ∀ (n : Expression) (v v' : renameVisitor) (k : Nat), v.tpl = v'.tpl →
      v.variables_ = v'.variables_ →
      renameVisitor.Agree v (renameVisitor.VisitExpressionAt g order v k n)
        (renameVisitor.VisitExpressionAt g order v' k n)
  | .mk path ps h, v, v', k, ht, hm => by
    rw [renameVisitor.VisitExpressionAt, renameVisitor.VisitExpressionAt]
    have h1 := renameVisitor.acceptEachAt_agree g order ps v v' k ht hm
    generalize renameVisitor.acceptEachAt g order v k ps = r at h1
    generalize renameVisitor.acceptEachAt g order v' k ps = r' at h1
    obtain ⟨e1, w, k1, n1⟩ := r
    obtain ⟨e1', w', k1', n1'⟩ := r'
    obtain ⟨a1, a2, a3, a4, a5, a6, a7⟩ := h1
    simp only [Prod.mk.injEq] at a1 a2 a3 a4 a5 a6 a7
    obtain ⟨rfl, rfl⟩ := a7
    subst a1 a2
    dsimp only
    rw [renameVisitor.findHelper_congr g (a5.trans a3.symm)]
    generalize ((Expression.mk path ps h).HelperName != "" &&
      (renameVisitor.findHelper g w (Expression.mk path ps h).HelperName).isSome) = done
    cases done <;> cases (Expression.mk path ps h).LiteralStr.2 <;>
      cases (Expression.mk path ps h).FieldPath <;>
      simp only [Bool.not_false, Bool.not_true, Bool.and_true, Bool.and_false, if_true,
        if_false, Bool.false_eq_true, Bool.true_and, Bool.false_and] <;>
      first
      | exact ⟨rfl, rfl, a3, a4, a5, a6, rfl⟩
      | (rw [← renameVisitor.VisitPathAt_congr order (a4.trans a6.symm)]
         have hne := renameVisitor.VisitPathAt_noError order w k1 ‹PathExpression›
         generalize renameVisitor.VisitPathAt order w k1 ‹PathExpression› = q at hne
         obtain ⟨eq, kq, pq⟩ := q
         simp only at hne
         subst hne
         exact ⟨rfl, rfl, a3, a4, a5, a6, rfl⟩)
theorem renameVisitor.VisitSubExpressionAt_agree (g : GoMap Helper) (order : RangeOrder) :
    ∀ (n : SubExpression) (v v' : renameVisitor) (k : Nat), v.tpl = v'.tpl →
      v.variables_ = v'.variables_ →
      renameVisitor.Agree v (renameVisitor.VisitSubExpressionAt g order v k n)
        (renameVisitor.VisitSubExpressionAt g order v' k n)
  | .mk e, v, v', k, ht, hm => by
    rw [renameVisitor.VisitSubExpressionAt, renameVisitor.VisitSubExpressionAt]
    exact ((renameVisitor.VisitExpressionAt_agree g order e
      (v.at_ (.subExpression (.mk e))) (v'.at_ (.subExpression (.mk e))) k ht hm).rebase
      rfl rfl).lift SubExpression.mk
theorem renameVisitor.VisitHashAt_agree (g : GoMap Helper) (order : RangeOrder) :
    ∀ (n : Hash) (v v' : renameVisitor) (k : Nat), v.tpl = v'.tpl →
      v.variables_ = v'.variables_ →
      renameVisitor.Agree v (renameVisitor.VisitHashAt g order v k n)
        (renameVisitor.VisitHashAt g order v' k n)
  | .mk ps, v, v', k, ht, hm => by
    rw [renameVisitor.VisitHashAt, renameVisitor.VisitHashAt]
    exact ((renameVisitor.acceptPairsAt_agree g order ps (v.at_ (.hash (.mk ps)))
      (v'.at_ (.hash (.mk ps))) k ht hm).rebase rfl rfl).lift Hash.mk
theorem renameVisitor.acceptPairsAt_agree (g : GoMap Helper) (order : RangeOrder) :
    ∀ (ns : List HashPair) (v v' : renameVisitor) (k : Nat), v.tpl = v'.tpl →
      v.variables_ = v'.variables_ →
      renameVisitor.Agree v (renameVisitor.acceptPairsAt g order v k ns)
        (renameVisitor.acceptPairsAt g order v' k ns)
  | [], v, v', k, ht, hm => by
    rw [renameVisitor.acceptPairsAt, renameVisitor.acceptPairsAt]
    exact ⟨rfl, rfl, rfl, rfl, ht.symm, hm.symm, rfl⟩
  | n :: ns, v, v', k, ht, hm => by
    rw [renameVisitor.acceptPairsAt, renameVisitor.acceptPairsAt]
    have h1 := renameVisitor.VisitHashPairAt_agree g order n v v' k ht hm
    generalize renameVisitor.VisitHashPairAt g order v k n = r at h1
    generalize renameVisitor.VisitHashPairAt g order v' k n = r' at h1
    obtain ⟨e, w, k1, n1⟩ := r
    obtain ⟨e', w', k1', n1'⟩ := r'
    obtain ⟨a1, a2, a3, a4, a5, a6, a7⟩ := h1
    simp only [Prod.mk.injEq] at a1 a2 a3 a4 a5 a6 a7
    obtain ⟨rfl, rfl⟩ := a7
    subst a1 a2
    exact ((renameVisitor.acceptPairsAt_agree g order ns w w' k1 (a3.trans a5.symm)
      (a4.trans a6.symm)).rebase a3 a4).lift (fun ns' => n1 :: ns')
theorem renameVisitor.VisitHashPairAt_agree (g : GoMap Helper) (order : RangeOrder) :
    ∀ (n : HashPair) (v v' : renameVisitor) (k : Nat), v.tpl = v'.tpl →
      v.variables_ = v'.variables_ →
      renameVisitor.Agree v (renameVisitor.VisitHashPairAt g order v k n)
        (renameVisitor.VisitHashPairAt g order v' k n)
  | .mk key val, v, v', k, ht, hm => by
    rw [renameVisitor.VisitHashPairAt, renameVisitor.VisitHashPairAt]
    exact ((renameVisitor.AcceptAt_agree g order val (v.at_ (.hashPair (.mk key val)))
      (v'.at_ (.hashPair (.mk key val))) k ht hm).rebase rfl rfl).lift (HashPair.mk key)
end


theorem renameVisitor.Matches.carry {α β : Type}
    {r : Option Err × renameVisitor × Nat × α} {s : Option Err × renameVisitor × α}
    (h : renameVisitor.Matches r s) (c : α → β) :
    renameVisitor.Matches (r.1, r.2.1, r.2.2.1, c r.2.2.2) (s.1, s.2.1, c s.2.2) := by
  obtain ⟨h1, h2, h3⟩ := h
  exact ⟨h1, h2, by simp only [h3]⟩

theorem renameVisitor.VisitPathAt_asListed (v : renameVisitor) (k : Nat)
    (p : PathExpression) :
    (renameVisitor.VisitPathAt RangeOrder.asListed v k p).1 = (v.VisitPath p).1 ∧
      (renameVisitor.VisitPathAt RangeOrder.asListed v k p).2.2 = (v.VisitPath p).2 := by
  unfold renameVisitor.VisitPathAt renameVisitor.VisitPath
  split <;> exact ⟨rfl, rfl⟩

mutual
theorem renameVisitor.AcceptAt_asListed (g : GoMap Helper) :
    ∀ (n : Node) (v : renameVisitor) (k : Nat),
      renameVisitor.Matches (renameVisitor.AcceptAt g RangeOrder.asListed v k n)
        (renameVisitor.Accept g v n)
  | .program n, v, k => by
    rw [renameVisitor.AcceptAt, renameVisitor.Accept]
    exact (renameVisitor.VisitProgramAt_asListed g n v k).carry Node.program
  | .mustache n, v, k => by
    rw [renameVisitor.AcceptAt, renameVisitor.Accept]
    exact (renameVisitor.VisitMustacheAt_asListed g n v k).carry Node.mustache
  | .block n, v, k => by
    rw [renameVisitor.AcceptAt, renameVisitor.Accept]
    exact (renameVisitor.VisitBlockAt_asListed g n v k).carry Node.block
  | .partialStatement n, v, k => by
    rw [renameVisitor.AcceptAt, renameVisitor.Accept]; exact ⟨rfl, rfl, rfl⟩
  | .content n, v, k => by
    rw [renameVisitor.AcceptAt, renameVisitor.Accept]; exact ⟨rfl, rfl, rfl⟩
  | .comment n, v, k => by
    rw [renameVisitor.AcceptAt, renameVisitor.Accept]; exact ⟨rfl, rfl, rfl⟩
  | .expression n, v, k => by
    rw [renameVisitor.AcceptAt, renameVisitor.Accept]
    exact (renameVisitor.VisitExpressionAt_asListed g n v k).carry Node.expression
  | .subExpression n, v, k => by
    rw [renameVisitor.AcceptAt, renameVisitor.Accept]
    exact (renameVisitor.VisitSubExpressionAt_asListed g n v k).carry Node.subExpression
  | .path n, v, k => by
    rw [renameVisitor.AcceptAt, renameVisitor.Accept]
    obtain ⟨h1, h2⟩ := renameVisitor.VisitPathAt_asListed v k n
    exact ⟨h1, rfl, by simp only [h2]⟩
  | .string n, v, k => by
    rw [renameVisitor.AcceptAt, renameVisitor.Accept]; exact ⟨rfl, rfl, rfl⟩
  | .boolean n, v, k => by
    rw [renameVisitor.AcceptAt, renameVisitor.Accept]; exact ⟨rfl, rfl, rfl⟩
  | .number n, v, k => by
    rw [renameVisitor.AcceptAt, renameVisitor.Accept]; exact ⟨rfl, rfl, rfl⟩
  | .hash n, v, k => by
    rw [renameVisitor.AcceptAt, renameVisitor.Accept]
    exact (renameVisitor.VisitHashAt_asListed g n v k).carry Node.hash
  | .hashPair n, v, k => by
    rw [renameVisitor.AcceptAt, renameVisitor.Accept]
    exact (renameVisitor.VisitHashPairAt_asListed g n v k).carry Node.hashPair
theorem renameVisitor.acceptEachAt_asListed (g : GoMap Helper) :
    ∀ (ns : List Node) (v : renameVisitor) (k : Nat),
      renameVisitor.Matches (renameVisitor.acceptEachAt g RangeOrder.asListed v k ns)
        (renameVisitor.acceptEach g v ns)
  | [], v, k => by
    rw [renameVisitor.acceptEachAt, renameVisitor.acceptEach]; exact ⟨rfl, rfl, rfl⟩
  | n :: ns, v, k => by
    rw [renameVisitor.acceptEachAt, renameVisitor.acceptEach]
    have h1 := renameVisitor.AcceptAt_asListed g n v k
    generalize renameVisitor.AcceptAt g RangeOrder.asListed v k n = r at h1
    generalize renameVisitor.Accept g v n = s at h1
    obtain ⟨e, w, k1, n1⟩ := r
    obtain ⟨e', w', n1'⟩ := s
    obtain ⟨a1, a2, a3⟩ := h1
    simp only at a1 a2 a3
    subst a1 a2 a3
    cases e with
    | some err => exact ⟨rfl, rfl, rfl⟩
    | none =>
      exact (renameVisitor.acceptEachAt_asListed g ns w k1).carry (fun ns' => n1 :: ns')
theorem renameVisitor.VisitProgramAt_asListed (g : GoMap Helper) :
    ∀ (n : Program) (v : renameVisitor) (k : Nat),
      renameVisitor.Matches (renameVisitor.VisitProgramAt g RangeOrder.asListed v k n)
        (renameVisitor.VisitProgram g v n)
  | .mk bp body, v, k => by
    rw [renameVisitor.VisitProgramAt, renameVisitor.VisitProgram]
    exact (renameVisitor.acceptEachAt_asListed g body _ k).carry (Program.mk bp)
theorem renameVisitor.VisitMustacheAt_asListed (g : GoMap Helper) :
    ∀ (n : MustacheStatement) (v : renameVisitor) (k : Nat),
      renameVisitor.Matches (renameVisitor.VisitMustacheAt g RangeOrder.asListed v k n)
        (renameVisitor.VisitMustache g v n)
  | .mk e, v, k => by
    rw [renameVisitor.VisitMustacheAt, renameVisitor.VisitMustache]
    exact (renameVisitor.VisitExpressionAt_asListed g e _ k).carry MustacheStatement.mk
theorem renameVisitor.VisitBlockAt_asListed (g : GoMap Helper) :
    ∀ (n : BlockStatement) (v : renameVisitor) (k : Nat),
      renameVisitor.Matches (renameVisitor.VisitBlockAt g RangeOrder.asListed v k n)
        (renameVisitor.VisitBlock g v n)
  | .mk e p i, v, k => by
    rw [renameVisitor.VisitBlockAt, renameVisitor.VisitBlock]
    have h1 := renameVisitor.VisitExpressionAt_asListed g e
      { v.at_ (.block (.mk e p i)) with
        blockStack := (v.at_ (.block (.mk e p i))).blockStack ++ [BlockStatement.mk e p i] }
      k
    generalize renameVisitor.VisitExpressionAt g RangeOrder.asListed _ k e = r at h1
    generalize renameVisitor.VisitExpression g _ e = s at h1
    obtain ⟨e1, w, k1, n1⟩ := r
    obtain ⟨e1', w', n1'⟩ := s
    obtain ⟨a1, a2, a3⟩ := h1
    simp only at a1 a2 a3
    subst a1 a2 a3
    cases e1 with
    | some err => exact ⟨rfl, rfl, rfl⟩
    | none =>
      have h2 := renameVisitor.acceptIfPresentAt_asListed g p w k1
      dsimp only
      generalize renameVisitor.acceptIfPresentAt g RangeOrder.asListed w k1 p = r at h2
      generalize renameVisitor.acceptIfPresent g w p = s at h2
      obtain ⟨e2, w2, k2, n2⟩ := r
      obtain ⟨e2', w2', n2'⟩ := s
      obtain ⟨b1, b2, b3⟩ := h2
      simp only at b1 b2 b3
      subst b1 b2 b3
      cases e2 with
      | some err => exact ⟨rfl, rfl, rfl⟩
      | none =>
        have h3 := renameVisitor.acceptIfPresentAt_asListed g i w2 k2
        dsimp only
        generalize renameVisitor.acceptIfPresentAt g RangeOrder.asListed w2 k2 i = r at h3
        generalize renameVisitor.acceptIfPresent g w2 i = s at h3
        obtain ⟨e3, w3, k3, n3⟩ := r
        obtain ⟨e3', w3', n3'⟩ := s
        obtain ⟨c1, c2, c3⟩ := h3
        simp only at c1 c2 c3
        subst c1 c2 c3
        cases e3 with
        | some err => exact ⟨rfl, rfl, rfl⟩
        | none => exact ⟨rfl, rfl, rfl⟩
theorem renameVisitor.acceptIfPresentAt_asListed (g : GoMap Helper) :
    ∀ (n : Option Program) (v : renameVisitor) (k : Nat),
      renameVisitor.Matches (renameVisitor.acceptIfPresentAt g RangeOrder.asListed v k n)
        (renameVisitor.acceptIfPresent g v n)
  | some p, v, k => by
    rw [renameVisitor.acceptIfPresentAt, renameVisitor.acceptIfPresent]
    exact (renameVisitor.VisitProgramAt_asListed g p v k).carry some
  | none, v, k => by
    rw [renameVisitor.acceptIfPresentAt, renameVisitor.acceptIfPresent]; exact ⟨rfl, rfl, rfl⟩
theorem renameVisitor.VisitExpressionAt_asListed (g : GoMap Helper) :
    ∀ (n : Expression) (v : renameVisitor) (k : Nat),
      renameVisitor.Matches (renameVisitor.VisitExpressionAt g RangeOrder.asListed v k n)
        (renameVisitor.VisitExpression g v n)
  | .mk path ps h, v, k => by
    rw [renameVisitor.VisitExpressionAt, renameVisitor.VisitExpression]
    have h1 := renameVisitor.acceptEachAt_asListed g ps v k
    generalize renameVisitor.acceptEachAt g RangeOrder.asListed v k ps = r at h1
    generalize renameVisitor.acceptEach g v ps = s at h1
    obtain ⟨e1, w, k1, n1⟩ := r
    obtain ⟨e1', w', n1'⟩ := s
    obtain ⟨a1, a2, a3⟩ := h1
    simp only at a1 a2 a3
    subst a1 a2 a3
    cases e1 with
    | some err => exact ⟨rfl, rfl, rfl⟩
    | none =>
      dsimp only
      generalize ((Expression.mk path ps h).HelperName != "" &&
        (renameVisitor.findHelper g w (Expression.mk path ps h).HelperName).isSome) = done
      cases done <;> cases (Expression.mk path ps h).LiteralStr.2 <;>
        cases (Expression.mk path ps h).FieldPath <;>
        simp only [Bool.not_false, Bool.not_true, Bool.and_true, Bool.and_false, if_true,
          if_false, Bool.false_eq_true, Bool.true_and, Bool.false_and] <;>
        first
        | exact ⟨rfl, rfl, rfl⟩
        | (obtain ⟨q1, q2⟩ := renameVisitor.VisitPathAt_asListed w k1 ‹PathExpression›
           generalize renameVisitor.VisitPathAt RangeOrder.asListed w k1 ‹PathExpression› = q
             at q1 q2
           generalize renameVisitor.VisitPath w ‹PathExpression› = q' at q1 q2
           obtain ⟨eq, kq, pq⟩ := q
           obtain ⟨eq', pq'⟩ := q'
           simp only at q1 q2
           subst q1 q2
           cases eq <;> exact ⟨rfl, rfl, rfl⟩)
theorem renameVisitor.VisitSubExpressionAt_asListed (g : GoMap Helper) :
    ∀ (n : SubExpression) (v : renameVisitor) (k : Nat),
      renameVisitor.Matches (renameVisitor.VisitSubExpressionAt g RangeOrder.asListed v k n)
        (renameVisitor.VisitSubExpression g v n)
  | .mk e, v, k => by
    rw [renameVisitor.VisitSubExpressionAt, renameVisitor.VisitSubExpression]
    exact (renameVisitor.VisitExpressionAt_asListed g e _ k).carry SubExpression.mk
theorem renameVisitor.VisitHashAt_asListed (g : GoMap Helper) :
    ∀ (n : Hash) (v : renameVisitor) (k : Nat),
      renameVisitor.Matches (renameVisitor.VisitHashAt g RangeOrder.asListed v k n)
        (renameVisitor.VisitHash g v n)
  | .mk ps, v, k => by
    rw [renameVisitor.VisitHashAt, renameVisitor.VisitHash]
    exact (renameVisitor.acceptPairsAt_asListed g ps _ k).carry Hash.mk
theorem renameVisitor.acceptPairsAt_asListed (g : GoMap Helper) :
    ∀ (ns : List HashPair) (v : renameVisitor) (k : Nat),
      renameVisitor.Matches (renameVisitor.acceptPairsAt g RangeOrder.asListed v k ns)
        (renameVisitor.acceptPairs g v ns)
  | [], v, k => by
    rw [renameVisitor.acceptPairsAt, renameVisitor.acceptPairs]; exact ⟨rfl, rfl, rfl⟩
  | n :: ns, v, k => by
    rw [renameVisitor.acceptPairsAt, renameVisitor.acceptPairs]
    have h1 := renameVisitor.VisitHashPairAt_asListed g n v k
    generalize renameVisitor.VisitHashPairAt g RangeOrder.asListed v k n = r at h1
    generalize renameVisitor.VisitHashPair g v n = s at h1
    obtain ⟨e, w, k1, n1⟩ := r
    obtain ⟨e', w', n1'⟩ := s
    obtain ⟨a1, a2, a3⟩ := h1
    simp only at a1 a2 a3
    subst a1 a2 a3
    cases e with
    | some err => exact ⟨rfl, rfl, rfl⟩
    | none =>
      exact (renameVisitor.acceptPairsAt_asListed g ns w k1).carry (fun ns' => n1 :: ns')
theorem renameVisitor.VisitHashPairAt_asListed (g : GoMap Helper) :
    ∀ (n : HashPair) (v : renameVisitor) (k : Nat),
      renameVisitor.Matches (renameVisitor.VisitHashPairAt g RangeOrder.asListed v k n)
        (renameVisitor.VisitHashPair g v n)
  | .mk key val, v, k => by
    rw [renameVisitor.VisitHashPairAt, renameVisitor.VisitHashPair]
    exact (renameVisitor.AcceptAt_asListed g val _ k).carry (HashPair.mk key)
end

theorem Template.RenameAt_asListed (parser : Parser) (g : GoMap Helper) (tpl : Template)
    (M : List (String × String)) :
    tpl.RenameAt parser g RangeOrder.asListed M = tpl.Rename parser g M := by
  unfold Template.RenameAt Template.Rename
  generalize tpl.parse parser = r
  obtain ⟨e, t⟩ := r
  cases e with
  | some err => rfl
  | none =>
    dsimp only
    cases t.program with
    | none => rfl
    | some prog =>
      dsimp only
      obtain ⟨h1, -, h3⟩ := renameVisitor.VisitProgramAt_asListed g prog
        (newRenameVisitor t M) 0
      generalize renameVisitor.VisitProgramAt g RangeOrder.asListed (newRenameVisitor t M) 0
        prog = r at h1 h3
      generalize renameVisitor.VisitProgram g (newRenameVisitor t M) prog = s at h1 h3
      obtain ⟨e1, w, k1, n1⟩ := r
      obtain ⟨e1', w', n1'⟩ := s
      simp only at h1 h3
      subst h1 h3
      rfl


/-- C11: the rename pass does not distinguish block-nested from top-level
references, whatever order each range of the mapping takes.  Every visit, in
any state, returns no error; two visitors with the same template and mapping
that differ in the block stack leave the same node after the same number of
ranges; a field reference is rewritten, at top level and inside a block alike,
by the rule of `VisitPath` for the order of its range; the visit of a block,
in any state, leaves the block of its call expression, its primary body and
its inverse body as a top-level visitor rewrites them one after the other;
and `Rename` on a parsed template returns no error.  When every range takes
the pairs as listed this is `Rename` with its one list. -/
theorem Template.RenameAt_uniform (parser : Parser) (g : GoMap Helper) (order : RangeOrder)
    (tpl : Template) (M : List (String × String)) :
    (∀ (v : renameVisitor) (k : Nat) (n : Node),
        (renameVisitor.AcceptAt g order v k n).1 = none) ∧
      (∀ (v v' : renameVisitor) (k : Nat) (n : Node), v.tpl = v'.tpl →
        v.variables_ = v'.variables_ →
        (renameVisitor.AcceptAt g order v k n).2.2 =
          (renameVisitor.AcceptAt g order v' k n).2.2) ∧
      (∀ (v : renameVisitor) (k : Nat) (p : PathExpression),
        (renameVisitor.VisitPathAt order v k p).1 = none ∧
          (renameVisitor.VisitPathAt order v k p).2.2 =
            (renameVisitor.VisitPath { v with variables_ := order k v.variables_ } p).2 ∧
          (renameVisitor.AcceptAt g order v k (.path p)).2.2.2 =
            .path (renameVisitor.VisitPath
              { v with variables_ := order k v.variables_ } p).2) ∧
      (∀ (v : renameVisitor) (k : Nat) (e : Expression) (p i : Option Program),
        v.tpl = tpl → v.variables_ = M →
        (renameVisitor.VisitBlockAt g order v k (.mk e p i)).2.2.2 =
          BlockStatement.mk
            (renameVisitor.VisitExpressionAt g order (newRenameVisitor tpl M) k e).2.2.2
            (renameVisitor.acceptIfPresentAt g order (newRenameVisitor tpl M)
              (renameVisitor.VisitExpressionAt g order (newRenameVisitor tpl M) k e).2.2.1
              p).2.2.2
            (renameVisitor.acceptIfPresentAt g order (newRenameVisitor tpl M)
              (renameVisitor.acceptIfPresentAt g order (newRenameVisitor tpl M)
                (renameVisitor.VisitExpressionAt g order (newRenameVisitor tpl M) k
                  e).2.2.1 p).2.2.1 i).2.2.2) ∧
      (∀ prog : Program, tpl.program = some prog →
        (tpl.RenameAt parser g order M).1 = .returned none) ∧
      tpl.RenameAt parser g RangeOrder.asListed M = tpl.Rename parser g M := by
  refine ⟨?_, ?_, ?_, ?_, ?_, Template.RenameAt_asListed parser g tpl M⟩
  · intro v k n
    exact (renameVisitor.AcceptAt_agree g order n v v k rfl rfl).1
  · intro v v' k n ht hm
    exact (renameVisitor.AcceptAt_agree g order n v v' k ht hm).2.2.2.2.2.2
  · intro v k p
    have h : (renameVisitor.VisitPathAt order v k p).2.2 =
        (renameVisitor.VisitPath { v with variables_ := order k v.variables_ } p).2 := by
      unfold renameVisitor.VisitPathAt renameVisitor.VisitPath
      split <;> rfl
    refine ⟨renameVisitor.VisitPathAt_noError order v k p, h, ?_⟩
    rw [renameVisitor.AcceptAt, ← h]
  · intro v k e p i ht hm
    rw [renameVisitor.VisitBlockAt]
    have h1 := renameVisitor.VisitExpressionAt_agree g order e
      { v.at_ (.block (.mk e p i)) with
        blockStack := (v.at_ (.block (.mk e p i))).blockStack ++ [BlockStatement.mk e p i] }
      (newRenameVisitor tpl M) k ht hm
    generalize renameVisitor.VisitExpressionAt g order _ k e = r at h1
    generalize renameVisitor.VisitExpressionAt g order (newRenameVisitor tpl M) k e = r'
      at h1
    obtain ⟨e1, w, k1, n1⟩ := r
    obtain ⟨e1', w', k1', n1'⟩ := r'
    obtain ⟨a1, a2, a3, a4, a5, a6, a7⟩ := h1
    simp only [Prod.mk.injEq, renameVisitor.at_] at a1 a2 a3 a4 a5 a6 a7
    obtain ⟨rfl, rfl⟩ := a7
    subst a1 a2
    have h2 := renameVisitor.acceptIfPresentAt_agree g order p w (newRenameVisitor tpl M) k1
      (a3.trans ht) (a4.trans hm)
    dsimp only
    generalize renameVisitor.acceptIfPresentAt g order w k1 p = r at h2
    generalize renameVisitor.acceptIfPresentAt g order (newRenameVisitor tpl M) k1 p = r'
      at h2
    obtain ⟨e2, w2, k2, n2⟩ := r
    obtain ⟨e2', w2', k2', n2'⟩ := r'
    obtain ⟨b1, b2, b3, b4, b5, b6, b7⟩ := h2
    simp only [Prod.mk.injEq] at b1 b2 b3 b4 b5 b6 b7
    obtain ⟨rfl, rfl⟩ := b7
    subst b1 b2
    have h3 := renameVisitor.acceptIfPresentAt_agree g order i w2 (newRenameVisitor tpl M)
      k2 ((b3.trans a3).trans ht) ((b4.trans a4).trans hm)
    dsimp only
    generalize renameVisitor.acceptIfPresentAt g order w2 k2 i = r at h3
    generalize renameVisitor.acceptIfPresentAt g order (newRenameVisitor tpl M) k2 i = r'
      at h3
    obtain ⟨e3, w3, k3, n3⟩ := r
    obtain ⟨e3', w3', k3', n3'⟩ := r'
    obtain ⟨c1, c2, c3, c4, c5, c6, c7⟩ := h3
    simp only [Prod.mk.injEq] at c1 c2 c3 c4 c5 c6 c7
    obtain ⟨rfl, rfl⟩ := c7
    subst c1 c2
    rfl
  · intro prog hp
    have h := (renameVisitor.VisitProgramAt_agree g order prog (newRenameVisitor tpl M)
      (newRenameVisitor tpl M) 0 rfl rfl).1
    simp only [Template.RenameAt, Template.parse_of_program hp, hp]
    generalize renameVisitor.VisitProgramAt g order (newRenameVisitor tpl M) 0 prog = r at h
    obtain ⟨e1, w, k1, n1⟩ := r
    simp only at h
    subst h
    rfl

theorem Template.RenameAt_uniform_witness :
    twiceTemplate.RenameAt noParser [] RangeOrder.turning [("a", "x"), ("ab", "y")] =
        (.returned none, twiceTemplate.setProgram (some (.mk []
          [.mustache (.mk (.mk (.path ⟨"xb", ["xb"]⟩) [] none)),
            .block (.mk (.mk (.path ⟨"if", ["if"]⟩) [.path ⟨"c", ["c"]⟩] none)
              (some (.mk [] [.mustache (.mk (.mk (.path ⟨"y", ["y"]⟩) [] none))]))
              none)]))) ∧
      (renameVisitor.AcceptAt [] RangeOrder.turning
          { newRenameVisitor twiceTemplate [("a", "x"), ("ab", "y")] with
            blockStack := [eachBlock, eachBlock] } 3
          (.mustache (.mk (.mk (.path ⟨"ab", ["ab"]⟩) [] none)))).2.2 =
        (renameVisitor.AcceptAt [] RangeOrder.turning
          (newRenameVisitor twiceTemplate [("a", "x"), ("ab", "y")]) 3
          (.mustache (.mk (.mk (.path ⟨"ab", ["ab"]⟩) [] none)))).2.2 ∧
      (twiceTemplate.RenameAt noParser [] RangeOrder.turning
        [("a", "x"), ("ab", "y")]).1 = .returned none :=
  ⟨rfl,
    (Template.RenameAt_uniform noParser [] RangeOrder.turning twiceTemplate
      [("a", "x"), ("ab", "y")]).2.1 _ _ 3 _ rfl rfl,
    (Template.RenameAt_uniform noParser [] RangeOrder.turning twiceTemplate
      [("a", "x"), ("ab", "y")]).2.2.2.2.1 twiceProgram rfl⟩

end Raymond
